import Mathlib

/-!
# Verification of the Canonicalization & Merge Engine of `update_dokuwiki.py`

This file gives a shallow embedding, in Lean 4, of the core of the
`mythsandlegends-datapack` wiki-update script (`src/update_dokuwiki.py`):

* the canonicalizer `make_hashable` (lines 125-137),
* the merge engine `merge_similar_spawns` (lines 140-209), including its
  field-specific pre-sorting of sub-record lists, its fallback key policy
  and its Python-level failure modes (uncaught exceptions are modelled by
  `Except`),
* the change-gated publication logic of `update_wiki_page`
  (lines 423-451): text normalization and the publish decision.

Python values drawn from the JSON spawn files are modelled by the closed
JSON type `JValue`; JSON numbers are modelled by `Int` (no arithmetic is
performed on them, they are only compared).  Python dictionaries are
modelled as association lists with (implicitly) distinct string keys, the
shape produced by the JSON loader.  Python object equality (`==`), which
identifies `True` with `1` and `False` with `0` and compares dicts without
regard to enumeration order, is modelled as equality of normal forms
(`jNorm`).  Exceptions escaping a Python function are modelled by the
`Except PyErr` monad; a run of `merge_similar_spawns` that raises is an
`Except.error`.
-/

set_option maxHeartbeats 1000000

namespace Spawn

/-- A JSON-shaped Python value (the shape of values in the spawn files):
`null`, booleans, numbers, strings, lists and string-keyed dicts. -/
inductive JValue where
  | nullJ  : JValue
  | boolJ  : Bool → JValue
  | numJ   : Int → JValue
  | strJ   : String → JValue
  | listJ  : List JValue → JValue
  | objJ   : List (String × JValue) → JValue
  deriving Repr

mutual

/-- Structural decidable equality for `JValue` (the automatic deriving does
not handle nested inductives). -/
def decEqJ : (a b : JValue) → Decidable (a = b)
  | .nullJ, .nullJ => isTrue rfl
  | .boolJ a, .boolJ b =>
      if h : a = b then isTrue (by rw [h]) else isFalse (fun hh => h (by injection hh))
  | .numJ a, .numJ b =>
      if h : a = b then isTrue (by rw [h]) else isFalse (fun hh => h (by injection hh))
  | .strJ a, .strJ b =>
      if h : a = b then isTrue (by rw [h]) else isFalse (fun hh => h (by injection hh))
  | .listJ l, .listJ m =>
      match decEqJList l m with
      | isTrue h => isTrue (by rw [h])
      | isFalse h => isFalse (fun hh => h (by injection hh))
  | .objJ l, .objJ m =>
      match decEqJObj l m with
      | isTrue h => isTrue (by rw [h])
      | isFalse h => isFalse (fun hh => h (by injection hh))
  | .nullJ, .boolJ _ | .nullJ, .numJ _ | .nullJ, .strJ _ | .nullJ, .listJ _
  | .nullJ, .objJ _ | .boolJ _, .nullJ | .boolJ _, .numJ _ | .boolJ _, .strJ _
  | .boolJ _, .listJ _ | .boolJ _, .objJ _ | .numJ _, .nullJ | .numJ _, .boolJ _
  | .numJ _, .strJ _ | .numJ _, .listJ _ | .numJ _, .objJ _ | .strJ _, .nullJ
  | .strJ _, .boolJ _ | .strJ _, .numJ _ | .strJ _, .listJ _ | .strJ _, .objJ _
  | .listJ _, .nullJ | .listJ _, .boolJ _ | .listJ _, .numJ _ | .listJ _, .strJ _
  | .listJ _, .objJ _ | .objJ _, .nullJ | .objJ _, .boolJ _ | .objJ _, .numJ _
  | .objJ _, .strJ _ | .objJ _, .listJ _ => isFalse (fun h => by cases h)

def decEqJList : (l m : List JValue) → Decidable (l = m)
  | [], [] => isTrue rfl
  | [], _ :: _ => isFalse (fun h => by cases h)
  | _ :: _, [] => isFalse (fun h => by cases h)
  | x :: xs, y :: ys =>
      match decEqJ x y with
      | isTrue h1 =>
        match decEqJList xs ys with
        | isTrue h2 => isTrue (by rw [h1, h2])
        | isFalse h2 => isFalse (fun hh => h2 (by injection hh))
      | isFalse h1 => isFalse (fun hh => h1 (by injection hh))

def decEqJObj : (l m : List (String × JValue)) → Decidable (l = m)
  | [], [] => isTrue rfl
  | [], _ :: _ => isFalse (fun h => by cases h)
  | _ :: _, [] => isFalse (fun h => by cases h)
  | (k, v) :: xs, (k', v') :: ys =>
      if h0 : k = k' then
        match decEqJ v v' with
        | isTrue h1 =>
          match decEqJObj xs ys with
          | isTrue h2 => isTrue (by rw [h0, h1, h2])
          | isFalse h2 => isFalse (fun hh => h2 (by injection hh))
        | isFalse h1 =>
          isFalse (fun hh => h1 (by injection hh with h hs; injection h))
      else isFalse (fun hh => h0 (by injection hh with h hs; injection h))

end

instance : DecidableEq JValue := decEqJ

/-- The "hashable" values produced by `make_hashable` (lines 125-137):
scalars are unchanged, lists become tuples, dicts become frozensets of
(key, value) pairs.  A frozenset is represented canonically by its list of
pairs sorted by key (the source sorts `data.items()` before building the
frozenset; dict keys are distinct, so the sorted list determines the set). -/
inductive HValue where
  | nullH  : HValue
  | boolH  : Bool → HValue
  | numH   : Int → HValue
  | strH   : String → HValue
  | tupH   : List HValue → HValue
  | fsetH  : List (String × HValue) → HValue
  deriving Repr

mutual

/-- Structural decidable equality for `HValue`. -/
def decEqH : (a b : HValue) → Decidable (a = b)
  | .nullH, .nullH => isTrue rfl
  | .boolH a, .boolH b =>
      if h : a = b then isTrue (by rw [h]) else isFalse (fun hh => h (by injection hh))
  | .numH a, .numH b =>
      if h : a = b then isTrue (by rw [h]) else isFalse (fun hh => h (by injection hh))
  | .strH a, .strH b =>
      if h : a = b then isTrue (by rw [h]) else isFalse (fun hh => h (by injection hh))
  | .tupH l, .tupH m =>
      match decEqHList l m with
      | isTrue h => isTrue (by rw [h])
      | isFalse h => isFalse (fun hh => h (by injection hh))
  | .fsetH l, .fsetH m =>
      match decEqHObj l m with
      | isTrue h => isTrue (by rw [h])
      | isFalse h => isFalse (fun hh => h (by injection hh))
  | .nullH, .boolH _ | .nullH, .numH _ | .nullH, .strH _ | .nullH, .tupH _
  | .nullH, .fsetH _ | .boolH _, .nullH | .boolH _, .numH _ | .boolH _, .strH _
  | .boolH _, .tupH _ | .boolH _, .fsetH _ | .numH _, .nullH | .numH _, .boolH _
  | .numH _, .strH _ | .numH _, .tupH _ | .numH _, .fsetH _ | .strH _, .nullH
  | .strH _, .boolH _ | .strH _, .numH _ | .strH _, .tupH _ | .strH _, .fsetH _
  | .tupH _, .nullH | .tupH _, .boolH _ | .tupH _, .numH _ | .tupH _, .strH _
  | .tupH _, .fsetH _ | .fsetH _, .nullH | .fsetH _, .boolH _ | .fsetH _, .numH _
  | .fsetH _, .strH _ | .fsetH _, .tupH _ => isFalse (fun h => by cases h)

def decEqHList : (l m : List HValue) → Decidable (l = m)
  | [], [] => isTrue rfl
  | [], _ :: _ => isFalse (fun h => by cases h)
  | _ :: _, [] => isFalse (fun h => by cases h)
  | x :: xs, y :: ys =>
      match decEqH x y with
      | isTrue h1 =>
        match decEqHList xs ys with
        | isTrue h2 => isTrue (by rw [h1, h2])
        | isFalse h2 => isFalse (fun hh => h2 (by injection hh))
      | isFalse h1 => isFalse (fun hh => h1 (by injection hh))

def decEqHObj : (l m : List (String × HValue)) → Decidable (l = m)
  | [], [] => isTrue rfl
  | [], _ :: _ => isFalse (fun h => by cases h)
  | _ :: _, [] => isFalse (fun h => by cases h)
  | (k, v) :: xs, (k', v') :: ys =>
      if h0 : k = k' then
        match decEqH v v' with
        | isTrue h1 =>
          match decEqHObj xs ys with
          | isTrue h2 => isTrue (by rw [h0, h1, h2])
          | isFalse h2 => isFalse (fun hh => h2 (by injection hh))
        | isFalse h1 =>
          isFalse (fun hh => h1 (by injection hh with h hs; injection h))
      else isFalse (fun hh => h0 (by injection hh with h hs; injection h))

end

instance : DecidableEq HValue := decEqH

/-- Sort an association list by its string key (`sorted(data.items())` on a
dict whose keys are distinct never compares the values: tuple comparison
compares the keys first, and distinct keys decide the order). -/
def sortPairs {α : Type} : List (String × α) → List (String × α) :=
  List.insertionSort (fun p q => p.1.data ≤ q.1.data)

mutual

/-- `make_hashable` (lines 125-137): recursively converts lists to tuples
and dicts to (canonically represented) frozensets of (key, value) pairs;
scalars are returned unchanged.  (The source sorts `data.items()` and then
hashes each value; hashing the values first and then sorting by key is the
same function, because the sort compares only the keys.) -/
def make_hashable : JValue → HValue
  | .nullJ   => .nullH
  | .boolJ b => .boolH b
  | .numJ n  => .numH n
  | .strJ s  => .strH s
  | .listJ l => .tupH (mhList l)
  | .objJ l  => .fsetH (sortPairs (mhObj l))

def mhList : List JValue → List HValue
  | [] => []
  | x :: xs => make_hashable x :: mhList xs

def mhObj : List (String × JValue) → List (String × HValue)
  | [] => []
  | (k, v) :: xs => (k, make_hashable v) :: mhObj xs

end

/-! ## Python value equality

Python `==` identifies `True` with `1` and `False` with `0`, and compares
dicts as unordered key/value collections.  We model it as equality of
normal forms: booleans are collapsed into numbers and dict entries are
sorted by their (distinct) keys. -/

mutual

/-- Normal form of a `JValue` under Python `==`. -/
def jNorm : JValue → JValue
  | .nullJ   => .nullJ
  | .boolJ b => .numJ (if b then 1 else 0)
  | .numJ n  => .numJ n
  | .strJ s  => .strJ s
  | .listJ l => .listJ (jNormList l)
  | .objJ l  => .objJ (sortPairs (jNormObj l))

def jNormList : List JValue → List JValue
  | [] => []
  | x :: xs => jNorm x :: jNormList xs

def jNormObj : List (String × JValue) → List (String × JValue)
  | [] => []
  | (k, v) :: xs => (k, jNorm v) :: jNormObj xs

end

mutual

/-- Normal form of an `HValue` under Python `==` (frozensets built by
`make_hashable` are already represented sorted by key, so only the values
need normalizing). -/
def hNorm : HValue → HValue
  | .nullH   => .nullH
  | .boolH b => .numH (if b then 1 else 0)
  | .numH n  => .numH n
  | .strH s  => .strH s
  | .tupH l  => .tupH (hNormList l)
  | .fsetH l => .fsetH (hNormObj l)

def hNormList : List HValue → List HValue
  | [] => []
  | x :: xs => hNorm x :: hNormList xs

def hNormObj : List (String × HValue) → List (String × HValue)
  | [] => []
  | (k, v) :: xs => (k, hNorm v) :: hNormObj xs

end

/-- Python value equality (`==`) on JSON-shaped values, as a Bool. -/
def pyEqJ (a b : JValue) : Bool := jNorm a = jNorm b

/-- Python truthiness of a JSON-shaped value. -/
def pyTruthy : JValue → Bool
  | .nullJ   => false
  | .boolJ b => b
  | .numJ n  => n ≠ 0
  | .strJ s  => s ≠ ""
  | .listJ l => !l.isEmpty
  | .objJ l  => !l.isEmpty

/-- A Python value is hashable iff it is not a (raw) list or dict.  The
`HValue`s produced by `make_hashable` are always hashable. -/
def isHashableJ : JValue → Bool
  | .listJ _ => false
  | .objJ _  => false
  | _        => true

/-! ## Python exceptions and comparison (`<`)

Exceptions that can escape the merge are modelled by `PyErr`; Python's `<`
on mixed JSON-shaped values is partial and modelled in `Except PyErr`. -/

inductive PyErr where
  | typeError      : PyErr
  | attributeError : PyErr
  deriving DecidableEq, Repr

mutual

/-- Python `<` on JSON-shaped values: numbers (with booleans as 0/1)
compare numerically, strings lexicographically, lists lexicographically
elementwise; any other combination raises `TypeError`. -/
def pyLt : JValue → JValue → Except PyErr Bool
  | .boolJ a, .boolJ b => .ok (decide ((if a then (1:Int) else 0) < (if b then 1 else 0)))
  | .boolJ a, .numJ n  => .ok (decide ((if a then (1:Int) else 0) < n))
  | .numJ m, .boolJ b  => .ok (decide (m < (if b then (1:Int) else 0)))
  | .numJ m, .numJ n   => .ok (decide (m < n))
  | .strJ s, .strJ t   => .ok (decide (s.data < t.data))
  | .listJ l, .listJ m => pyLtList l m
  | _, _ => .error .typeError

def pyLtList : List JValue → List JValue → Except PyErr Bool
  | [], []           => .ok false
  | [], _ :: _       => .ok true
  | _ :: _, []       => .ok false
  | x :: xs, y :: ys => if pyEqJ x y then pyLtList xs ys else pyLt x y

end

/-- Insert `a` into `l` before the first element `b` with `¬ (b < a)`; the
comparisons themselves may raise.  This is the stable insertion performed
by Python's sort, with `lt b a` asking whether the existing element `b`
must stay in front of the new element `a`. -/
def orderedInsertE {α : Type} (lt : α → α → Except PyErr Bool) (a : α) :
    List α → Except PyErr (List α)
  | [] => .ok [a]
  | b :: l => do
      if (← lt b a) then
        let r ← orderedInsertE lt a l
        pure (b :: r)
      else
        pure (a :: b :: l)

/-- Stable sort with a fallible comparison, modelling Python's `sorted`.
Elements are processed so that an earlier element is inserted in front of
any equal later element (stability). -/
def insertionSortE {α : Type} (lt : α → α → Except PyErr Bool) :
    List α → Except PyErr (List α)
  | [] => .ok []
  | a :: l => do orderedInsertE lt a (← insertionSortE lt l)

/-- Look a key up in a Python dict modelled as an association list (dict
keys are distinct, so `find?` is the dict lookup). -/
def lookupJ (d : List (String × JValue)) (k : String) : Option JValue :=
  (d.find? (fun p => p.1 = k)).map (·.2)

/-- `x.get(field, '')` on a sub-record: raises `AttributeError` when the
element is not a dict (as in `sorted(..., key=lambda x: x.get('species', ''))`
over a list containing non-dict entries). -/
def subKey (field : String) : JValue → Except PyErr JValue
  | .objJ d => .ok ((lookupJ d field).getD (.strJ ""))
  | _ => .error .attributeError

/-- `sorted(l, key=lambda x: x.get(field, ''))` (lines 153 and 159): the
key of every element is computed first (raising if an element is not a
dict), then the list is stably sorted on the keys with Python `<`. -/
def sortByField (field : String) (l : List JValue) : Except PyErr (List JValue) := do
  let keyed ← l.mapM (fun x => do pure ((← subKey field x), x))
  let sorted ← insertionSortE (fun p q => pyLt p.1 q.1) keyed
  pure (sorted.map (·.2))

/-- What `sorted(v, key=...)` iterates over: a list yields its elements, a
string its characters, a dict its keys; numbers, booleans and `None` are
not iterable (`TypeError`). -/
def iterForSort : JValue → Except PyErr (List JValue)
  | .listJ l => .ok l
  | .strJ s  => .ok (s.data.map (fun c => .strJ (String.mk [c])))
  | .objJ l  => .ok (l.map (fun p => .strJ p.1))
  | _ => .error .typeError

/-- `key_conditions.get(k, []) or []` followed by iteration in `sorted`:
an absent or falsy value yields `[]`, a truthy value is iterated. -/
def getListOrEmpty (d : List (String × JValue)) (k : String) :
    Except PyErr (List JValue) :=
  match lookupJ d k with
  | none => .ok []
  | some v => if pyTruthy v then iterForSort v else .ok []

/-! ## The spawn record and the grouping key -/

/-- A spawn entry: a Python dict whose fields relevant to the merge are
explicit.  An `Option` distinguishes an absent key from a present value;
`condition`/`anticondition` further distinguish a present-but-`null` value
(`some none`) from a present dict (`some (some d)`).  Identifiers in the
datapack are strings; `otherFields` carries every remaining entry of the
dict (e.g. `"pokemon"`), which the merge copies through untouched. -/
structure SpawnRecord where
  id : Option String
  context : Option JValue
  level : Option JValue
  bucket : Option JValue
  weight : Option JValue
  weightMultiplier : Option JValue
  presets : Option JValue
  condition : Option (Option (List (String × JValue)))
  anticondition : Option (Option (List (String × JValue)))
  otherFields : List (String × JValue)
  deriving DecidableEq, Repr

/-- `spawn.get("condition", {}) or {}` (line 145): an absent or `null`
condition is the empty dict. -/
def getCond (r : SpawnRecord) : List (String × JValue) :=
  (Option.join r.condition).getD []

/-- `spawn.get("anticondition", {}) or {}` (line 146). -/
def getAnti (r : SpawnRecord) : List (String × JValue) :=
  (Option.join r.anticondition).getD []

/-- `{k: v for k, v in conditions.items() if k != 'biomes'}` (line 149). -/
def keyConditions (cond : List (String × JValue)) : List (String × JValue) :=
  cond.filter (fun p => p.1 ≠ "biomes")

/-- The per-entry value of the hashable key-conditions dict: the two
requirement lists have been replaced (lines 156 and 162) by the already
hashable sorted tuples (`make_hashable` returns tuples untouched), every
other value goes through `make_hashable`. -/
def hashCondEntry (hparty hitem : HValue) (p : String × JValue) : String × HValue :=
  if p.1 = "pokemon_in_party_requirement" then (p.1, hparty)
  else if p.1 = "item_requirement" then (p.1, hitem)
  else (p.1, make_hashable p.2)

/-- `make_hashable(key_conditions)` after the two requirement lists were
replaced by their hashable sorted forms: the items are sorted by key and
each value made hashable. -/
def hashConds (kc : List (String × JValue)) (hparty hitem : HValue) : HValue :=
  .fsetH ((sortPairs kc).map (hashCondEntry hparty hitem))

/-- The 8-tuple built at lines 170-180.  `spawn.get(...)` yields Python
`None` for an absent key, which `JValue.nullJ` models, so an absent field
and a `null` field coincide here (exactly as in Python). -/
structure SpawnKeyTuple where
  context : JValue
  level : JValue
  bucket : JValue
  weight : JValue
  weightMultiplier : HValue
  conditions : HValue
  anticonditions : HValue
  presets : List JValue
  deriving DecidableEq, Repr

/-- A grouping key: either the ordinary 8-tuple, or the fallback string
`"unique_" + ...` of line 183.  A Python string never equals a tuple, so
the two constructors never collide. -/
inductive SpawnKey where
  | tupK : SpawnKeyTuple → SpawnKey
  | strK : String → SpawnKey
  deriving DecidableEq, Repr

/-- Normal form of a key tuple under Python `==`. -/
def normTuple (t : SpawnKeyTuple) : SpawnKeyTuple :=
  { context := jNorm t.context
    level := jNorm t.level
    bucket := jNorm t.bucket
    weight := jNorm t.weight
    weightMultiplier := hNorm t.weightMultiplier
    conditions := hNorm t.conditions
    anticonditions := hNorm t.anticonditions
    presets := t.presets.map jNorm }

/-- Normal form of a grouping key under Python `==`; two keys are equal in
the `merged_spawns` dict iff their normal forms coincide. -/
def normKey : SpawnKey → SpawnKey
  | .tupK t => .tupK (normTuple t)
  | .strK s => .strK s

/-- `tuple(sorted(spawn.get("presets", [])))` (line 179), inside the
`try`: an absent key defaults to `[]`; a non-iterable value raises
`TypeError`, mixed incomparable elements raise while sorting.  Both are
caught by the `except` of line 181. -/
def presetsKey (v : Option JValue) : Except PyErr (List JValue) :=
  match v with
  | none => .ok []
  | some v => do insertionSortE pyLt (← iterForSort v)

/-- The key-tuple construction guarded by `try` (lines 169-180).  In this
model only the presets sorting can raise here (`make_hashable` is total on
JSON-shaped values). -/
def tryKeyTuple (r : SpawnRecord) (hconds hanti : HValue) :
    Except PyErr SpawnKeyTuple := do
  let ps ← presetsKey r.presets
  pure { context := r.context.getD .nullJ
         level := r.level.getD .nullJ
         bucket := r.bucket.getD .nullJ
         weight := r.weight.getD .nullJ
         weightMultiplier := make_hashable (r.weightMultiplier.getD .nullJ)
         conditions := hconds
         anticonditions := hanti
         presets := ps }

/-- The fallback key of line 183: `f"unique_{spawn.get('id', os.urandom(8).hex())}"`.
The entropy source is modelled by the parameter `urand`, giving the token
drawn while processing record number `idx`; two different runs use
different `urand`s. -/
def fallbackKey (urand : Nat → String) (idx : Nat) (r : SpawnRecord) : SpawnKey :=
  .strK ("unique_" ++ (match r.id with | some i => i | none => urand idx))

/-- Grouping-key computation for one record (lines 144-183).  The
pre-sorting and canonicalization of the condition dicts (lines 149-166)
happen *outside* the `try`, so their exceptions propagate; only the tuple
construction itself (lines 170-180) is guarded and falls back to the
unique string key. -/
def computeKey (urand : Nat → String) (idx : Nat) (r : SpawnRecord) :
    Except PyErr SpawnKey := do
  let party ← getListOrEmpty (keyConditions (getCond r)) "pokemon_in_party_requirement"
  let partySorted ← sortByField "species" party
  let item ← getListOrEmpty (keyConditions (getCond r)) "item_requirement"
  let itemSorted ← sortByField "id" item
  match tryKeyTuple r
      (hashConds (keyConditions (getCond r))
        (make_hashable (.listJ partySorted)) (make_hashable (.listJ itemSorted)))
      (make_hashable (.objJ (getAnti r))) with
  | .ok t => pure (.tupK t)
  | .error _ => pure (fallbackKey urand idx r)

/-- Whether using the key in the `merged_spawns` dict (first at line 189)
succeeds: the raw components of the tuple must be hashable (the `HValue`
components always are; the fallback string always is). -/
def keyHashable : SpawnKey → Bool
  | .tupK t => isHashableJ t.context && isHashableJ t.level && isHashableJ t.bucket &&
      isHashableJ t.weight && t.presets.all isHashableJ
  | .strK _ => true

/-- One group of the `merged_spawns` dict: the accumulated biome set
(modelled as an insertion-ordered list without Python-`==` duplicates) and
the first record seen for the key (`merged_spawns[key]["spawns"][0]`). -/
structure MergedGroup where
  biomes : List JValue
  rep : SpawnRecord
  deriving DecidableEq, Repr

/-- Adding one value to the biome set: hashing it first (raising
`TypeError` on a list or dict), then inserting unless an `==`-equal value
is present. -/
def setAdd (s : List JValue) (v : JValue) : Except PyErr (List JValue) :=
  if isHashableJ v then
    .ok (if s.any (fun w => jNorm w = jNorm v) then s else s ++ [v])
  else .error .typeError

/-- Lines 187-191: `conditions.get("biomes", [])`; a list contributes its
truthy elements, a truthy non-list is added as a single value. -/
def addBiomes (s : List JValue) (conds : List (String × JValue)) :
    Except PyErr (List JValue) :=
  match lookupJ conds "biomes" with
  | none => .ok s
  | some (.listJ bs) =>
      bs.foldlM (fun acc b => if pyTruthy b then setAdd acc b else pure acc) s
  | some v => if pyTruthy v then setAdd s v else .ok s

/-- Fold one record into the group list (lines 186-195).  The dict
preserves first-insertion order; the stored key object is the one first
inserted.  A key already present accumulates biomes; a new key opens a
group whose representative is the current record. -/
def insertRecord (key : SpawnKey) (conds : List (String × JValue)) (r : SpawnRecord) :
    List (SpawnKey × MergedGroup) → Except PyErr (List (SpawnKey × MergedGroup))
  | [] => do
      let bs ← addBiomes [] conds
      pure [(key, ⟨bs, r⟩)]
  | (k, g) :: rest =>
      if normKey k = normKey key then do
        let bs ← addBiomes g.biomes conds
        pure ((k, { g with biomes := bs }) :: rest)
      else do
        let rest' ← insertRecord key conds r rest
        pure ((k, g) :: rest')

/-- The grouping loop of lines 144-195 over the whole input, numbering the
records for the entropy source. -/
def mergeGroupsAux (urand : Nat → String) :
    Nat → List (SpawnKey × MergedGroup) → List SpawnRecord →
    Except PyErr (List (SpawnKey × MergedGroup))
  | _, groups, [] => .ok groups
  | idx, groups, r :: rs => do
      let key ← computeKey urand idx r
      if keyHashable key then do
        let groups' ← insertRecord key (getCond r) r groups
        mergeGroupsAux urand (idx + 1) groups' rs
      else throw .typeError

/-- The fully accumulated `merged_spawns` dict. -/
def mergeGroups (urand : Nat → String) (l : List SpawnRecord) :
    Except PyErr (List (SpawnKey × MergedGroup)) :=
  mergeGroupsAux urand 0 [] l

/-- Python dict assignment `d[k] = v`: replace in place if the key exists,
else append. -/
def setCondEntry (d : List (String × JValue)) (k : String) (v : JValue) :
    List (String × JValue) :=
  if d.any (fun p => p.1 = k) then d.map (fun p => if p.1 = k then (k, v) else p)
  else d ++ [(k, v)]

/-- Lines 202-207: the output record for one group.  `representative.copy()`
then `new_spawn.get("condition", {}).copy()` — the latter raises
`AttributeError` when the representative's condition is present but `null`
(`None.copy()`), because line 204 lacks the `or {}` guard of line 145.
Then the merged biome set is sorted and written into the copied dict. -/
def outputRecord (g : MergedGroup) : Except PyErr SpawnRecord := do
  let condDict ← match g.rep.condition with
    | none => pure []
    | some none => throw .attributeError
    | some (some d) => pure d
  let sortedBiomes ← insertionSortE pyLt g.biomes
  pure { g.rep with
         condition := some (some (setCondEntry condDict "biomes" (.listJ sortedBiomes))) }

/-- `merge_similar_spawns` (lines 140-209): group, then emit one record
per group in first-seen order.  An uncaught Python exception anywhere is
an `Except.error`. -/
def merge_similar_spawns (urand : Nat → String) (l : List SpawnRecord) :
    Except PyErr (List SpawnRecord) := do
  let gs ← mergeGroups urand l
  gs.mapM (fun p => outputRecord p.2)

deriving instance DecidableEq for Except

/-! ## The change-gated publication gate (lines 423-451)

Text is modelled as a list of characters.  `normalize` is the composite of
line 436/437: `'\n'.join(line.rstrip() for line in
text.replace('\r\n', '\n').splitlines()).strip()`. -/

/-- The whitespace characters stripped by Python's `str.strip`/`str.rstrip`
(ASCII whitespace plus the Unicode spaces and separators). -/
def isSpace (c : Char) : Bool :=
  c = ' ' || c = '\t' || c = '\n' || c = '\r' || c = '\x0b' || c = '\x0c' ||
  c = '\x1c' || c = '\x1d' || c = '\x1e' || c = '\x85' || c = '\xa0' ||
  c = ' ' || (' ' ≤ c && c ≤ ' ') || c = ' ' ||
  c = ' ' || c = ' ' || c = ' ' || c = '　'

/-- The line-boundary characters of Python's `str.splitlines` (besides the
two-character boundary `"\r\n"`). -/
def isLineBreak (c : Char) : Bool :=
  c = '\n' || c = '\r' || c = '\x0b' || c = '\x0c' || c = '\x1c' ||
  c = '\x1d' || c = '\x1e' || c = '\x85' || c = ' ' || c = ' '

/-- `text.replace('\r\n', '\n')`: left-to-right, non-overlapping. -/
def replaceCRLF : List Char → List Char
  | [] => []
  | '\r' :: '\n' :: rest => '\n' :: replaceCRLF rest
  | c :: rest => c :: replaceCRLF rest

/-- Worker for `splitlines`: `acc` is the reversed current line.  A
boundary (with `"\r\n"` counting as one) terminates a line; a final
unterminated segment is a line only if nonempty. -/
def splitlinesAux (acc : List Char) : List Char → List (List Char)
  | [] => if acc.isEmpty then [] else [acc.reverse]
  | '\r' :: '\n' :: rest => acc.reverse :: splitlinesAux [] rest
  | c :: rest =>
      if isLineBreak c then acc.reverse :: splitlinesAux [] rest
      else splitlinesAux (c :: acc) rest

/-- Python `str.splitlines`. -/
def splitlines (s : List Char) : List (List Char) := splitlinesAux [] s

/-- Python `str.rstrip()`. -/
def rstrip (l : List Char) : List Char := (l.reverse.dropWhile isSpace).reverse

/-- Python `str.lstrip()`. -/
def lstrip (l : List Char) : List Char := l.dropWhile isSpace

/-- Python `str.strip()`. -/
def strip (l : List Char) : List Char := lstrip (rstrip l)

/-- `'\n'.join(lines)`. -/
def joinN (ls : List (List Char)) : List Char := (ls.intersperse ['\n']).flatten

/-- Line 436/437: the normalized form of a page text. -/
def normalize (s : List Char) : List Char :=
  strip (joinN ((splitlines (replaceCRLF s)).map rstrip))

/-- The MD5 fingerprint of lines 438-439.  The spec makes only its
injectivity load-bearing ("a content hash … only collision-resistance for
equality testing"), so the digest is modelled as an injective function —
the identity. -/
def fingerprint (s : List Char) : List Char := s

/-- The publish decision of update_wiki_page (lines 427-441): an absent
page (`none`, the `page_not_found` branch of line 430) is the empty
string, and a write happens iff the fingerprints of the normalized texts
differ. -/
def should_publish (existing : Option (List Char)) (new_content : List Char) : Bool :=
  fingerprint (normalize (existing.getD [])) ≠ fingerprint (normalize new_content)

/-- Drop trailing empty lines (an all-whitespace line is `[]` once
rstripped): the effect of the final `.strip()` on the back of the joined
document. -/
def trimBack (ls : List (List Char)) : List (List Char) :=
  (ls.reverse.dropWhile (fun l => l.isEmpty)).reverse

/-- Drop leading empty lines and left-strip the first remaining line: the
effect of the final `.strip()` on the front of the joined document. -/
def trimFront : List (List Char) → List (List Char)
  | [] => []
  | l :: t => if l.isEmpty then trimFront t else lstrip l :: t

/-- The canonical line list of a text: its lines, each right-stripped,
with the leading/trailing whitespace of the whole document removed. -/
def canonLines (s : List Char) : List (List Char) :=
  trimFront (trimBack ((splitlines (replaceCRLF s)).map rstrip))

/-- Join the given (break-free) lines, choosing for each break either
`"\r\n"` (style `true`) or `"\n"` (style `false`): the texts "differing
only in line-break style" are the `joinBreaks ls st` for varying `st`. -/
def joinBreaks : List (List Char) → (Nat → Bool) → List Char
  | [], _ => []
  | [l], _ => l
  | l :: ls, st =>
      l ++ (if st 0 then ['\r', '\n'] else ['\n']) ++ joinBreaks ls (fun i => st (i + 1))

/-! ## Order-independence of the canonicalizer on mappings (C3) -/

instance instIsTotalKeyLe {α : Type} :
    IsTotal (String × α) (fun p q => p.1.data ≤ q.1.data) :=
  ⟨fun a b => le_total a.1.data b.1.data⟩

instance instIsTransKeyLe {α : Type} :
    IsTrans (String × α) (fun p q => p.1.data ≤ q.1.data) :=
  ⟨fun _ _ _ h h' => le_trans h h'⟩

/-- The string sort key of a keyed pair built by `sortByField` (lines 153
and 159): the pre-computed `x.get(field, '')` value, when it is a
string. -/
def strKeyOf (p : JValue × JValue) : String :=
  match p.1 with
  | .strJ s => s
  | _ => ""

instance instIsTransStrKeyLe :
    IsTrans (JValue × JValue) (fun p q => strKeyOf p ≤ strKeyOf q) :=
  ⟨fun _ _ _ h h' => le_trans h h'⟩

/-- The string carried by a biome value, when it is a string. -/
def strValOf (v : JValue) : String :=
  match v with
  | .strJ s => s
  | _ => ""

/-- The grouping key of every input record in order (the keys the loop of
lines 144-183 computes), numbering records from `idx`. -/
def inputKeys (urand : Nat → String) : Nat → List SpawnRecord → Except PyErr (List SpawnKey)
  | _, [] => .ok []
  | idx, r :: rs => do
      let k ← computeKey urand idx r
      let ks ← inputKeys urand (idx + 1) rs
      pure (k :: ks)

/-- Membership in a biome set, up to Python `==`. -/
def biomeMem (v : JValue) (s : List JValue) : Bool :=
  s.any (fun w => jNorm w = jNorm v)

/-- The sort key Python's `x.get(field, '')` yields for a sub-record, with
the (unreachable for dict sub-records) error case collapsed to `''`. -/
def subKeyD (field : String) (x : JValue) : JValue :=
  match subKey field x with
  | .ok k => k
  | .error _ => .strJ ""

/-- The truthy biome values a condition dict contributes to its group's
set (lines 187-191): the truthy elements of a biome list, or the truthy
non-list value itself. -/
def condBiomeValues (conds : List (String × JValue)) : List JValue :=
  match lookupJ conds "biomes" with
  | none => []
  | some (.listJ bs) => bs.filter pyTruthy
  | some v => if pyTruthy v then [v] else []

/-- The truthy biome values one record contributes. -/
def recBiomeValues (r : SpawnRecord) : List JValue :=
  condBiomeValues (getCond r)

/-- The biome list stored in a record's condition dict (used to read the
accumulating set off an output record). -/
def outBiomes (r : SpawnRecord) : List JValue :=
  match lookupJ (getCond r) "biomes" with
  | some (.listJ bs) => bs
  | _ => []

/-- Worker for `firstDedup`: drop every value already in `seen`. -/
def firstDedupAux {α : Type} [DecidableEq α] (seen : List α) : List α → List α
  | [] => []
  | a :: t => if a ∈ seen then firstDedupAux seen t else a :: firstDedupAux (a :: seen) t

/-- First-occurrence deduplication: the distinct values of a list in order
of first appearance. -/
def firstDedup {α : Type} [DecidableEq α] : List α → List α :=
  firstDedupAux []

/-- Equality of two records on every attribute other than the `biomes`
entry of the condition dict: the "non-accumulating attributes". -/
def sameExceptBiomes (a b : SpawnRecord) : Prop :=
  a.id = b.id ∧ a.context = b.context ∧ a.level = b.level ∧ a.bucket = b.bucket ∧
  a.weight = b.weight ∧ a.weightMultiplier = b.weightMultiplier ∧
  a.presets = b.presets ∧ a.anticondition = b.anticondition ∧
  a.otherFields = b.otherFields ∧
  keyConditions (getCond a) = keyConditions (getCond b)

/-- The loop invariant of the grouping pass: after folding the records of
`pre` (numbered from 0) into `gs`, the groups are in first-seen order with
pairwise distinct keys, each group's representative is the first record of
its key, every processed record's truthy biome values sit in its group's
set, and the group keys are the first-occurrence deduplication of the
records' keys. -/
structure GroupsInv (urand : Nat → String) (pre : List SpawnRecord)
    (gs : List (SpawnKey × MergedGroup)) : Prop where
  len_le : gs.length ≤ pre.length
  rep_first : ∀ i (hi : i < gs.length), ∃ j, ∃ (hj : j < pre.length),
    computeKey urand j (pre.get ⟨j, hj⟩) = .ok (gs.get ⟨i, hi⟩).1 ∧
    (gs.get ⟨i, hi⟩).2.rep = pre.get ⟨j, hj⟩ ∧
    ∀ j' (hj' : j' < j) (k' : SpawnKey),
      computeKey urand j' (pre.get ⟨j', Nat.lt_trans hj' hj⟩) = .ok k' →
      normKey k' ≠ normKey (gs.get ⟨i, hi⟩).1
  covers : ∀ j (hj : j < pre.length), ∃ k', computeKey urand j (pre.get ⟨j, hj⟩) = .ok k' ∧
    keyHashable k' = true ∧
    ∃ i, ∃ (hi : i < gs.length), normKey (gs.get ⟨i, hi⟩).1 = normKey k' ∧
    ∀ v ∈ recBiomeValues (pre.get ⟨j, hj⟩), biomeMem v (gs.get ⟨i, hi⟩).2.biomes = true
  keys_hashable : ∀ p ∈ gs, keyHashable p.1 = true
  biomes_wf : ∀ p ∈ gs, (∀ v ∈ p.2.biomes, pyTruthy v = true ∧ isHashableJ v = true) ∧
    p.2.biomes.Pairwise (fun v w => jNorm v ≠ jNorm w)
  keys_eq : ∀ ks, inputKeys urand 0 pre = .ok ks →
    gs.map (fun p => normKey p.1) = firstDedup (ks.map normKey)

/-- Sample records used in the concrete counterexamples: a minimal record
with the given weight and biome list. -/
def sampleRec (w : Int) (bs : List String) : SpawnRecord :=
  { id := none, context := some (.strJ "grounded"), level := some (.strJ "10"),
    bucket := some (.strJ "b"), weight := some (.numJ w), weightMultiplier := none,
    presets := none,
    condition := some (some [("biomes", .listJ (bs.map JValue.strJ))]),
    anticondition := none, otherFields := [("pokemon", .strJ "mew")] }

/-- A record whose `condition` key is present with value `null`. -/
def recNullCond : SpawnRecord :=
  { id := some "x", context := none, level := none, bucket := none, weight := none,
    weightMultiplier := none, presets := none, condition := some none,
    anticondition := none, otherFields := [] }

/-- The same record with an empty condition dict instead of `null`. -/
def recEmptyCond : SpawnRecord := { recNullCond with condition := some (some []) }

/-- A record whose `anticondition` key is present with value `null`. -/
def recNullAnti : SpawnRecord := { recEmptyCond with anticondition := some none }

/-- The same record with an empty anticondition dict. -/
def recEmptyAnti : SpawnRecord := { recEmptyCond with anticondition := some (some []) }

/-- A record whose party requirement list contains a non-dict entry, so
that the pre-sorting of line 153 raises outside the `try`. -/
def recBadParty : SpawnRecord :=
  { recEmptyCond with
    condition := some (some [("pokemon_in_party_requirement", .listJ [.strJ "oops"])]) }

/-- A record whose presets value is not iterable, so that
`tuple(sorted(...))` raises inside the `try` and the fallback key is
used. -/
def recBadPresets : SpawnRecord := { recEmptyCond with presets := some (.numJ 3) }

/-- The same record without an `id`, so the fallback key draws a random
token. -/
def recBadPresetsNoId : SpawnRecord := { recBadPresets with id := none }

/-- What the merge emits for `recBadPresetsNoId`. -/
def recBadPresetsNoIdOut : SpawnRecord :=
  { recBadPresetsNoId with condition := some (some [("biomes", JValue.listJ [])]) }

/-! ## A heap model of the output phase (C9)

Lines 197-207 are the only part of `merge_similar_spawns` that writes to
objects, so the frame property (no input object is mutated) is stated
over an explicit heap: record objects live at `recs` addresses and hold
their condition *reference* plus the remaining (immutable-value) fields;
condition dicts live at `dicts` addresses.  Addresses from `nextR`/`nextD`
upwards are free. -/

structure Heap where
  recs : Nat → Option (Option (Option Nat) × SpawnRecord)
  dicts : Nat → Option (List (String × JValue))
  nextR : Nat
  nextD : Nat

/-- All allocated cells lie below the allocation frontier, and every
record's condition reference points at an allocated dict address. -/
def Heap.WF (h : Heap) : Prop :=
  (∀ a, h.nextR ≤ a → h.recs a = none) ∧ (∀ a, h.nextD ≤ a → h.dicts a = none) ∧
  (∀ a c p, h.recs a = some (c, p) → ∀ ca, c = some (some ca) → ca < h.nextD)

/-- Allocate a fresh condition dict. -/
def allocDict (h : Heap) (d : List (String × JValue)) : Heap × Nat :=
  ({ h with dicts := fun a => if a = h.nextD then some d else h.dicts a,
            nextD := h.nextD + 1 }, h.nextD)

/-- Allocate a fresh record object. -/
def allocRec (h : Heap) (c : Option (Option Nat)) (payload : SpawnRecord) : Heap × Nat :=
  ({ h with recs := fun a => if a = h.nextR then some (c, payload) else h.recs a,
            nextR := h.nextR + 1 }, h.nextR)

/-- `new_spawn["condition"] = ptr`: an in-place update of a record object. -/
def setRecCond (h : Heap) (a : Nat) (c : Option (Option Nat)) : Heap :=
  { h with recs := fun a' =>
      if a' = a then (h.recs a').map (fun rc => (c, rc.2)) else h.recs a' }

/-- `new_spawn["condition"]["biomes"] = v`: an in-place update of a dict. -/
def setDictBiomes (h : Heap) (a : Nat) (v : JValue) : Heap :=
  { h with dicts := fun a' =>
      if a' = a then (h.dicts a').map (fun d => setCondEntry d "biomes" v) else h.dicts a' }

/-- Lines 202-207 for one group, on the heap: `rep.copy()` allocates a new
record sharing the condition reference; `new_spawn.get("condition", {}).copy()`
reads through that reference (raising `AttributeError` on `None`) and
allocates a fresh dict; the fresh record is pointed at the fresh dict and
the sorted merged biomes are written into the fresh dict only. -/
def outputOneH (h : Heap) (repAddr : Nat) (biomes : List JValue) :
    Except PyErr (Heap × Nat) :=
  match h.recs repAddr with
  | none => throw .attributeError
  | some (condRef, payload) => do
      let d ← match condRef with
        | none => pure []
        | some none => throw .attributeError
        | some (some ca) =>
            match ((allocRec h condRef payload).1).dicts ca with
            | some d => pure d
            | none => throw .attributeError
      let sorted ← insertionSortE pyLt biomes
      pure (setDictBiomes
        (setRecCond (allocDict (allocRec h condRef payload).1 d).1
          ((allocRec h condRef payload).2)
          (some (some ((allocDict (allocRec h condRef payload).1 d).2))))
        ((allocDict (allocRec h condRef payload).1 d).2) (.listJ sorted),
        (allocRec h condRef payload).2)

/-- The whole output loop of lines 198-207 on the heap: one fresh record
per group, input objects untouched. -/
def outputPhaseH (h : Heap) : List (Nat × List JValue) → Except PyErr (Heap × List Nat)
  | [] => .ok (h, [])
  | (repAddr, biomes) :: rest => do
      let (h', a) ← outputOneH h repAddr biomes
      let (h'', as) ← outputPhaseH h' rest
      pure (h'', a :: as)

/-- A concrete two-object heap exercising the output phase: one record at
address 0 whose condition reference points at dict address 0. -/
def heap0 : Heap :=
  { recs := fun a => if a = 0 then some (some (some 0), sampleRec 1 ["forest"]) else none,
    dicts := fun a => if a = 0 then some [("biomes", .listJ [.strJ "plains"])] else none,
    nextR := 1, nextD := 1 }

/-- The output phase run on `heap0` with one group. -/
def c9run : Except PyErr (Heap × List Nat) :=
  outputPhaseH heap0 [(0, [.strJ "plains"])]

/-- The heap after the run (the run succeeds). -/
def heap1 : Heap := match c9run with | .ok q => q.1 | .error _ => heap0

/-- The emitted record addresses of the run. -/
def outs1 : List Nat := match c9run with | .ok q => q.2 | .error _ => []

/-! ## Basic lemmas -/

theorem mhList_eq_map (l : List JValue) : mhList l = l.map make_hashable := by
  induction l with
  | nil => rfl
  | cons x xs ih => rw [mhList, List.map_cons, ih]

theorem mhObj_eq_map (l : List (String × JValue)) :
    mhObj l = l.map fun p => (p.1, make_hashable p.2) := by
  induction l with
  | nil => rfl
  | cons p xs ih =>
    obtain ⟨k, v⟩ := p
    rw [mhObj, List.map_cons, ih]

theorem make_hashable_listJ (l : List JValue) :
    make_hashable (.listJ l) = .tupH (l.map make_hashable) := by
  rw [make_hashable, mhList_eq_map]

theorem make_hashable_objJ (l : List (String × JValue)) :
    make_hashable (.objJ l) =
      .fsetH (sortPairs (l.map fun p => (p.1, make_hashable p.2))) := by
  rw [make_hashable, mhObj_eq_map]

theorem jNormList_eq_map (l : List JValue) : jNormList l = l.map jNorm := by
  induction l with
  | nil => rfl
  | cons x xs ih => rw [jNormList, List.map_cons, ih]

theorem jNormObj_eq_map (l : List (String × JValue)) :
    jNormObj l = l.map fun p => (p.1, jNorm p.2) := by
  induction l with
  | nil => rfl
  | cons p xs ih =>
    obtain ⟨k, v⟩ := p
    rw [jNormObj, List.map_cons, ih]

theorem jNorm_listJ (l : List JValue) :
    jNorm (.listJ l) = .listJ (l.map jNorm) := by
  rw [jNorm, jNormList_eq_map]

theorem jNorm_objJ (l : List (String × JValue)) :
    jNorm (.objJ l) = .objJ (sortPairs (l.map fun p => (p.1, jNorm p.2))) := by
  rw [jNorm, jNormObj_eq_map]

theorem sortPairs_sorted {α : Type} (l : List (String × α)) :
    (sortPairs l).Sorted (fun p q => p.1.data ≤ q.1.data) :=
  List.sorted_insertionSort _ l

theorem sortPairs_perm {α : Type} (l : List (String × α)) : (sortPairs l).Perm l :=
  List.perm_insertionSort _ l

/-- Two key-sorted association lists with the same entries and distinct
keys are equal. -/
theorem eq_of_perm_sorted_nodupFst {α : Type} (l₁ : List (String × α)) :
    ∀ l₂, l₁.Perm l₂ → l₁.Sorted (fun p q => p.1.data ≤ q.1.data) →
      l₂.Sorted (fun p q => p.1.data ≤ q.1.data) → (l₁.map Prod.fst).Nodup → l₁ = l₂ := by
  induction l₁ with
  | nil =>
    intro l₂ hp _ _ _
    exact hp.nil_eq
  | cons p t₁ ih =>
    intro l₂ hp hs₁ hs₂ hn
    cases l₂ with
    | nil => exact absurd hp.symm (by simp)
    | cons q t₂ =>
      simp only [List.map_cons, List.nodup_cons] at hn
      have hpq : p = q := by
        have hqmem : q ∈ p :: t₁ := hp.mem_iff.mpr (List.mem_cons_self q t₂)
        have hpmem : p ∈ q :: t₂ := hp.mem_iff.mp (List.mem_cons_self p t₁)
        rcases List.mem_cons.mp hqmem with h | hq1
        · exact h.symm
        rcases List.mem_cons.mp hpmem with h | hp2
        · exact h
        · exfalso
          have h1 : p.1.data ≤ q.1.data := List.rel_of_sorted_cons hs₁ q hq1
          have h2 : q.1.data ≤ p.1.data := List.rel_of_sorted_cons hs₂ p hp2
          have heq : q.1 = p.1 := le_antisymm (String.le_iff_toList_le.mpr h2)
            (String.le_iff_toList_le.mpr h1)
          have : q.1 ∈ t₁.map Prod.fst := List.mem_map_of_mem Prod.fst hq1
          rw [heq] at this
          exact hn.1 this
      subst hpq
      have ht : t₁.Perm t₂ := hp.cons_inv
      rw [ih t₂ ht hs₁.of_cons hs₂.of_cons hn.2]

/-- Sorting by key is permutation-invariant when the keys are distinct
(the situation of every Python dict). -/
theorem sortPairs_eq_of_perm {α : Type} (l₁ l₂ : List (String × α)) (hperm : l₁.Perm l₂)
    (hn : (l₁.map Prod.fst).Nodup) : sortPairs l₁ = sortPairs l₂ := by
  apply eq_of_perm_sorted_nodupFst
  · exact (sortPairs_perm l₁).trans (hperm.trans (sortPairs_perm l₂).symm)
  · exact sortPairs_sorted l₁
  · exact sortPairs_sorted l₂
  · exact ((sortPairs_perm l₁).map Prod.fst).nodup_iff.mpr hn

/-! ## Lemmas on the text normalizer -/

theorem isSpace_of_isLineBreak {c : Char} (h : isLineBreak c = true) : isSpace c = true := by
  simp only [isLineBreak, Bool.or_eq_true, decide_eq_true_eq] at h
  rcases h with ((((((((h | h) | h) | h) | h) | h) | h) | h) | h) | h <;> subst h <;> decide

theorem not_cr_of_not_break {c : Char} (h : isLineBreak c = false) : c ≠ '\r' := by
  intro hc
  subst hc
  simp [isLineBreak] at h

theorem replaceCRLF_cons_of_ne (c : Char) (t : List Char) (h : c ≠ '\r') :
    replaceCRLF (c :: t) = c :: replaceCRLF t := by
  rw [replaceCRLF.eq_def]
  split
  · simp_all
  · simp_all
  · rename_i c' rest' heq
    injection heq with h1 h2
    rw [h1, h2]

theorem replaceCRLF_append_of_no_cr (l x : List Char) (h : ∀ c ∈ l, c ≠ '\r') :
    replaceCRLF (l ++ x) = l ++ replaceCRLF x := by
  induction l with
  | nil => rfl
  | cons c t ih =>
    rw [List.cons_append, replaceCRLF_cons_of_ne c (t ++ x) (h c (List.mem_cons_self c t)),
        ih (fun c hm => h c (List.mem_cons_of_mem _ hm)), List.cons_append]

theorem replaceCRLF_of_no_cr (l : List Char) (h : ∀ c ∈ l, c ≠ '\r') :
    replaceCRLF l = l := by
  have h2 := replaceCRLF_append_of_no_cr l [] h
  rw [List.append_nil] at h2
  rw [h2]
  simp [replaceCRLF]

theorem splitlinesAux_cons_break (acc : List Char) (c : Char) (t : List Char)
    (hb : isLineBreak c = true) (hc : c ≠ '\r') :
    splitlinesAux acc (c :: t) = acc.reverse :: splitlinesAux [] t := by
  rw [splitlinesAux.eq_def]
  split
  · simp_all
  · simp_all
  · rename_i c' rest' heq
    injection heq with h1 h2
    subst h1
    subst h2
    simp [hb]

theorem splitlinesAux_cons_no_break (acc : List Char) (c : Char) (t : List Char)
    (hb : isLineBreak c = false) :
    splitlinesAux acc (c :: t) = splitlinesAux (c :: acc) t := by
  have hc : c ≠ '\r' := not_cr_of_not_break hb
  rw [splitlinesAux.eq_def]
  split
  · simp_all
  · simp_all
  · rename_i c' rest' heq
    injection heq with h1 h2
    subst h1
    subst h2
    simp [hb]

theorem splitlinesAux_append_of_no_break (l : List Char) :
    ∀ (acc x : List Char), (∀ c ∈ l, isLineBreak c = false) →
      splitlinesAux acc (l ++ x) = splitlinesAux (l.reverse ++ acc) x := by
  induction l with
  | nil => intro acc x _; rfl
  | cons c t ih =>
    intro acc x h
    have hc : isLineBreak c = false := h c (List.mem_cons_self c t)
    have ht : ∀ c ∈ t, isLineBreak c = false := fun c hm => h c (List.mem_cons_of_mem _ hm)
    rw [List.cons_append, splitlinesAux_cons_no_break _ _ _ hc, ih (c :: acc) x ht]
    simp

theorem splitlines_of_no_break (l : List Char) (h : ∀ c ∈ l, isLineBreak c = false) :
    splitlines l = if l.isEmpty then [] else [l] := by
  unfold splitlines
  have h2 := splitlinesAux_append_of_no_break l [] [] h
  rw [List.append_nil] at h2
  rw [h2]
  rcases l with _ | ⟨c, t⟩ <;> simp [splitlinesAux]

theorem dropWhile_head_false {α : Type} (p : α → Bool) (l : List α) {c : α} {t : List α}
    (h : l.dropWhile p = c :: t) : p c = false := by
  induction l with
  | nil => simp at h
  | cons a as ih =>
    rw [List.dropWhile_cons] at h
    by_cases hp : p a = true
    · rw [if_pos hp] at h
      exact ih h
    · rw [if_neg hp] at h
      injection h with h1 _
      rw [← h1]
      exact Bool.not_eq_true _ |>.mp hp

theorem dropWhile_self {α : Type} (p : α → Bool) (l : List α) :
    (l.dropWhile p).dropWhile p = l.dropWhile p := by
  cases h : l.dropWhile p with
  | nil => rfl
  | cons c t =>
    have := dropWhile_head_false p l h
    rw [List.dropWhile_cons, if_neg (by simp [this])]

theorem rstrip_idem (l : List Char) : rstrip (rstrip l) = rstrip l := by
  unfold rstrip
  rw [List.reverse_reverse, dropWhile_self]

theorem rstrip_append_spaces (s t : List Char) (h : ∀ c ∈ t, isSpace c = true) :
    rstrip (s ++ t) = rstrip s := by
  unfold rstrip
  rw [List.reverse_append, List.dropWhile_append]
  rw [if_pos]
  simp only [List.isEmpty_iff, List.dropWhile_eq_nil_iff]
  intro x hx
  exact h x (List.mem_reverse.mp hx)

theorem rstrip_append_of_last {s t : List Char} {c : Char} {r : List Char}
    (ht : t.reverse = c :: r) (hc : isSpace c = false) : rstrip (s ++ t) = s ++ t := by
  unfold rstrip
  rw [List.reverse_append, ht, List.cons_append, List.dropWhile_cons,
      if_neg (by simp [hc]), ← List.cons_append, ← ht, ← List.reverse_append,
      List.reverse_reverse]

theorem rstrip_eq_self_of_last {t : List Char} {c : Char} {r : List Char}
    (ht : t.reverse = c :: r) (hc : isSpace c = false) : rstrip t = t := by
  have := rstrip_append_of_last (s := []) ht hc
  simpa using this

/-- A nonempty rstripped list ends in a non-space character. -/
theorem rstripped_last {l : List Char} (hl : rstrip l = l) {c : Char} {r : List Char}
    (hrev : l.reverse = c :: r) : isSpace c = false := by
  have : l.reverse.dropWhile isSpace = l.reverse := by
    conv_rhs => rw [← hl]
    unfold rstrip
    rw [List.reverse_reverse]
  rw [hrev] at this
  by_cases hc : isSpace c = true
  · rw [List.dropWhile_cons, if_pos (by simp [hc])] at this
    have hlen := congrArg List.length this
    have hle := (List.dropWhile_sublist (l := r) (p := isSpace)).length_le
    simp at hlen
    omega
  · simpa using hc

theorem mem_rstrip {l : List Char} {c : Char} (h : c ∈ rstrip l) : c ∈ l := by
  unfold rstrip at h
  rw [List.mem_reverse] at h
  exact List.mem_reverse.mp ((List.dropWhile_sublist _).subset h)

theorem lstrip_head_false {l : List Char} {c : Char} {t : List Char}
    (h : lstrip l = c :: t) : isSpace c = false :=
  dropWhile_head_false isSpace l h

theorem lstrip_idem (l : List Char) : lstrip (lstrip l) = lstrip l :=
  dropWhile_self isSpace l

theorem mem_lstrip {l : List Char} {c : Char} (h : c ∈ lstrip l) : c ∈ l :=
  (List.dropWhile_sublist _).subset h

/-- Left-stripping a nonempty rstripped list keeps it nonempty and both
stripped. -/
theorem lstrip_of_rstripped {l : List Char} (hl : rstrip l = l) (hne : l ≠ []) :
    lstrip l ≠ [] ∧ rstrip (lstrip l) = lstrip l := by
  obtain ⟨c, r, hrev⟩ : ∃ c r, l.reverse = c :: r := by
    cases h : l.reverse with
    | nil => exact absurd (by simpa using congrArg List.reverse h) hne
    | cons c r => exact ⟨c, r, rfl⟩
  have hc : isSpace c = false := rstripped_last hl hrev
  have hcl : c ∈ l := by
    have : c ∈ l.reverse := by rw [hrev]; exact List.mem_cons_self c r
    exact List.mem_reverse.mp this
  have hnil : lstrip l ≠ [] := by
    intro hnil
    unfold lstrip at hnil
    have := List.dropWhile_eq_nil_iff.mp hnil c hcl
    simp [hc] at this
  refine ⟨hnil, ?_⟩
  have hdecomp := List.takeWhile_append_dropWhile (p := isSpace) (l := l)
  have h5 : l.reverse = (lstrip l).reverse ++ (l.takeWhile isSpace).reverse := by
    conv_lhs => rw [← hdecomp]
    rw [List.reverse_append]
    rfl
  cases hr : (lstrip l).reverse with
  | nil => exact absurd (by simpa using congrArg List.reverse hr) hnil
  | cons c' r' =>
    rw [hr, hrev, List.cons_append] at h5
    injection h5 with h6 _
    rw [h6] at hc
    exact rstrip_eq_self_of_last hr hc

theorem joinN_nil : joinN [] = [] := rfl

theorem joinN_singleton (l : List Char) : joinN [l] = l := by
  simp [joinN, List.intersperse]

theorem joinN_cons (l : List Char) (ls : List (List Char)) (h : ls ≠ []) :
    joinN (l :: ls) = l ++ '\n' :: joinN ls := by
  cases ls with
  | nil => exact absurd rfl h
  | cons l' t => simp [joinN, List.intersperse]

theorem mem_joinN {ls : List (List Char)} {c : Char} (h : c ∈ joinN ls) :
    c = '\n' ∨ ∃ l ∈ ls, c ∈ l := by
  induction ls with
  | nil => simp [joinN] at h
  | cons l t ih =>
    cases t with
    | nil =>
      rw [joinN_singleton] at h
      exact Or.inr ⟨l, List.mem_cons_self l [], h⟩
    | cons l' t' =>
      rw [joinN_cons l _ (by simp)] at h
      rcases List.mem_append.mp h with h | h
      · exact Or.inr ⟨l, List.mem_cons_self _ _, h⟩
      · rcases List.mem_cons.mp h with h | h
        · exact Or.inl h
        · rcases ih h with h | ⟨m, hm, hc⟩
          · exact Or.inl h
          · exact Or.inr ⟨m, List.mem_cons_of_mem _ hm, hc⟩

theorem joinN_append_singleton (ls : List (List Char)) (l : List Char) :
    joinN (ls ++ [l]) = if ls.isEmpty then l else joinN ls ++ '\n' :: l := by
  induction ls with
  | nil => simp [joinN_singleton]
  | cons a t ih =>
    rw [List.cons_append, joinN_cons a (t ++ [l]) (by simp), ih]
    cases t with
    | nil => simp [joinN_singleton]
    | cons b t2 =>
      rw [if_neg (by simp), if_neg (by simp)]
      rw [joinN_cons a (b :: t2) (by simp)]
      simp

theorem trimBack_append_nil (ls : List (List Char)) : trimBack (ls ++ [[]]) = trimBack ls := by
  simp [trimBack, List.dropWhile_cons]

theorem trimBack_append_ne (ls : List (List Char)) (l : List Char) (h : l ≠ []) :
    trimBack (ls ++ [l]) = ls ++ [l] := by
  unfold trimBack
  rw [List.reverse_append]
  simp only [List.reverse_singleton, List.singleton_append, List.dropWhile_cons]
  rw [if_neg (by simpa using h)]
  simp

theorem mem_trimBack {ls : List (List Char)} {m : List Char} (h : m ∈ trimBack ls) : m ∈ ls := by
  unfold trimBack at h
  rw [List.mem_reverse] at h
  exact List.mem_reverse.mp ((List.dropWhile_sublist _).subset h)

theorem mem_trimFront {ls : List (List Char)} {m : List Char} (h : m ∈ trimFront ls) :
    m ∈ ls ∨ ∃ l ∈ ls, m = lstrip l := by
  induction ls with
  | nil => simp [trimFront] at h
  | cons l t ih =>
    rw [trimFront] at h
    by_cases he : l.isEmpty
    · rw [if_pos he] at h
      rcases ih h with h | ⟨l', hl', hm⟩
      · exact Or.inl (List.mem_cons_of_mem _ h)
      · exact Or.inr ⟨l', List.mem_cons_of_mem _ hl', hm⟩
    · rw [if_neg he] at h
      rcases List.mem_cons.mp h with h | h
      · exact Or.inr ⟨l, List.mem_cons_self _ _, h⟩
      · exact Or.inl (List.mem_cons_of_mem _ h)

theorem rstrip_joinN (ls : List (List Char)) (h : ∀ l ∈ ls, rstrip l = l) :
    rstrip (joinN ls) = joinN (trimBack ls) := by
  induction ls using List.reverseRecOn with
  | nil => simp [joinN, trimBack, rstrip]
  | append_singleton ls l ih =>
    have hls : ∀ m ∈ ls, rstrip m = m := fun m hm => h m (List.mem_append_left _ hm)
    have hl : rstrip l = l := h l (List.mem_append_right _ (List.mem_cons_self l []))
    rw [joinN_append_singleton]
    by_cases hemp : ls = []
    · subst hemp
      have hred : (if ([] : List (List Char)).isEmpty = true then l
          else joinN [] ++ '\n' :: l) = l := rfl
      rw [hred]
      by_cases hle : l = []
      · subst hle
        simp [rstrip, trimBack, joinN, List.dropWhile]
      · rw [hl, trimBack_append_ne [] l hle]
        simp [joinN_singleton]
    · rw [if_neg (by simpa using hemp)]
      by_cases hle : l = []
      · subst hle
        rw [rstrip_append_spaces _ ['\n'] (by intro c hc; simp at hc; subst hc; decide),
            ih hls, trimBack_append_nil]
      · obtain ⟨c, r, hrev⟩ : ∃ c r, l.reverse = c :: r := by
          cases hx : l.reverse with
          | nil => exact absurd (by simpa using congrArg List.reverse hx) hle
          | cons c r => exact ⟨c, r, rfl⟩
        have hc : isSpace c = false := rstripped_last hl hrev
        have hrev2 : ('\n' :: l).reverse = c :: (r ++ ['\n']) := by
          rw [List.reverse_cons, hrev]
          simp
        rw [rstrip_append_of_last hrev2 hc, trimBack_append_ne ls l hle,
            joinN_append_singleton, if_neg (by simpa using hemp)]

theorem lstrip_joinN (ls : List (List Char)) (h : ∀ l ∈ ls, rstrip l = l) :
    lstrip (joinN ls) = joinN (trimFront ls) := by
  induction ls with
  | nil => simp [joinN, trimFront, lstrip]
  | cons l t ih =>
    have hts : ∀ m ∈ t, rstrip m = m := fun m hm => h m (List.mem_cons_of_mem _ hm)
    have hl : rstrip l = l := h l (List.mem_cons_self l t)
    by_cases hle : l = []
    · subst hle
      rw [trimFront, if_pos (by simp)]
      cases t with
      | nil => simp [joinN, trimFront, lstrip]
      | cons t1 t2 =>
        rw [joinN_cons [] _ (by simp), ← ih hts]
        unfold lstrip
        rw [List.nil_append, List.dropWhile_cons, if_pos (by decide)]
    · have hlne := lstrip_of_rstripped hl hle
      rw [trimFront, if_neg (by simpa using hle)]
      cases t with
      | nil => simp [joinN_singleton, lstrip]
      | cons t1 t2 =>
        rw [joinN_cons l _ (by simp), joinN_cons (lstrip l) _ (by simp)]
        unfold lstrip
        rw [List.dropWhile_append, if_neg]
        intro hco
        exact hlne.1 (List.isEmpty_iff.mp hco)

theorem strip_joinN (ls : List (List Char)) (h : ∀ l ∈ ls, rstrip l = l) :
    strip (joinN ls) = joinN (trimFront (trimBack ls)) := by
  unfold strip
  rw [rstrip_joinN ls h, lstrip_joinN _ (fun m hm => h m (mem_trimBack hm))]

theorem splitlinesAux_nil_eq (acc : List Char) :
    splitlinesAux acc [] = if acc.isEmpty then [] else [acc.reverse] := rfl

theorem splitlinesAux_cons_cr (acc : List Char) (t : List Char) (h : t.head? ≠ some '\n') :
    splitlinesAux acc ('\r' :: t) = acc.reverse :: splitlinesAux [] t := by
  rw [splitlinesAux.eq_def]
  split
  · simp_all
  · rename_i rest heq
    injection heq with _ h2
    rw [h2] at h
    simp at h
  · rename_i c' rest' heq
    injection heq with h1 h2
    subst h2
    rw [← h1]
    simp [isLineBreak]

theorem splitlinesAux_breakFree (n : Nat) :
    ∀ (s : List Char), s.length ≤ n → ∀ (acc : List Char),
      (∀ c ∈ acc, isLineBreak c = false) →
      ∀ l ∈ splitlinesAux acc s, ∀ c ∈ l, isLineBreak c = false := by
  induction n with
  | zero =>
    intro s hs acc hacc l hl c hc
    have hse : s = [] := List.length_eq_zero.mp (Nat.le_zero.mp hs)
    subst hse
    rw [splitlinesAux_nil_eq] at hl
    by_cases he : acc.isEmpty
    · rw [if_pos he] at hl
      simp at hl
    · rw [if_neg he] at hl
      rcases List.mem_singleton.mp hl with rfl
      exact hacc c (List.mem_reverse.mp hc)
  | succ n ih =>
    intro s hs acc hacc l hl c hc
    cases s with
    | nil =>
      rw [splitlinesAux_nil_eq] at hl
      by_cases he : acc.isEmpty
      · rw [if_pos he] at hl
        simp at hl
      · rw [if_neg he] at hl
        rcases List.mem_singleton.mp hl with rfl
        exact hacc c (List.mem_reverse.mp hc)
    | cons c0 t =>
      by_cases hb : isLineBreak c0 = true
      · by_cases hcr : c0 = '\r'
        · subst hcr
          cases t with
          | nil =>
            rw [splitlinesAux_cons_cr acc [] (by simp)] at hl
            rcases List.mem_cons.mp hl with rfl | hl
            · exact hacc c (List.mem_reverse.mp hc)
            · exact ih [] (by simp) [] (by simp) l hl c hc
          | cons c1 t1 =>
            by_cases h1 : c1 = '\n'
            · subst h1
              have hred : splitlinesAux acc ('\r' :: '\n' :: t1) =
                  acc.reverse :: splitlinesAux [] t1 := rfl
              rw [hred] at hl
              rcases List.mem_cons.mp hl with rfl | hl
              · exact hacc c (List.mem_reverse.mp hc)
              · refine ih t1 ?_ [] (by simp) l hl c hc
                simp only [List.length_cons] at hs ⊢
                omega
            · rw [splitlinesAux_cons_cr acc (c1 :: t1) (by simp [h1])] at hl
              rcases List.mem_cons.mp hl with rfl | hl
              · exact hacc c (List.mem_reverse.mp hc)
              · refine ih (c1 :: t1) ?_ [] (by simp) l hl c hc
                simp only [List.length_cons] at hs ⊢
                omega
        · rw [splitlinesAux_cons_break acc c0 t hb hcr] at hl
          rcases List.mem_cons.mp hl with rfl | hl
          · exact hacc c (List.mem_reverse.mp hc)
          · refine ih t ?_ [] (by simp) l hl c hc
            simp only [List.length_cons] at hs ⊢
            omega
      · rw [splitlinesAux_cons_no_break acc c0 t (by simpa using hb)] at hl
        refine ih t ?_ (c0 :: acc) ?_ l hl c hc
        · simp only [List.length_cons] at hs ⊢
          omega
        · intro x hx
          rcases List.mem_cons.mp hx with rfl | hx
          · simpa using hb
          · exact hacc x hx

theorem splitlines_breakFree (s : List Char) :
    ∀ l ∈ splitlines s, ∀ c ∈ l, isLineBreak c = false :=
  splitlinesAux_breakFree s.length s le_rfl [] (by simp)

theorem splitlines_joinN (ls : List (List Char))
    (h : ∀ l ∈ ls, ∀ c ∈ l, isLineBreak c = false) :
    splitlines (joinN ls) = if ls.getLast? = some [] then ls.dropLast else ls := by
  induction ls with
  | nil => simp [joinN, splitlines, splitlinesAux]
  | cons l t ih =>
    cases t with
    | nil =>
      rw [joinN_singleton, splitlines_of_no_break l (h l (List.mem_cons_self l []))]
      by_cases hle : l = []
      · subst hle
        simp
      · simp [hle]
    | cons t1 t2 =>
      rw [joinN_cons l (t1 :: t2) (by simp)]
      unfold splitlines
      rw [splitlinesAux_append_of_no_break l [] ('\n' :: joinN (t1 :: t2))
            (h l (List.mem_cons_self l _)),
          List.append_nil,
          splitlinesAux_cons_break _ '\n' _ (by decide) (by decide),
          List.reverse_reverse]
      have ht := ih (fun m hm => h m (List.mem_cons_of_mem _ hm))
      unfold splitlines at ht
      rw [ht]
      rw [List.getLast?_cons_cons]
      by_cases hg : (t1 :: t2 : List (List Char)).getLast? = some []
      · rw [if_pos hg, if_pos hg]
        rfl
      · rw [if_neg hg, if_neg hg]

theorem map_rstrip_self (ls : List (List Char)) (h : ∀ m ∈ ls, rstrip m = m) :
    ls.map rstrip = ls := by
  induction ls with
  | nil => rfl
  | cons l t ih =>
    rw [List.map_cons, h l (List.mem_cons_self l t),
        ih (fun m hm => h m (List.mem_cons_of_mem _ hm))]

theorem trimBack_eq_self {ls : List (List Char)}
    (h : ∀ m, ls.getLast? = some m → m ≠ []) : trimBack ls = ls := by
  unfold trimBack
  cases hr : ls.reverse with
  | nil => simpa using congrArg List.reverse hr
  | cons m r =>
    have hm : ls.getLast? = some m := by
      rw [← List.head?_reverse, hr]
      rfl
    rw [List.dropWhile_cons, if_neg (by simpa using h m hm), ← hr, List.reverse_reverse]

theorem trimBack_getLast {ls : List (List Char)} {m : List Char}
    (h : (trimBack ls).getLast? = some m) : m ≠ [] := by
  rw [← List.head?_reverse] at h
  unfold trimBack at h
  rw [List.reverse_reverse] at h
  cases hr : ls.reverse.dropWhile (fun l => l.isEmpty) with
  | nil => rw [hr] at h; simp at h
  | cons a b =>
    rw [hr] at h
    have := dropWhile_head_false _ _ hr
    injection h with h2
    subst h2
    simpa using this

theorem trimFront_last_ne {ls : List (List Char)} (hr : ∀ l ∈ ls, rstrip l = l)
    (hlast : ∀ m, ls.getLast? = some m → m ≠ []) :
    ∀ m, (trimFront ls).getLast? = some m → m ≠ [] := by
  induction ls with
  | nil => intro m hm; simp [trimFront] at hm
  | cons l t ih =>
    intro m hm
    rw [trimFront] at hm
    by_cases he : l.isEmpty
    · rw [if_pos he] at hm
      cases t with
      | nil =>
        exfalso
        have hl0 : l = [] := List.isEmpty_iff.mp he
        exact hlast l (by simp) hl0
      | cons t1 t2 =>
        refine ih (fun x hx => hr x (List.mem_cons_of_mem _ hx)) ?_ m hm
        intro x hx
        exact hlast x (by rw [List.getLast?_cons_cons]; exact hx)
    · rw [if_neg he] at hm
      cases t with
      | nil =>
        simp at hm
        subst hm
        have hle : l ≠ [] := by simpa using he
        exact (lstrip_of_rstripped (hr l (List.mem_cons_self l [])) hle).1
      | cons t1 t2 =>
        rw [List.getLast?_cons_cons] at hm
        exact hlast m (by rw [List.getLast?_cons_cons]; exact hm)

theorem trimFront_rstripped {ls : List (List Char)} (hr : ∀ l ∈ ls, rstrip l = l) :
    ∀ m ∈ trimFront ls, rstrip m = m := by
  intro m hm
  rcases mem_trimFront hm with hm | ⟨l, hl, rfl⟩
  · exact hr m hm
  · by_cases hle : l = []
    · subst hle
      rfl
    · exact (lstrip_of_rstripped (hr l hl) hle).2

theorem trimFront_idem {ls : List (List Char)} (hr : ∀ l ∈ ls, rstrip l = l) :
    trimFront (trimFront ls) = trimFront ls := by
  induction ls with
  | nil => rfl
  | cons l t ih =>
    rw [trimFront]
    by_cases he : l.isEmpty
    · rw [if_pos he]
      exact ih (fun x hx => hr x (List.mem_cons_of_mem _ hx))
    · rw [if_neg he, trimFront]
      have hle : l ≠ [] := by simpa using he
      have h1 := lstrip_of_rstripped (hr l (List.mem_cons_self l t)) hle
      rw [if_neg (by simpa using h1.1), lstrip_idem]

theorem canonLines_rstripped (s : List Char) : ∀ m ∈ canonLines s, rstrip m = m := by
  unfold canonLines
  apply trimFront_rstripped
  intro m hm
  rcases List.mem_map.mp (mem_trimBack hm) with ⟨y, _, rfl⟩
  exact rstrip_idem y

theorem canonLines_breakFree (s : List Char) :
    ∀ m ∈ canonLines s, ∀ c ∈ m, isLineBreak c = false := by
  intro m hm c hc
  unfold canonLines at hm
  have hbase : ∀ x ∈ (splitlines (replaceCRLF s)).map rstrip,
      ∀ c ∈ x, isLineBreak c = false := by
    intro x hx c hcx
    rcases List.mem_map.mp hx with ⟨y, hy, rfl⟩
    exact splitlines_breakFree (replaceCRLF s) y hy c (mem_rstrip hcx)
  rcases mem_trimFront hm with hm | ⟨l, hl, rfl⟩
  · exact hbase m (mem_trimBack hm) c hc
  · exact hbase l (mem_trimBack hl) c (mem_lstrip hc)

theorem canonLines_last (s : List Char) :
    ∀ m, (canonLines s).getLast? = some m → m ≠ [] := by
  unfold canonLines
  apply trimFront_last_ne
  · intro m hm
    rcases List.mem_map.mp (mem_trimBack hm) with ⟨y, _, rfl⟩
    exact rstrip_idem y
  · intro m hm
    exact trimBack_getLast hm

theorem canonLines_trimFront (s : List Char) :
    trimFront (canonLines s) = canonLines s := by
  unfold canonLines
  apply trimFront_idem
  intro m hm
  rcases List.mem_map.mp (mem_trimBack hm) with ⟨y, _, rfl⟩
  exact rstrip_idem y

/-- The normalized text is its canonical line list joined with `'\n'`. -/
theorem normalize_eq_canon (s : List Char) : normalize s = joinN (canonLines s) := by
  unfold normalize canonLines
  apply strip_joinN
  intro m hm
  rcases List.mem_map.mp hm with ⟨y, _, rfl⟩
  exact rstrip_idem y

/-- A joined canonical line list is a fixed point of `normalize`. -/
theorem normalize_joinN_canon (cs : List (List Char))
    (hrs : ∀ m ∈ cs, rstrip m = m)
    (hbf : ∀ m ∈ cs, ∀ c ∈ m, isLineBreak c = false)
    (hlast : ∀ m, cs.getLast? = some m → m ≠ [])
    (htf : trimFront cs = cs) :
    normalize (joinN cs) = joinN cs := by
  unfold normalize
  have h1 : replaceCRLF (joinN cs) = joinN cs := by
    apply replaceCRLF_of_no_cr
    intro c hc
    rcases mem_joinN hc with rfl | ⟨l, hl, hcl⟩
    · decide
    · exact not_cr_of_not_break (hbf l hl c hcl)
  rw [h1, splitlines_joinN cs hbf,
      if_neg (fun h => hlast [] h rfl),
      map_rstrip_self cs hrs, strip_joinN cs hrs, trimBack_eq_self hlast, htf]

/-- `normalize` is idempotent. -/
theorem normalize_idempotent (s : List Char) :
    normalize (normalize s) = normalize s := by
  rw [normalize_eq_canon s]
  exact normalize_joinN_canon (canonLines s) (canonLines_rstripped s)
    (canonLines_breakFree s) (canonLines_last s) (canonLines_trimFront s)

theorem replaceCRLF_joinBreaks (ls : List (List Char)) (st : Nat → Bool)
    (h : ∀ l ∈ ls, ∀ c ∈ l, isLineBreak c = false) :
    replaceCRLF (joinBreaks ls st) = joinN ls := by
  induction ls generalizing st with
  | nil => rfl
  | cons l t ih =>
    have hlcr : ∀ c ∈ l, c ≠ '\r' :=
      fun c hc => not_cr_of_not_break (h l (List.mem_cons_self l t) c hc)
    cases t with
    | nil =>
      show replaceCRLF l = joinN [l]
      rw [replaceCRLF_of_no_cr l hlcr, joinN_singleton]
    | cons t1 t2 =>
      have hjb : joinBreaks (l :: t1 :: t2) st = l ++
          ((if st 0 then ['\r', '\n'] else ['\n']) ++
            joinBreaks (t1 :: t2) fun i => st (i + 1)) := by
        rw [joinBreaks] <;> simp
      rw [hjb]
      rw [replaceCRLF_append_of_no_cr _ _ hlcr,
          joinN_cons l (t1 :: t2) (by simp)]
      congr 1
      have ht := ih (fun i => st (i + 1)) (fun m hm => h m (List.mem_cons_of_mem _ hm))
      by_cases hst : st 0
      · rw [if_pos hst]
        show replaceCRLF ('\r' :: '\n' :: joinBreaks (t1 :: t2) fun i => st (i + 1)) = _
        rw [show ∀ x, replaceCRLF ('\r' :: '\n' :: x) = '\n' :: replaceCRLF x
              from fun x => rfl, ht]
      · rw [if_neg hst]
        show replaceCRLF ('\n' :: joinBreaks (t1 :: t2) fun i => st (i + 1)) = _
        rw [replaceCRLF_cons_of_ne _ _ (by decide), ht]

theorem map_rstrip_zipWith_pad (ls ps : List (List Char))
    (hlen : ps.length = ls.length)
    (hp : ∀ p ∈ ps, ∀ c ∈ p, isSpace c = true) :
    (List.zipWith (· ++ ·) ls ps).map rstrip = ls.map rstrip := by
  induction ls generalizing ps with
  | nil => simp
  | cons l t ih =>
    cases ps with
    | nil => simp at hlen
    | cons p q =>
      simp only [List.zipWith_cons_cons, List.map_cons]
      rw [rstrip_append_spaces l p (hp p (List.mem_cons_self p q)),
          ih q (by simpa using hlen) (fun x hx => hp x (List.mem_cons_of_mem _ hx))]

theorem map_dropLast_eq {α β : Type} (f : α → β) :
    ∀ (l : List α), l.dropLast.map f = (l.map f).dropLast
  | [] => rfl
  | [_] => rfl
  | a :: b :: t => by
      have ih := map_dropLast_eq f (b :: t)
      show f a :: List.map f (b :: t).dropLast = ((a :: b :: t).map f).dropLast
      rw [ih]
      rfl

theorem getLast?_map_some {α β : Type} (f : α → β) :
    ∀ (l : List α) (a : α), l.getLast? = some a → (l.map f).getLast? = some (f a)
  | [], a => by simp
  | [x], a => by
      intro h
      simp at h
      subst h
      rfl
  | x :: y :: t, a => by
      intro h
      rw [List.getLast?_cons_cons] at h
      rw [List.map_cons, List.map_cons, List.getLast?_cons_cons, ← List.map_cons]
      exact getLast?_map_some f (y :: t) a h

theorem mem_zipWith_append {ls ps : List (List Char)} {m : List Char}
    (h : m ∈ List.zipWith (· ++ ·) ls ps) : ∃ l ∈ ls, ∃ p ∈ ps, m = l ++ p := by
  induction ls generalizing ps with
  | nil => simp at h
  | cons l t ih =>
    cases ps with
    | nil => simp at h
    | cons p q =>
      rw [List.zipWith_cons_cons] at h
      rcases List.mem_cons.mp h with rfl | h
      · exact ⟨l, List.mem_cons_self l t, p, List.mem_cons_self p q, rfl⟩
      · rcases ih h with ⟨l', hl', p', hp', rfl⟩
        exact ⟨l', List.mem_cons_of_mem _ hl', p', List.mem_cons_of_mem _ hp', rfl⟩

theorem zipWith_getLast_append : ∀ (ls ps : List (List Char)) (m : List Char),
    ps.length = ls.length → (List.zipWith (· ++ ·) ls ps).getLast? = some m →
    ∃ l p, ls.getLast? = some l ∧ ps.getLast? = some p ∧ m = l ++ p := by
  intro ls
  induction ls with
  | nil => intro ps m _ h; simp at h
  | cons l t ih =>
    intro ps m hlen h
    cases ps with
    | nil => simp at hlen
    | cons p q =>
      cases t with
      | nil =>
        cases q with
        | nil =>
          simp at h
          exact ⟨l, p, by simp, by simp, h.symm⟩
        | cons q1 q2 => simp at hlen
      | cons t1 t2 =>
        cases q with
        | nil => simp at hlen
        | cons q1 q2 =>
          rw [show List.zipWith (· ++ ·) (l :: t1 :: t2) (p :: q1 :: q2) =
                (l ++ p) :: (t1 ++ q1) :: List.zipWith (· ++ ·) t2 q2 from rfl,
              List.getLast?_cons_cons] at h
          rcases ih (q1 :: q2) m (by simpa using hlen) h with ⟨l', p', h1, h2, rfl⟩
          refine ⟨l', p', ?_, ?_, rfl⟩
          · rw [List.getLast?_cons_cons]
            exact h1
          · rw [List.getLast?_cons_cons]
            exact h2

/-- Master insensitivity lemma: any text assembled from break-free core
lines, per-line trailing whitespace pads and a per-break choice of
`"\r\n"`/`"\n"` normalizes to the canonical join of the rstripped core
lines — independently of the pads and the break styles. -/
theorem normalize_joinBreaks_pad (ls ps : List (List Char)) (st : Nat → Bool)
    (hlen : ps.length = ls.length)
    (hbf : ∀ l ∈ ls, ∀ c ∈ l, isLineBreak c = false)
    (hps : ∀ p ∈ ps, ∀ c ∈ p, isSpace c = true ∧ isLineBreak c = false) :
    normalize (joinBreaks (List.zipWith (· ++ ·) ls ps) st) =
      joinN (trimFront (trimBack (ls.map rstrip))) := by
  have hbf' : ∀ l ∈ List.zipWith (· ++ ·) ls ps, ∀ c ∈ l, isLineBreak c = false := by
    intro l hl c hc
    rcases mem_zipWith_append hl with ⟨l', hl', p', hp', rfl⟩
    rcases List.mem_append.mp hc with hc | hc
    · exact hbf l' hl' c hc
    · exact (hps p' hp' c hc).2
  have hmap : (List.zipWith (· ++ ·) ls ps).map rstrip = ls.map rstrip :=
    map_rstrip_zipWith_pad ls ps hlen (fun p hp c hc => (hps p hp c hc).1)
  have hrs : ∀ m ∈ ls.map rstrip, rstrip m = m := by
    intro m hm
    rcases List.mem_map.mp hm with ⟨y, _, rfl⟩
    exact rstrip_idem y
  unfold normalize
  rw [replaceCRLF_joinBreaks _ st hbf', splitlines_joinN _ hbf']
  by_cases hg : (List.zipWith (· ++ ·) ls ps).getLast? = some []
  · rw [if_pos hg]
    rcases zipWith_getLast_append ls ps [] hlen hg with ⟨l', p', hl', hp', happ⟩
    have hl'e : l' = [] := (List.append_eq_nil.mp happ.symm).1
    subst hl'e
    have hdrop : (List.zipWith (· ++ ·) ls ps).dropLast.map rstrip
        = (ls.map rstrip).dropLast := by
      rw [map_dropLast_eq, hmap]
    rw [hdrop]
    have hrs' : ∀ m ∈ (ls.map rstrip).dropLast, rstrip m = m :=
      fun m hm => hrs m ((List.dropLast_sublist _).subset hm)
    rw [strip_joinN _ hrs']
    have hYne : ls.map rstrip ≠ [] := by
      intro h0
      rw [List.map_eq_nil_iff] at h0
      rw [h0] at hl'
      simp at hl'
    have hYlast : (ls.map rstrip).getLast? = some [] := by
      have := getLast?_map_some rstrip ls [] hl'
      simpa [rstrip] using this
    have hY : ls.map rstrip = (ls.map rstrip).dropLast ++ [[]] := by
      conv_lhs => rw [← List.dropLast_append_getLast hYne]
      have hg2 := List.getLast?_eq_getLast_of_ne_nil hYne
      rw [hYlast] at hg2
      have hg3 : (ls.map rstrip).getLast hYne = [] := by
        injection hg2 with hg4
        exact hg4.symm
      rw [hg3]
    conv_rhs => rw [hY, trimBack_append_nil]
  · rw [if_neg hg, hmap, strip_joinN _ hrs]

/-! ## Claim theorems for the publication gate -/

/-- **C2**: the publication gate decides to write iff the fingerprints of
the normalized existing text and the normalized new text differ; an absent
existing page is treated identically to an empty existing string and is
never an error.  `should_publish(T, T)` is false for every `T`,
`should_publish(absent, "")` is false, and `should_publish(absent, "x")`
is true. -/
theorem claim_C2_publication_gate :
    (∀ (existing : Option (List Char)) (new_content : List Char),
      should_publish existing new_content = true ↔
        fingerprint (normalize (existing.getD [])) ≠ fingerprint (normalize new_content)) ∧
    (∀ new_content, should_publish none new_content = should_publish (some []) new_content) ∧
    (∀ t, should_publish (some t) t = false) ∧
    should_publish none [] = false ∧
    should_publish none ['x'] = true := by
  refine ⟨fun e n => ?_, fun n => rfl, fun t => ?_, by decide, by decide⟩
  · simp [should_publish]
  · simp [should_publish]

/-- **C3**: for every JSON-shaped mapping (a Python dict, whose keys are
distinct) and every permutation of the enumeration order of its key/value
pairs, `make_hashable` yields the identical canonical value, while for
ordered sequences the order of the canonicalized elements is preserved. -/
theorem claim_C3_canonicalize_order_independent
    (l₁ l₂ : List (String × JValue)) (hn : (l₁.map Prod.fst).Nodup)
    (hperm : l₁.Perm l₂) :
    make_hashable (.objJ l₁) = make_hashable (.objJ l₂) ∧
    ∀ l : List JValue, make_hashable (.listJ l) = .tupH (l.map make_hashable) := by
  constructor
  · rw [make_hashable_objJ, make_hashable_objJ]
    congr 1
    apply sortPairs_eq_of_perm
    · exact hperm.map _
    · simpa [List.map_map, Function.comp] using hn
  · exact make_hashable_listJ

/-- Witness for C3 at a concrete two-entry mapping enumerated in two
orders. -/
theorem claim_C3_witness :
    ((([("b", JValue.numJ 1), ("a", JValue.strJ "x")] :
        List (String × JValue)).map Prod.fst).Nodup ∧
      ([("b", JValue.numJ 1), ("a", JValue.strJ "x")] :
        List (String × JValue)).Perm [("a", JValue.strJ "x"), ("b", JValue.numJ 1)]) ∧
    make_hashable (.objJ [("b", JValue.numJ 1), ("a", JValue.strJ "x")]) =
      make_hashable (.objJ [("a", JValue.strJ "x"), ("b", JValue.numJ 1)]) :=
  ⟨⟨by decide, by decide⟩,
    (claim_C3_canonicalize_order_independent
      [("b", JValue.numJ 1), ("a", JValue.strJ "x")]
      [("a", JValue.strJ "x"), ("b", JValue.numJ 1)] (by decide) (by decide)).1⟩

/-- **C7**: `normalize` is idempotent, and its output is insensitive to
line-break style (`"\r\n"` vs `"\n"`) and to trailing whitespace on lines:
two texts assembled from the same break-free core lines, with arbitrary
per-line trailing whitespace and arbitrary per-break styles, normalize to
the same string. -/
theorem claim_C7_normalize_idempotent_insensitive :
    (∀ T : List Char, normalize (normalize T) = normalize T) ∧
    (∀ (ls ps ps' : List (List Char)) (st st' : Nat → Bool),
      ps.length = ls.length → ps'.length = ls.length →
      (∀ l ∈ ls, ∀ c ∈ l, isLineBreak c = false) →
      (∀ p ∈ ps, ∀ c ∈ p, isSpace c = true ∧ isLineBreak c = false) →
      (∀ p ∈ ps', ∀ c ∈ p, isSpace c = true ∧ isLineBreak c = false) →
      normalize (joinBreaks (List.zipWith (· ++ ·) ls ps) st) =
        normalize (joinBreaks (List.zipWith (· ++ ·) ls ps') st')) := by
  constructor
  · exact normalize_idempotent
  · intro ls ps ps' st st' h1 h2 hbf hp hp'
    rw [normalize_joinBreaks_pad ls ps st h1 hbf hp,
        normalize_joinBreaks_pad ls ps' st' h2 hbf hp']

/-! ## Claim theorems for the merge engine: concrete failure modes -/

/-- **C10**: a record whose `condition` or `anticondition` is `null` gets
the same grouping key as one with an empty dict (lines 145-146 normalize
`None` to `{}`), and a `null` anticondition is harmless throughout — but
the output phase crashes on a `null` condition: line 204
(`new_spawn.get("condition", {}).copy()`) lacks the `or {}` guard of line
145, so `None.copy()` raises `AttributeError` and `merge_similar_spawns`
fails instead of treating the record like one with an empty condition.
This is the code bug behind claim C10. -/
theorem claim_C10_null_condition (urand : Nat → String) :
    computeKey urand 0 recNullCond = computeKey urand 0 recEmptyCond ∧
    computeKey urand 0 recNullAnti = computeKey urand 0 recEmptyAnti ∧
    merge_similar_spawns urand [recNullAnti] = .ok
      [{ recNullAnti with condition := some (some [("biomes", .listJ [])]) }] ∧
    merge_similar_spawns urand [recNullCond] = .error .attributeError :=
  ⟨rfl, rfl, rfl, rfl⟩

/-- Counterexample to **C5** as stated: a record whose party-requirement
list contains a non-dict entry makes the pre-sorting of line 153 raise
*outside* the `try` of lines 169-183, so `merge_similar_spawns` aborts
with the exception instead of falling back to a unique key. -/
theorem claim_C5_counterexample :
    merge_similar_spawns (fun _ => "r0") [recBadParty] = .error .attributeError := rfl

/-- **C5** as amended: only exceptions raised inside the guarded key-tuple
construction (in this model: sorting a non-iterable or incomparable
presets value) are caught and produce the fallback key, under which the
record is emitted standalone; exceptions from pre-sorting the condition
sub-record lists propagate and abort the whole merge. -/
theorem claim_C5_amended_fallback :
    (∀ (urand : Nat → String) (idx : Nat) (r : SpawnRecord) (e : PyErr)
      (party partySorted item itemSorted : List JValue),
      getListOrEmpty (keyConditions (getCond r)) "pokemon_in_party_requirement" = .ok party →
      sortByField "species" party = .ok partySorted →
      getListOrEmpty (keyConditions (getCond r)) "item_requirement" = .ok item →
      sortByField "id" item = .ok itemSorted →
      presetsKey r.presets = .error e →
      computeKey urand idx r = .ok (fallbackKey urand idx r)) ∧
    (∀ (urand : Nat → String) (idx : Nat) (r : SpawnRecord) (e : PyErr)
      (party : List JValue),
      getListOrEmpty (keyConditions (getCond r)) "pokemon_in_party_requirement" = .ok party →
      sortByField "species" party = .error e →
      computeKey urand idx r = .error e) ∧
    (∀ urand : Nat → String, merge_similar_spawns urand [recBadPresets] = .ok
      [{ recBadPresets with condition := some (some [("biomes", .listJ [])]) }]) := by
  refine ⟨?_, ?_, fun urand => rfl⟩
  · intro urand idx r e party partySorted item itemSorted hp hps hi his herr
    simp only [computeKey, tryKeyTuple, hp, hps, hi, his, herr, bind, Except.bind,
      pure, Except.pure]
  · intro urand idx r e party hp hps
    simp only [computeKey, hp, hps, bind, Except.bind, pure, Except.pure]

/-- Witness for the amended C5 at the concrete bad-presets record. -/
theorem claim_C5_witness :
    computeKey (fun _ => "r0") 5 recBadPresets =
      .ok (fallbackKey (fun _ => "r0") 5 recBadPresets) :=
  claim_C5_amended_fallback.1 (fun _ => "r0") 5 recBadPresets .typeError [] [] [] []
    rfl rfl rfl rfl rfl

/-- Counterexample to **C4** as stated: two records with distinct grouping
keys (different weights) both carry the biome `"forest"`; the merge emits
two records and `"forest"` appears in the accumulating set of *both*, not
of exactly one. -/
theorem claim_C4_counterexample :
    (merge_similar_spawns (fun _ => "r0")
        [sampleRec 1 ["forest"], sampleRec 2 ["forest"]]).map
      (fun out => (out.length,
        out.countP (fun o => biomeMem (.strJ "forest") (outBiomes o)))) =
      .ok (2, 2) := by decide

/-! ## Support lemmas for the grouping invariant -/

theorem mapM_ok_length {α β : Type} (f : α → Except PyErr β) :
    ∀ (l : List α) (out : List β), l.mapM f = .ok out → out.length = l.length := by
  intro l
  induction l with
  | nil =>
    intro out h
    simp only [List.mapM_nil, pure, Except.pure] at h
    injection h with h
    rw [← h]
    rfl
  | cons a t ih =>
    intro out h
    rw [List.mapM_cons] at h
    cases hfa : f a with
    | error e => rw [hfa] at h; simp [bind, Except.bind] at h
    | ok b =>
      rw [hfa] at h
      cases hmt : t.mapM f with
      | error e => rw [hmt] at h; simp [bind, Except.bind] at h
      | ok bs =>
        rw [hmt] at h
        simp only [bind, Except.bind, pure, Except.pure] at h
        injection h with h
        rw [← h]
        simp [ih bs hmt]

theorem mapM_ok_get {α β : Type} (f : α → Except PyErr β) :
    ∀ (l : List α) (out : List β), l.mapM f = .ok out →
      ∀ i (hi : i < l.length) (hi2 : i < out.length),
        f (l.get ⟨i, hi⟩) = .ok (out.get ⟨i, hi2⟩) := by
  intro l
  induction l with
  | nil => intro out h i hi; simp at hi
  | cons a t ih =>
    intro out h i hi hi2
    rw [List.mapM_cons] at h
    cases hfa : f a with
    | error e => rw [hfa] at h; simp [bind, Except.bind] at h
    | ok b =>
      rw [hfa] at h
      cases hmt : t.mapM f with
      | error e => rw [hmt] at h; simp [bind, Except.bind] at h
      | ok bs =>
        rw [hmt] at h
        simp only [bind, Except.bind, pure, Except.pure] at h
        injection h with h
        subst h
        cases i with
        | zero => simpa using hfa
        | succ i =>
          simp only [List.get_cons_succ]
          exact ih bs hmt i (by simpa using hi) (by simpa using hi2)

theorem inputKeys_append_singleton (urand : Nat → String) :
    ∀ (xs : List SpawnRecord) (start : Nat) (r : SpawnRecord),
      inputKeys urand start (xs ++ [r]) =
        (inputKeys urand start xs).bind (fun ks =>
          (computeKey urand (start + xs.length) r).map (fun k => ks ++ [k])) := by
  intro xs
  induction xs with
  | nil =>
    intro start r
    show inputKeys urand start [r] = _
    rw [inputKeys]
    cases h : computeKey urand start r with
    | error e =>
      simp [h, inputKeys, bind, Except.bind, pure, Except.pure, Except.map]
    | ok k =>
      simp [h, inputKeys, bind, Except.bind, pure, Except.pure, Except.map]
  | cons x t ih =>
    intro start r
    rw [List.cons_append, inputKeys, inputKeys]
    cases h : computeKey urand start x with
    | error e => simp [bind, Except.bind]
    | ok k =>
      simp only [bind, Except.bind]
      rw [ih (start + 1) r]
      have harith : start + 1 + t.length = start + (t.length + 1) := by omega
      rw [harith]
      cases h2 : inputKeys urand (start + 1) t with
      | error e => rfl
      | ok ks =>
        cases h3 : computeKey urand (start + (t.length + 1)) r with
        | error e =>
          simp [h3, bind, Except.bind, Except.map, pure, Except.pure, List.length_cons]
        | ok kk =>
          simp [h3, bind, Except.bind, Except.map, pure, Except.pure, List.length_cons]

theorem inputKeys_ok_of_covers (urand : Nat → String) :
    ∀ (l : List SpawnRecord) (start : Nat),
      (∀ j (hj : j < l.length), ∃ k, computeKey urand (start + j) (l.get ⟨j, hj⟩) = .ok k) →
      ∃ ks, inputKeys urand start l = .ok ks ∧ ks.length = l.length ∧
        ∀ j (hj : j < l.length) (hj2 : j < ks.length),
          computeKey urand (start + j) (l.get ⟨j, hj⟩) = .ok (ks.get ⟨j, hj2⟩) := by
  intro l
  induction l with
  | nil =>
    intro start _
    exact ⟨[], rfl, rfl, fun j hj => by simp at hj⟩
  | cons r t ih =>
    intro start hcov
    obtain ⟨k0, hk0⟩ := hcov 0 (by simp)
    rw [Nat.add_zero] at hk0
    have hk0r : computeKey urand start r = .ok k0 := hk0
    obtain ⟨ks, hks, hlen, hget⟩ := ih (start + 1) (by
      intro j hj
      obtain ⟨k, hk⟩ := hcov (j + 1) (by simpa using Nat.succ_lt_succ hj)
      refine ⟨k, ?_⟩
      have : start + 1 + j = start + (j + 1) := by omega
      rw [this]
      simpa using hk)
    refine ⟨k0 :: ks, ?_, by simpa using hlen, ?_⟩
    · rw [inputKeys, hk0r, hks]
      rfl
    · intro j hj hj2
      cases j with
      | zero => simpa using hk0r
      | succ j =>
        have h1 : start + (j + 1) = start + 1 + j := by omega
        rw [h1]
        simpa using hget j (by simpa using hj) (by simpa using hj2)

theorem mem_firstDedupAux {α : Type} [DecidableEq α] :
    ∀ (l seen : List α) (x : α), x ∈ firstDedupAux seen l ↔ x ∈ l ∧ x ∉ seen := by
  intro l
  induction l with
  | nil => intro seen x; simp [firstDedupAux]
  | cons a t ih =>
    intro seen x
    rw [firstDedupAux]
    by_cases ha : a ∈ seen
    · rw [if_pos ha, ih]
      constructor
      · rintro ⟨h1, h2⟩
        exact ⟨List.mem_cons_of_mem _ h1, h2⟩
      · rintro ⟨h1, h2⟩
        rcases List.mem_cons.mp h1 with rfl | h1
        · exact absurd ha h2
        · exact ⟨h1, h2⟩
    · rw [if_neg ha]
      by_cases hxa : x = a
      · subst hxa
        simp [ha]
      · simp only [List.mem_cons, hxa, false_or]
        rw [ih]
        constructor
        · rintro ⟨h1, h2⟩
          refine ⟨h1, fun hc => h2 (List.mem_cons_of_mem _ hc)⟩
        · rintro ⟨h1, h2⟩
          refine ⟨h1, fun hc => ?_⟩
          rcases List.mem_cons.mp hc with h | h
          · exact hxa h
          · exact h2 h

theorem firstDedupAux_nodup {α : Type} [DecidableEq α] :
    ∀ (l seen : List α), (firstDedupAux seen l).Nodup := by
  intro l
  induction l with
  | nil => intro seen; simp [firstDedupAux]
  | cons a t ih =>
    intro seen
    rw [firstDedupAux]
    by_cases ha : a ∈ seen
    · rw [if_pos ha]
      exact ih seen
    · rw [if_neg ha]
      refine List.nodup_cons.mpr ⟨?_, ih (a :: seen)⟩
      intro hc
      exact ((mem_firstDedupAux t (a :: seen) a).mp hc).2 (List.mem_cons_self a seen)

theorem firstDedup_nodup {α : Type} [DecidableEq α] (l : List α) :
    (firstDedup l).Nodup := firstDedupAux_nodup l []

theorem mem_firstDedup {α : Type} [DecidableEq α] (l : List α) (x : α) :
    x ∈ firstDedup l ↔ x ∈ l := by
  unfold firstDedup
  rw [mem_firstDedupAux]
  simp

theorem firstDedupAux_append_singleton {α : Type} [DecidableEq α] :
    ∀ (xs seen : List α) (y : α),
      firstDedupAux seen (xs ++ [y]) =
        firstDedupAux seen xs ++ (if y ∈ seen ∨ y ∈ xs then [] else [y]) := by
  intro xs
  induction xs with
  | nil =>
    intro seen y
    simp only [List.nil_append, firstDedupAux]
    by_cases hy : y ∈ seen
    · simp [hy, firstDedupAux]
    · simp [hy, firstDedupAux]
  | cons a t ih =>
    intro seen y
    rw [List.cons_append, firstDedupAux, firstDedupAux]
    by_cases ha : a ∈ seen
    · rw [if_pos ha, if_pos ha, ih]
      by_cases hy : y ∈ seen ∨ y ∈ t
      · rw [if_pos hy, if_pos]
        rcases hy with hy | hy
        · exact Or.inl hy
        · exact Or.inr (List.mem_cons_of_mem _ hy)
      · rw [if_neg hy, if_neg]
        intro hc
        rcases hc with hc | hc
        · exact hy (Or.inl hc)
        · rcases List.mem_cons.mp hc with rfl | hc
          · exact hy (Or.inl ha)
          · exact hy (Or.inr hc)
    · rw [if_neg ha, if_neg ha, ih, List.cons_append]
      by_cases hy : y ∈ a :: seen ∨ y ∈ t
      · rw [if_pos hy, if_pos]
        rcases hy with hy | hy
        · rcases List.mem_cons.mp hy with rfl | hy
          · exact Or.inr (List.mem_cons_self _ _)
          · exact Or.inl hy
        · exact Or.inr (List.mem_cons_of_mem _ hy)
      · rw [if_neg hy, if_neg]
        intro hc
        rcases hc with hc | hc
        · exact hy (Or.inl (List.mem_cons_of_mem _ hc))
        · rcases List.mem_cons.mp hc with rfl | hc
          · exact hy (Or.inl (List.mem_cons_self _ _))
          · exact hy (Or.inr hc)

theorem firstDedup_append_singleton {α : Type} [DecidableEq α] (xs : List α) (y : α) :
    firstDedup (xs ++ [y]) =
      if y ∈ xs then firstDedup xs else firstDedup xs ++ [y] := by
  unfold firstDedup
  rw [firstDedupAux_append_singleton]
  by_cases hy : y ∈ xs
  · simp [hy]
  · simp [hy]

theorem setAdd_ok_spec {s : List JValue} {v : JValue} {bs : List JValue}
    (h : setAdd s v = .ok bs) :
    isHashableJ v = true ∧ (bs = s ∨ bs = s ++ [v]) ∧ biomeMem v bs = true ∧
    (∀ w, biomeMem w s = true → biomeMem w bs = true) ∧
    (∀ w ∈ bs, w ∈ s ∨ w = v) ∧
    (s.Pairwise (fun a b => jNorm a ≠ jNorm b) →
      bs.Pairwise (fun a b => jNorm a ≠ jNorm b)) := by
  unfold setAdd at h
  by_cases hh : isHashableJ v = true
  · rw [if_pos hh] at h
    injection h with h
    refine ⟨hh, ?_, ?_, ?_, ?_, ?_⟩
    · by_cases hm : s.any (fun w => jNorm w = jNorm v) = true
      · left; rw [← h, if_pos hm]
      · right; rw [← h, if_neg hm]
    · by_cases hm : s.any (fun w => jNorm w = jNorm v) = true
      · rw [← h, if_pos hm]; exact hm
      · rw [← h, if_neg hm]
        unfold biomeMem
        simp
    · intro w hw
      by_cases hm : s.any (fun w => jNorm w = jNorm v) = true
      · rw [← h, if_pos hm]; exact hw
      · rw [← h, if_neg hm]
        unfold biomeMem at hw ⊢
        rw [List.any_append, hw]
        rfl
    · intro w hw
      by_cases hm : s.any (fun w => jNorm w = jNorm v) = true
      · rw [← h, if_pos hm] at hw; exact Or.inl hw
      · rw [← h, if_neg hm] at hw
        rcases List.mem_append.mp hw with hw | hw
        · exact Or.inl hw
        · exact Or.inr (List.mem_singleton.mp hw)
    · intro hp
      by_cases hm : s.any (fun w => jNorm w = jNorm v) = true
      · rw [← h, if_pos hm]; exact hp
      · rw [← h, if_neg hm]
        rw [List.pairwise_append]
        refine ⟨hp, by simp, ?_⟩
        intro a ha b hb
        rw [List.mem_singleton.mp hb]
        simp only [List.any_eq_true, not_exists] at hm
        intro hc
        exact hm a ⟨ha, by simpa using hc⟩
  · rw [if_neg hh] at h
    cases h

theorem foldlM_setAdd_spec :
    ∀ (l : List JValue) (s bs : List JValue),
      (l.foldlM (fun acc b => if pyTruthy b then setAdd acc b else pure acc) s) = .ok bs →
      (∀ w, biomeMem w s = true → biomeMem w bs = true) ∧
      (∀ b ∈ l.filter pyTruthy, biomeMem b bs = true) ∧
      (∀ w ∈ bs, w ∈ s ∨ w ∈ l.filter pyTruthy) ∧
      ((∀ w ∈ s, pyTruthy w = true ∧ isHashableJ w = true) →
        ∀ w ∈ bs, pyTruthy w = true ∧ isHashableJ w = true) ∧
      (s.Pairwise (fun a b => jNorm a ≠ jNorm b) →
        bs.Pairwise (fun a b => jNorm a ≠ jNorm b)) := by
  intro l
  induction l with
  | nil =>
    intro s bs h
    simp only [List.foldlM_nil, pure, Except.pure] at h
    injection h with h
    subst h
    exact ⟨fun w hw => hw, by simp, fun w hw => Or.inl hw, fun hwf => hwf, fun hp => hp⟩
  | cons x t ih =>
    intro s bs h
    rw [List.foldlM_cons] at h
    by_cases hx : pyTruthy x = true
    · rw [if_pos hx] at h
      cases hsa : setAdd s x with
      | error e => rw [hsa] at h; simp [bind, Except.bind] at h
      | ok s1 =>
        rw [hsa] at h
        simp only [bind, Except.bind] at h
        obtain ⟨hhash, hshape, hmemx, hmono1, helems1, hpair1⟩ := setAdd_ok_spec hsa
        obtain ⟨hmono2, hcontains2, helems2, hwf2, hpair2⟩ := ih s1 bs h
        refine ⟨fun w hw => hmono2 w (hmono1 w hw), ?_, ?_, ?_, ?_⟩
        · intro b hb
          rw [List.filter_cons, if_pos hx] at hb
          rcases List.mem_cons.mp hb with rfl | hb
          · exact hmono2 b hmemx
          · exact hcontains2 b hb
        · intro w hw
          rcases helems2 w hw with hw1 | hw1
          · rcases helems1 w hw1 with hw2 | rfl
            · exact Or.inl hw2
            · right
              rw [List.filter_cons, if_pos hx]
              exact List.mem_cons_self _ _
          · right
            rw [List.filter_cons, if_pos hx]
            exact List.mem_cons_of_mem _ hw1
        · intro hwf w hw
          refine hwf2 ?_ w hw
          intro w1 hw1
          rcases helems1 w1 hw1 with hw2 | rfl
          · exact hwf w1 hw2
          · exact ⟨hx, hhash⟩
        · intro hp
          refine hpair2 (hpair1 hp)
    · rw [if_neg hx] at h
      simp only [pure, Except.pure] at h
      obtain ⟨hmono2, hcontains2, helems2, hwf2, hpair2⟩ := ih s bs h
      refine ⟨hmono2, ?_, ?_, hwf2, hpair2⟩
      · intro b hb
        rw [List.filter_cons, if_neg hx] at hb
        exact hcontains2 b hb
      · intro w hw
        rcases helems2 w hw with hw1 | hw1
        · exact Or.inl hw1
        · right
          rw [List.filter_cons, if_neg hx]
          exact hw1

theorem addBiomes_scalar_spec {s bs : List JValue} {v : JValue} {cvals : List JValue}
    (h : (if pyTruthy v then setAdd s v else Except.ok s) = .ok bs)
    (hcv : cvals = if pyTruthy v then [v] else []) :
    (∀ w, biomeMem w s = true → biomeMem w bs = true) ∧
    (∀ u ∈ cvals, biomeMem u bs = true) ∧
    (∀ w ∈ bs, w ∈ s ∨ w ∈ cvals) ∧
    ((∀ w ∈ s, pyTruthy w = true ∧ isHashableJ w = true) →
      ∀ w ∈ bs, pyTruthy w = true ∧ isHashableJ w = true) ∧
    (s.Pairwise (fun a b => jNorm a ≠ jNorm b) →
      bs.Pairwise (fun a b => jNorm a ≠ jNorm b)) := by
  subst hcv
  by_cases hb : pyTruthy v = true
  · rw [if_pos hb] at h
    obtain ⟨hhash, hshape, hmemx, hmono1, helems1, hpair1⟩ := setAdd_ok_spec h
    refine ⟨hmono1, ?_, ?_, ?_, hpair1⟩
    · intro u hu
      rw [if_pos hb] at hu
      rcases List.mem_singleton.mp hu with rfl
      exact hmemx
    · intro w hw
      rcases helems1 w hw with hw1 | rfl
      · exact Or.inl hw1
      · right
        rw [if_pos hb]
        exact List.mem_singleton.mpr rfl
    · intro hwf w hw
      rcases helems1 w hw with hw1 | rfl
      · exact hwf w hw1
      · exact ⟨hb, hhash⟩
  · rw [if_neg hb] at h
    injection h with h
    subst h
    refine ⟨fun w hw => hw, ?_, fun w hw => Or.inl hw, fun hwf => hwf, fun hp => hp⟩
    intro u hu
    rw [if_neg hb] at hu
    simp at hu

theorem addBiomes_ok_spec {s : List JValue} {conds : List (String × JValue)}
    {bs : List JValue} (h : addBiomes s conds = .ok bs) :
    (∀ w, biomeMem w s = true → biomeMem w bs = true) ∧
    (∀ v ∈ condBiomeValues conds, biomeMem v bs = true) ∧
    (∀ w ∈ bs, w ∈ s ∨ w ∈ condBiomeValues conds) ∧
    ((∀ w ∈ s, pyTruthy w = true ∧ isHashableJ w = true) →
      ∀ w ∈ bs, pyTruthy w = true ∧ isHashableJ w = true) ∧
    (s.Pairwise (fun a b => jNorm a ≠ jNorm b) →
      bs.Pairwise (fun a b => jNorm a ≠ jNorm b)) := by
  cases hvl : lookupJ conds "biomes" with
  | none =>
    have h2 : (Except.ok s : Except PyErr (List JValue)) = .ok bs := by
      rw [← h]
      unfold addBiomes
      rw [hvl]
    have hcv : condBiomeValues conds = [] := by
      unfold condBiomeValues
      rw [hvl]
    injection h2 with h2
    subst h2
    rw [hcv]
    exact ⟨fun w hw => hw, by simp, fun w hw => Or.inl hw, fun hwf => hwf, fun hp => hp⟩
  | some v =>
    cases v with
    | listJ bsl =>
      have h2 : bsl.foldlM (fun acc b => if pyTruthy b then setAdd acc b else pure acc) s
          = .ok bs := by
        rw [← h]
        unfold addBiomes
        rw [hvl]
      have hcv : condBiomeValues conds = bsl.filter pyTruthy := by
        unfold condBiomeValues
        rw [hvl]
      rw [hcv]
      exact foldlM_setAdd_spec bsl s bs h2
    | nullJ =>
      refine addBiomes_scalar_spec (v := JValue.nullJ) ?_ ?_
      · rw [← h]
        unfold addBiomes
        rw [hvl]
      · unfold condBiomeValues
        rw [hvl]
    | boolJ b =>
      refine addBiomes_scalar_spec (v := JValue.boolJ b) ?_ ?_
      · rw [← h]
        unfold addBiomes
        rw [hvl]
      · unfold condBiomeValues
        rw [hvl]
    | numJ n =>
      refine addBiomes_scalar_spec (v := JValue.numJ n) ?_ ?_
      · rw [← h]
        unfold addBiomes
        rw [hvl]
      · unfold condBiomeValues
        rw [hvl]
    | strJ str =>
      refine addBiomes_scalar_spec (v := JValue.strJ str) ?_ ?_
      · rw [← h]
        unfold addBiomes
        rw [hvl]
      · unfold condBiomeValues
        rw [hvl]
    | objJ d =>
      refine addBiomes_scalar_spec (v := JValue.objJ d) ?_ ?_
      · rw [← h]
        unfold addBiomes
        rw [hvl]
      · unfold condBiomeValues
        rw [hvl]

theorem insertRecord_ok_cases (key : SpawnKey) (conds : List (String × JValue))
    (r : SpawnRecord) :
    ∀ (gs gs' : List (SpawnKey × MergedGroup)),
      insertRecord key conds r gs = .ok gs' →
      ((∀ p ∈ gs, normKey p.1 ≠ normKey key) ∧
        ∃ bs, addBiomes [] conds = .ok bs ∧ gs' = gs ++ [(key, ⟨bs, r⟩)]) ∨
      (∃ gs₁ p g₂ bs, gs = gs₁ ++ p :: g₂ ∧
        (∀ q ∈ gs₁, normKey q.1 ≠ normKey key) ∧ normKey p.1 = normKey key ∧
        addBiomes p.2.biomes conds = .ok bs ∧
        gs' = gs₁ ++ (p.1, ⟨bs, p.2.rep⟩) :: g₂) := by
  intro gs
  induction gs with
  | nil =>
    intro gs' h
    left
    unfold insertRecord at h
    cases habs : addBiomes [] conds with
    | error e => rw [habs] at h; simp [bind, Except.bind] at h
    | ok bs =>
      rw [habs] at h
      simp only [bind, Except.bind, pure, Except.pure] at h
      injection h with h
      exact ⟨by simp, bs, rfl, by rw [← h]; rfl⟩
  | cons q rest ih =>
    intro gs' h
    obtain ⟨k0, g0⟩ := q
    unfold insertRecord at h
    by_cases hk : normKey k0 = normKey key
    · rw [if_pos hk] at h
      cases habs : addBiomes g0.biomes conds with
      | error e => rw [habs] at h; simp [bind, Except.bind] at h
      | ok bs =>
        rw [habs] at h
        simp only [bind, Except.bind, pure, Except.pure] at h
        injection h with h
        subst h
        right
        exact ⟨[], (k0, g0), rest, bs, rfl, by simp, hk, habs, rfl⟩
    · rw [if_neg hk] at h
      cases hins : insertRecord key conds r rest with
      | error e => rw [hins] at h; simp [bind, Except.bind] at h
      | ok rest' =>
        rw [hins] at h
        simp only [bind, Except.bind, pure, Except.pure] at h
        injection h with h
        rcases ih rest' hins with ⟨hall, bs, habs, hsh⟩ | ⟨gs₁, p, g₂, bs, hsp, hall, hkp, habs, hsh⟩
        · left
          refine ⟨?_, bs, habs, ?_⟩
          · intro p hp
            rcases List.mem_cons.mp hp with rfl | hp
            · exact hk
            · exact hall p hp
          · rw [← h, hsh]
            rfl
        · right
          refine ⟨(k0, g0) :: gs₁, p, g₂, bs, by rw [hsp]; rfl, ?_, hkp, habs, ?_⟩
          · intro p1 hp1
            rcases List.mem_cons.mp hp1 with rfl | hp1
            · exact hk
            · exact hall p1 hp1
          · rw [← h, hsh]
            rfl

theorem get_append_last {α : Type} :
    ∀ (l : List α) (a : α) (h : l.length < (l ++ [a]).length),
      (l ++ [a]).get ⟨l.length, h⟩ = a := by
  intro l
  induction l with
  | nil => intro a h; rfl
  | cons x t ih =>
    intro a h
    simp only [List.cons_append, List.length_cons, List.get_cons_succ]
    exact ih a (by simpa using Nat.lt_of_succ_lt_succ (by simpa using h))

theorem get_two_append {α : Type} :
    ∀ (l₁ : List α) (x y : α) (l₂ : List α) (i : Nat)
      (h1 : i < (l₁ ++ x :: l₂).length) (h2 : i < (l₁ ++ y :: l₂).length),
      (i ≠ l₁.length → (l₁ ++ x :: l₂).get ⟨i, h1⟩ = (l₁ ++ y :: l₂).get ⟨i, h2⟩) ∧
      (i = l₁.length → (l₁ ++ x :: l₂).get ⟨i, h1⟩ = x) := by
  intro l₁
  induction l₁ with
  | nil =>
    intro x y l₂ i h1 h2
    cases i with
    | zero => exact ⟨fun hne => absurd rfl hne, fun _ => rfl⟩
    | succ i => exact ⟨fun _ => rfl, fun he => absurd he (by simp)⟩
  | cons a t ih =>
    intro x y l₂ i h1 h2
    cases i with
    | zero => exact ⟨fun _ => rfl, fun he => absurd he (by simp)⟩
    | succ i =>
      obtain ⟨hne, heq⟩ := ih x y l₂ i (by simpa using h1) (by simpa using h2)
      constructor
      · intro hi
        simp only [List.cons_append, List.get_cons_succ]
        exact hne (fun hc => hi (by simp [hc]))
      · intro hi
        simp only [List.cons_append, List.get_cons_succ]
        exact heq (by simpa using hi)

theorem groupsInv_nil (urand : Nat → String) : GroupsInv urand [] [] := by
  refine ⟨Nat.le_refl 0, ?_, ?_, ?_, ?_, ?_⟩
  · intro i hi; simp at hi
  · intro j hj; simp at hj
  · intro p hp; simp at hp
  · intro p hp; simp at hp
  · intro ks hks
    have h2 : (Except.ok [] : Except PyErr (List SpawnKey)) = .ok ks := hks
    injection h2 with h2
    subst h2
    rfl

theorem groupsInv_step (urand : Nat → String) (pre : List SpawnRecord)
    (gs gs' : List (SpawnKey × MergedGroup)) (r : SpawnRecord) (k : SpawnKey)
    (hinv : GroupsInv urand pre gs)
    (hk : computeKey urand pre.length r = .ok k)
    (hkh : keyHashable k = true)
    (hins : insertRecord k (getCond r) r gs = .ok gs') :
    GroupsInv urand (pre ++ [r]) gs' := by
  have hgetpre : ∀ j (hj : j < pre.length) (hj2 : j < (pre ++ [r]).length),
      (pre ++ [r]).get ⟨j, hj2⟩ = pre.get ⟨j, hj⟩ := by
    intro j hj hj2
    exact List.get_append j hj
  have hgetr : ∀ (h2 : pre.length < (pre ++ [r]).length),
      (pre ++ [r]).get ⟨pre.length, h2⟩ = r := fun h2 => get_append_last pre r h2
  have hksplit : ∀ ks, inputKeys urand 0 (pre ++ [r]) = .ok ks →
      ∃ ks₀, inputKeys urand 0 pre = .ok ks₀ ∧ ks = ks₀ ++ [k] := by
    intro ks hks
    rw [inputKeys_append_singleton urand pre 0 r] at hks
    cases h0 : inputKeys urand 0 pre with
    | error e => rw [h0] at hks; simp [Except.bind] at hks
    | ok ks₀ =>
      rw [h0] at hks
      simp only [Except.bind] at hks
      have h1 : (0 : Nat) + pre.length = pre.length := Nat.zero_add _
      rw [h1, hk] at hks
      simp only [Except.map] at hks
      injection hks with hks
      exact ⟨ks₀, rfl, hks.symm⟩
  have hmem_keys : ∀ ks₀, inputKeys urand 0 pre = .ok ks₀ →
      ∀ x, (x ∈ ks₀.map normKey ↔ ∃ q ∈ gs, normKey q.1 = x) := by
    intro ks₀ h0 x
    have he := hinv.keys_eq ks₀ h0
    constructor
    · intro hx
      have h2 : x ∈ firstDedup (ks₀.map normKey) := (mem_firstDedup _ _).mpr hx
      rw [← he] at h2
      obtain ⟨q, hq, hqx⟩ := List.mem_map.mp h2
      exact ⟨q, hq, hqx⟩
    · rintro ⟨q, hq, rfl⟩
      have h2 : normKey q.1 ∈ gs.map (fun p => normKey p.1) :=
        List.mem_map.mpr ⟨q, hq, rfl⟩
      rw [he] at h2
      exact (mem_firstDedup _ _).mp h2
  rcases insertRecord_ok_cases k (getCond r) r gs gs' hins with
    ⟨hall, bs, habs, hsh⟩ | ⟨gs₁, p, g₂, bs, hsp, hall, hkp, habs, hsh⟩
  · subst hsh
    obtain ⟨hmono, hcvals, helems, hwf, hpair⟩ := addBiomes_ok_spec habs
    refine ⟨?_, ?_, ?_, ?_, ?_, ?_⟩
    · simpa using Nat.succ_le_succ hinv.len_le
    · intro i hi
      by_cases hcase : i < gs.length
      · have hgi : (gs ++ [(k, (⟨bs, r⟩ : MergedGroup))]).get ⟨i, hi⟩ = gs.get ⟨i, hcase⟩ :=
          List.get_append i hcase
        obtain ⟨j, hj, hkey, hrep, hmin⟩ := hinv.rep_first i hcase
        refine ⟨j, by simpa using Nat.lt_succ_of_lt hj, ?_, ?_, ?_⟩
        · rw [hgetpre j hj, hgi]
          exact hkey
        · rw [hgi, hgetpre j hj]
          exact hrep
        · intro j' hj' k' hck
          rw [hgetpre j' (Nat.lt_trans hj' hj)] at hck
          rw [hgi]
          exact hmin j' hj' k' hck
      · have hieq : i = gs.length := by
          simp only [List.length_append, List.length_cons, List.length_nil] at hi
          omega
        subst hieq
        have hgi : (gs ++ [(k, (⟨bs, r⟩ : MergedGroup))]).get ⟨gs.length, hi⟩
            = (k, (⟨bs, r⟩ : MergedGroup)) := get_append_last gs _ hi
        refine ⟨pre.length, by simp, ?_, ?_, ?_⟩
        · rw [hgi, hgetr]
          exact hk
        · rw [hgi, hgetr]
        · intro j' hj' k' hck
          rw [hgetpre j' hj'] at hck
          rw [hgi]
          intro hcontra
          obtain ⟨k'', hk'', hkh'', i', hi', hnorm', hbio'⟩ := hinv.covers j' hj'
          rw [hck] at hk''
          injection hk'' with hk''
          subst hk''
          refine hall (gs.get ⟨i', hi'⟩) (List.get_mem gs i' hi') ?_
          rw [hnorm']
          exact hcontra
    · intro j hj
      by_cases hcase : j < pre.length
      · obtain ⟨k', hck, hkh', i', hi', hnorm, hbio⟩ := hinv.covers j hcase
        have hi2 : i' < (gs ++ [(k, (⟨bs, r⟩ : MergedGroup))]).length := by
          simp only [List.length_append, List.length_cons, List.length_nil]
          omega
        refine ⟨k', ?_, hkh', i', hi2, ?_, ?_⟩
        · rw [hgetpre j hcase]
          exact hck
        · rw [List.get_append i' hi']
          exact hnorm
        · intro v hv
          rw [hgetpre j hcase] at hv
          rw [List.get_append i' hi']
          exact hbio v hv
      · have hjeq : j = pre.length := by
          simp only [List.length_append, List.length_cons, List.length_nil] at hj
          omega
        subst hjeq
        have hi2 : gs.length < (gs ++ [(k, (⟨bs, r⟩ : MergedGroup))]).length := by simp
        refine ⟨k, ?_, hkh, gs.length, hi2, ?_, ?_⟩
        · rw [hgetr]
          exact hk
        · rw [get_append_last gs _ hi2]
        · intro v hv
          rw [hgetr] at hv
          rw [get_append_last gs _ hi2]
          exact hcvals v hv
    · intro q hq
      rcases List.mem_append.mp hq with hq | hq
      · exact hinv.keys_hashable q hq
      · rw [List.mem_singleton.mp hq]
        exact hkh
    · intro q hq
      rcases List.mem_append.mp hq with hq | hq
      · exact hinv.biomes_wf q hq
      · rw [List.mem_singleton.mp hq]
        exact ⟨fun v hv => hwf (by simp) v hv, hpair (by simp)⟩
    · intro ks hks
      obtain ⟨ks₀, h0, rfl⟩ := hksplit ks hks
      have he := hinv.keys_eq ks₀ h0
      have hnotin : normKey k ∉ ks₀.map normKey := by
        intro hx
        obtain ⟨q, hq, hqx⟩ := (hmem_keys ks₀ h0 (normKey k)).mp hx
        exact hall q hq hqx
      simp only [List.map_append, List.map_cons, List.map_nil]
      rw [firstDedup_append_singleton, if_neg hnotin, he]
  · subst hsp
    subst hsh
    obtain ⟨hmono, hcvals, helems, hwf, hpair⟩ := addBiomes_ok_spec habs
    have hpoint : ∀ i (hi : i < (gs₁ ++ p :: g₂).length)
        (hi2 : i < (gs₁ ++ (p.1, (⟨bs, p.2.rep⟩ : MergedGroup)) :: g₂).length),
        ((gs₁ ++ (p.1, (⟨bs, p.2.rep⟩ : MergedGroup)) :: g₂).get ⟨i, hi2⟩).1
          = ((gs₁ ++ p :: g₂).get ⟨i, hi⟩).1 ∧
        ((gs₁ ++ (p.1, (⟨bs, p.2.rep⟩ : MergedGroup)) :: g₂).get ⟨i, hi2⟩).2.rep
          = ((gs₁ ++ p :: g₂).get ⟨i, hi⟩).2.rep ∧
        (∀ v, biomeMem v ((gs₁ ++ p :: g₂).get ⟨i, hi⟩).2.biomes = true →
          biomeMem v ((gs₁ ++ (p.1, (⟨bs, p.2.rep⟩ : MergedGroup)) :: g₂).get
            ⟨i, hi2⟩).2.biomes = true) := by
      intro i hi hi2
      by_cases hieq : i = gs₁.length
      · have h1 := (get_two_append gs₁ (p.1, (⟨bs, p.2.rep⟩ : MergedGroup)) p g₂ i hi2 hi).2 hieq
        have h2 := (get_two_append gs₁ p (p.1, (⟨bs, p.2.rep⟩ : MergedGroup)) g₂ i hi hi2).2 hieq
        rw [h1, h2]
        exact ⟨rfl, rfl, fun v hv => hmono v hv⟩
      · have h1 := (get_two_append gs₁ (p.1, (⟨bs, p.2.rep⟩ : MergedGroup)) p g₂ i hi2 hi).1 hieq
        rw [h1]
        exact ⟨rfl, rfl, fun v hv => hv⟩
    refine ⟨?_, ?_, ?_, ?_, ?_, ?_⟩
    · have h1 := hinv.len_le
      simp only [List.length_append, List.length_cons, List.length_nil] at h1 ⊢
      omega
    · intro i hi
      have hi' : i < (gs₁ ++ p :: g₂).length := by
        simp only [List.length_append, List.length_cons] at hi ⊢
        omega
      obtain ⟨hkey1, hrep1, _⟩ := hpoint i hi' hi
      obtain ⟨j, hj, hkey, hrep, hmin⟩ := hinv.rep_first i hi'
      refine ⟨j, by simpa using Nat.lt_succ_of_lt hj, ?_, ?_, ?_⟩
      · rw [hgetpre j hj, hkey1]
        exact hkey
      · rw [hrep1, hgetpre j hj]
        exact hrep
      · intro j' hj' k' hck
        rw [hgetpre j' (Nat.lt_trans hj' hj)] at hck
        rw [hkey1]
        exact hmin j' hj' k' hck
    · intro j hj
      by_cases hcase : j < pre.length
      · obtain ⟨k', hck, hkh', i', hi', hnorm, hbio⟩ := hinv.covers j hcase
        have hi2 : i' < (gs₁ ++ (p.1, (⟨bs, p.2.rep⟩ : MergedGroup)) :: g₂).length := by
          simp only [List.length_append, List.length_cons] at hi' ⊢
          omega
        obtain ⟨hkey1, _, hbmono⟩ := hpoint i' hi' hi2
        refine ⟨k', ?_, hkh', i', hi2, ?_, ?_⟩
        · rw [hgetpre j hcase]
          exact hck
        · rw [hkey1]
          exact hnorm
        · intro v hv
          rw [hgetpre j hcase] at hv
          exact hbmono v (hbio v hv)
      · have hjeq : j = pre.length := by
          simp only [List.length_append, List.length_cons, List.length_nil] at hj
          omega
        subst hjeq
        have hi0 : gs₁.length < (gs₁ ++ p :: g₂).length := by simp
        have hi02 : gs₁.length < (gs₁ ++ (p.1, (⟨bs, p.2.rep⟩ : MergedGroup)) :: g₂).length := by
          simp
        have hg0 := (get_two_append gs₁ (p.1, (⟨bs, p.2.rep⟩ : MergedGroup)) p g₂
          gs₁.length hi02 hi0).2 rfl
        refine ⟨k, ?_, hkh, gs₁.length, hi02, ?_, ?_⟩
        · rw [hgetr]
          exact hk
        · rw [hg0]
          exact hkp
        · intro v hv
          rw [hgetr] at hv
          rw [hg0]
          exact hcvals v hv
    · intro q hq
      rcases List.mem_append.mp hq with hq | hq
      · exact hinv.keys_hashable q (List.mem_append.mpr (Or.inl hq))
      · rcases List.mem_cons.mp hq with rfl | hq
        · exact hinv.keys_hashable p (List.mem_append.mpr (Or.inr (List.mem_cons_self p g₂)))
        · exact hinv.keys_hashable q (List.mem_append.mpr (Or.inr (List.mem_cons_of_mem p hq)))
    · intro q hq
      rcases List.mem_append.mp hq with hq | hq
      · exact hinv.biomes_wf q (List.mem_append.mpr (Or.inl hq))
      · rcases List.mem_cons.mp hq with rfl | hq
        · have hold := hinv.biomes_wf p
            (List.mem_append.mpr (Or.inr (List.mem_cons_self p g₂)))
          exact ⟨fun v hv => hwf hold.1 v hv, hpair hold.2⟩
        · exact hinv.biomes_wf q (List.mem_append.mpr (Or.inr (List.mem_cons_of_mem p hq)))
    · intro ks hks
      obtain ⟨ks₀, h0, rfl⟩ := hksplit ks hks
      have he := hinv.keys_eq ks₀ h0
      have hin : normKey k ∈ ks₀.map normKey := by
        refine (hmem_keys ks₀ h0 (normKey k)).mpr ?_
        exact ⟨p, List.mem_append.mpr (Or.inr (List.mem_cons_self p g₂)), hkp⟩
      simp only [List.map_append, List.map_cons, List.map_nil] at he ⊢
      rw [firstDedup_append_singleton, if_pos hin, ← he]

theorem mergeGroupsAux_inv (urand : Nat → String) :
    ∀ (rs pre : List SpawnRecord) (gs gs' : List (SpawnKey × MergedGroup)),
      GroupsInv urand pre gs →
      mergeGroupsAux urand pre.length gs rs = .ok gs' →
      GroupsInv urand (pre ++ rs) gs' := by
  intro rs
  induction rs with
  | nil =>
    intro pre gs gs' hinv h
    rw [mergeGroupsAux] at h
    injection h with h
    subst h
    simpa using hinv
  | cons r t ih =>
    intro pre gs gs' hinv h
    rw [mergeGroupsAux] at h
    cases hk : computeKey urand pre.length r with
    | error e => rw [hk] at h; simp [bind, Except.bind] at h
    | ok k =>
      rw [hk] at h
      simp only [bind, Except.bind] at h
      by_cases hkh : keyHashable k = true
      · rw [if_pos hkh] at h
        cases hins : insertRecord k (getCond r) r gs with
        | error e => rw [hins] at h; simp [bind, Except.bind] at h
        | ok gs1 =>
          rw [hins] at h
          simp only [bind, Except.bind] at h
          have hstep := groupsInv_step urand pre gs gs1 r k hinv hk hkh hins
          have hlen : (pre ++ [r]).length = pre.length + 1 := by simp
          have hres := ih (pre ++ [r]) gs1 gs' hstep (by rw [hlen]; exact h)
          simpa using hres
      · rw [if_neg hkh] at h
        simp [throw, throwThe, MonadExceptOf.throw] at h

theorem keyConditions_setCondEntry (d : List (String × JValue)) (v : JValue) :
    keyConditions (setCondEntry d "biomes" v) = keyConditions d := by
  unfold setCondEntry keyConditions
  by_cases hd : d.any (fun p => p.1 = "biomes") = true
  · rw [if_pos hd]
    clear hd
    induction d with
    | nil => rfl
    | cons a t ih =>
      simp only [List.map_cons, List.filter_cons]
      by_cases ha : a.1 = "biomes"
      · simp [ha]
        simpa using ih
      · simp [ha]
        simpa using ih
  · rw [if_neg hd]
    rw [List.filter_append]
    simp

theorem find?_append_of_none {α : Type} (p : α → Bool) :
    ∀ (l₁ l₂ : List α), (∀ a ∈ l₁, p a = false) → (l₁ ++ l₂).find? p = l₂.find? p := by
  intro l₁ l₂
  induction l₁ with
  | nil => intro _; rfl
  | cons a t ih =>
    intro h
    rw [List.cons_append, List.find?_cons]
    rw [h a (List.mem_cons_self a t)]
    exact ih (fun b hb => h b (List.mem_cons_of_mem a hb))

theorem lookupJ_map_replace (v : JValue) :
    ∀ (d : List (String × JValue)), d.any (fun p => p.1 = "biomes") = true →
      lookupJ (d.map (fun p => if p.1 = "biomes" then ("biomes", v) else p)) "biomes"
        = some v := by
  intro d
  induction d with
  | nil => intro hd; simp at hd
  | cons a t ih =>
    intro hd
    by_cases ha : a.1 = "biomes"
    · unfold lookupJ
      rw [List.map_cons, if_pos ha, List.find?_cons]
      simp
    · unfold lookupJ
      rw [List.map_cons, if_neg ha, List.find?_cons]
      have hpa : decide (a.1 = "biomes") = false := by
        simpa using ha
      rw [hpa]
      have ht : t.any (fun p => p.1 = "biomes") = true := by
        rw [List.any_cons] at hd
        rcases Bool.or_eq_true_iff.mp hd with h1 | h1
        · exact absurd (by simpa using h1) ha
        · exact h1
      exact ih ht

theorem lookupJ_setCondEntry (d : List (String × JValue)) (v : JValue) :
    lookupJ (setCondEntry d "biomes" v) "biomes" = some v := by
  unfold setCondEntry
  by_cases hd : d.any (fun p => p.1 = "biomes") = true
  · rw [if_pos hd]
    exact lookupJ_map_replace v d hd
  · rw [if_neg hd]
    unfold lookupJ
    rw [find?_append_of_none]
    · simp [List.find?_cons]
    · intro a ha
      have := List.any_eq_true.not.mp hd
      simp only [not_exists, not_and] at this
      by_cases haa : a.1 = "biomes"
      · exact absurd (List.any_eq_true.mpr ⟨a, ha, by simpa using haa⟩) hd
      · simpa using haa

theorem orderedInsertE_perm {α : Type} (lt : α → α → Except PyErr Bool) (a : α) :
    ∀ (l out : List α), orderedInsertE lt a l = .ok out → out.Perm (a :: l) := by
  intro l
  induction l with
  | nil =>
    intro out h
    rw [orderedInsertE] at h
    injection h with h
    subst h
    exact List.Perm.refl _
  | cons b l ih =>
    intro out h
    rw [orderedInsertE] at h
    cases hlt : lt b a with
    | error e => rw [hlt] at h; simp [bind, Except.bind] at h
    | ok c =>
      rw [hlt] at h
      simp only [bind, Except.bind] at h
      cases c with
      | true =>
        rw [if_pos rfl] at h
        cases hrec : orderedInsertE lt a l with
        | error e => rw [hrec] at h; simp [bind, Except.bind] at h
        | ok r =>
          rw [hrec] at h
          simp only [bind, Except.bind, pure, Except.pure] at h
          injection h with h
          subst h
          exact ((ih r hrec).cons b).trans (List.Perm.swap a b l)
      | false =>
        rw [if_neg (by simp)] at h
        simp only [pure, Except.pure] at h
        injection h with h
        subst h
        exact List.Perm.refl _

theorem insertionSortE_perm {α : Type} (lt : α → α → Except PyErr Bool) :
    ∀ (l out : List α), insertionSortE lt l = .ok out → out.Perm l := by
  intro l
  induction l with
  | nil =>
    intro out h
    rw [insertionSortE] at h
    injection h with h
    subst h
    exact List.Perm.refl _
  | cons a t ih =>
    intro out h
    rw [insertionSortE] at h
    cases hrec : insertionSortE lt t with
    | error e => rw [hrec] at h; simp [bind, Except.bind] at h
    | ok s =>
      rw [hrec] at h
      simp only [bind, Except.bind] at h
      exact (orderedInsertE_perm lt a s out h).trans ((ih s hrec).cons a)

theorem outputRecord_spec (g : MergedGroup) (o : SpawnRecord)
    (h : outputRecord g = .ok o) :
    sameExceptBiomes o g.rep ∧
    ∃ sorted, insertionSortE pyLt g.biomes = .ok sorted ∧ sorted.Perm g.biomes ∧
      lookupJ (getCond o) "biomes" = some (.listJ sorted) ∧
      outBiomes o = sorted := by
  unfold outputRecord at h
  have hcd : ∀ (condDict : List (String × JValue)),
      getCond g.rep = condDict →
      (insertionSortE pyLt g.biomes).bind
        (fun sorted => Except.ok { g.rep with
          condition := some (some (setCondEntry condDict "biomes" (.listJ sorted))) })
        = .ok o →
      sameExceptBiomes o g.rep ∧
      ∃ sorted, insertionSortE pyLt g.biomes = .ok sorted ∧ sorted.Perm g.biomes ∧
        lookupJ (getCond o) "biomes" = some (.listJ sorted) ∧
        outBiomes o = sorted := by
    intro condDict hgc h2
    cases hs : insertionSortE pyLt g.biomes with
    | error e => rw [hs] at h2; simp [Except.bind] at h2
    | ok sorted =>
      rw [hs] at h2
      simp only [Except.bind] at h2
      injection h2 with h2
      subst h2
      refine ⟨⟨rfl, rfl, rfl, rfl, rfl, rfl, rfl, rfl, rfl, ?_⟩,
        sorted, rfl, insertionSortE_perm pyLt g.biomes sorted hs, ?_, ?_⟩
      · show keyConditions (setCondEntry condDict "biomes" (.listJ sorted))
          = keyConditions (getCond g.rep)
        rw [hgc]
        exact keyConditions_setCondEntry condDict (.listJ sorted)
      · exact lookupJ_setCondEntry condDict (.listJ sorted)
      · show outBiomes { g.rep with
          condition := some (some (setCondEntry condDict "biomes" (.listJ sorted))) } = sorted
        unfold outBiomes
        have hl : lookupJ (getCond { g.rep with
            condition := some (some (setCondEntry condDict "biomes" (.listJ sorted))) })
            "biomes" = some (.listJ sorted) :=
          lookupJ_setCondEntry condDict (.listJ sorted)
        rw [hl]
  cases hc : g.rep.condition with
  | none =>
    rw [hc] at h
    simp only [bind, Except.bind, pure, Except.pure] at h
    refine hcd [] ?_ h
    unfold getCond
    rw [hc]
    rfl
  | some oc =>
    cases oc with
    | none =>
      rw [hc] at h
      simp [bind, Except.bind, throw, throwThe, MonadExceptOf.throw] at h
    | some d =>
      rw [hc] at h
      simp only [bind, Except.bind, pure, Except.pure] at h
      refine hcd d ?_ h
      unfold getCond
      rw [hc]
      rfl

/-- C1: whenever `merge_similar_spawns` succeeds, the output is at most as
long as the input, every input record's grouping key is defined, the output
records carry pairwise distinct canonical keys (no two outputs share a
key), and each output record agrees with the *first* input record whose
key matches its group — the first-seen representative — on every
non-accumulating attribute (everything except the `biomes` entry of the
condition dict), deterministically in input order. -/
theorem claim_C1_merge_shape (urand : Nat → String) (l out : List SpawnRecord)
    (h : merge_similar_spawns urand l = .ok out) :
    out.length ≤ l.length ∧
    ∃ (ks : List SpawnKey) (okeys : List SpawnKey),
      inputKeys urand 0 l = .ok ks ∧ ks.length = l.length ∧
      okeys.length = out.length ∧ (okeys.map normKey).Nodup ∧
      ∀ i (hi : i < out.length) (hi2 : i < okeys.length),
        ∃ j, ∃ (hj : j < l.length) (hj2 : j < ks.length),
          ks.get ⟨j, hj2⟩ = okeys.get ⟨i, hi2⟩ ∧
          sameExceptBiomes (out.get ⟨i, hi⟩) (l.get ⟨j, hj⟩) ∧
          ∀ j' (hj' : j' < j) (hj2' : j' < ks.length),
            normKey (ks.get ⟨j', hj2'⟩) ≠ normKey (okeys.get ⟨i, hi2⟩) := by
  unfold merge_similar_spawns at h
  cases hmg : mergeGroups urand l with
  | error e => rw [hmg] at h; simp [bind, Except.bind] at h
  | ok gs =>
    rw [hmg] at h
    simp only [bind, Except.bind] at h
    have hinv : GroupsInv urand l gs := by
      have hbase := groupsInv_nil urand
      have haux := mergeGroupsAux_inv urand l [] [] gs hbase hmg
      simpa using haux
    have hcov : ∀ j (hj : j < l.length),
        ∃ k, computeKey urand (0 + j) (l.get ⟨j, hj⟩) = .ok k := by
      intro j hj
      obtain ⟨k', hck, _⟩ := hinv.covers j hj
      exact ⟨k', by rw [Nat.zero_add]; exact hck⟩
    obtain ⟨ks, hks, hkslen, hksget⟩ := inputKeys_ok_of_covers urand l 0 hcov
    have hlen_out : out.length = gs.length := mapM_ok_length _ gs out h
    have hkeq := hinv.keys_eq ks hks
    refine ⟨?_, ks, gs.map (fun p => p.1), hks, hkslen, ?_, ?_, ?_⟩
    · rw [hlen_out]
      exact hinv.len_le
    · simp [hlen_out]
    · have hmm : (gs.map (fun p => p.1)).map normKey = gs.map (fun p => normKey p.1) := by
        rw [List.map_map]
        rfl
      rw [hmm, hkeq]
      exact firstDedup_nodup _
    · intro i hi hi2
      have higs : i < gs.length := by rw [← hlen_out]; exact hi
      have hgm : (gs.map (fun p => p.1)).get ⟨i, hi2⟩ = (gs.get ⟨i, higs⟩).1 := by
        simp
      obtain ⟨j, hj, hkey, hrep, hmin⟩ := hinv.rep_first i higs
      have hj2 : j < ks.length := by rw [hkslen]; exact hj
      refine ⟨j, hj, hj2, ?_, ?_, ?_⟩
      · have h1 := hksget j hj hj2
        rw [Nat.zero_add, hkey] at h1
        injection h1 with h1
        rw [hgm, h1]
      · have hout := mapM_ok_get _ gs out h i higs hi
        obtain ⟨hsame, _⟩ := outputRecord_spec (gs.get ⟨i, higs⟩).2 (out.get ⟨i, hi⟩) hout
        rw [← hrep]
        exact hsame
      · intro j' hj' hj2'
        have h1 := hksget j' (Nat.lt_trans hj' hj) hj2'
        rw [Nat.zero_add] at h1
        have h2 := hmin j' hj' (ks.get ⟨j', hj2'⟩) h1
        rw [hgm]
        exact h2

/-- Witness for C1: the merge of a single concrete record succeeds and
returns that record, so the shape theorem applies to it. -/
theorem claim_C1_witness :
    [sampleRec 1 ["forest"]].length ≤ [sampleRec 1 ["forest"]].length ∧
    ∃ (ks : List SpawnKey) (okeys : List SpawnKey),
      inputKeys (fun _ => "tok") 0 [sampleRec 1 ["forest"]] = .ok ks ∧
      ks.length = [sampleRec 1 ["forest"]].length ∧
      okeys.length = [sampleRec 1 ["forest"]].length ∧ (okeys.map normKey).Nodup ∧
      ∀ i (hi : i < [sampleRec 1 ["forest"]].length) (hi2 : i < okeys.length),
        ∃ j, ∃ (hj : j < [sampleRec 1 ["forest"]].length) (hj2 : j < ks.length),
          ks.get ⟨j, hj2⟩ = okeys.get ⟨i, hi2⟩ ∧
          sameExceptBiomes ([sampleRec 1 ["forest"]].get ⟨i, hi⟩)
            ([sampleRec 1 ["forest"]].get ⟨j, hj⟩) ∧
          ∀ j' (hj' : j' < j) (hj2' : j' < ks.length),
            normKey (ks.get ⟨j', hj2'⟩) ≠ normKey (okeys.get ⟨i, hi2⟩) :=
  claim_C1_merge_shape (fun _ => "tok") [sampleRec 1 ["forest"]]
    [sampleRec 1 ["forest"]] (by decide)

theorem biomeMem_of_perm {s1 s2 : List JValue} (hp : s1.Perm s2) (v : JValue) :
    biomeMem v s1 = biomeMem v s2 := by
  unfold biomeMem
  refine Bool.eq_iff_iff.mpr ?_
  simp only [List.any_eq_true]
  constructor
  · rintro ⟨x, hx, hfx⟩
    exact ⟨x, hp.mem_iff.mp hx, hfx⟩
  · rintro ⟨x, hx, hfx⟩
    exact ⟨x, hp.mem_iff.mpr hx, hfx⟩

/-- C4 (amended): whenever `merge_similar_spawns` succeeds, the number of
output records equals the number of distinct canonical keys among the
inputs, and every truthy biome value of every input record appears (up to
Python `==`) in the merged biome set written into the output record of
that input's group — so in at least one output record; it is *not* in
exactly one, as `claim_C4_counterexample` shows. -/
theorem claim_C4_amended_delivery (urand : Nat → String) (l out : List SpawnRecord)
    (h : merge_similar_spawns urand l = .ok out) :
    (∃ ks : List SpawnKey, inputKeys urand 0 l = .ok ks ∧
      out.length = (firstDedup (ks.map normKey)).length) ∧
    ∀ j (hj : j < l.length), ∃ i, ∃ (hi : i < out.length),
      ∀ v ∈ recBiomeValues (l.get ⟨j, hj⟩),
        biomeMem v (outBiomes (out.get ⟨i, hi⟩)) = true := by
  unfold merge_similar_spawns at h
  cases hmg : mergeGroups urand l with
  | error e => rw [hmg] at h; simp [bind, Except.bind] at h
  | ok gs =>
    rw [hmg] at h
    simp only [bind, Except.bind] at h
    have hinv : GroupsInv urand l gs := by
      have hbase := groupsInv_nil urand
      have haux := mergeGroupsAux_inv urand l [] [] gs hbase hmg
      simpa using haux
    have hcov : ∀ j (hj : j < l.length),
        ∃ k, computeKey urand (0 + j) (l.get ⟨j, hj⟩) = .ok k := by
      intro j hj
      obtain ⟨k', hck, _⟩ := hinv.covers j hj
      exact ⟨k', by rw [Nat.zero_add]; exact hck⟩
    obtain ⟨ks, hks, hkslen, hksget⟩ := inputKeys_ok_of_covers urand l 0 hcov
    have hlen_out : out.length = gs.length := mapM_ok_length _ gs out h
    have hkeq := hinv.keys_eq ks hks
    constructor
    · refine ⟨ks, hks, ?_⟩
      rw [hlen_out, ← hkeq, List.length_map]
    · intro j hj
      obtain ⟨k', hck, hkh', i, hi, hnorm, hbio⟩ := hinv.covers j hj
      have hi' : i < out.length := by rw [hlen_out]; exact hi
      refine ⟨i, hi', ?_⟩
      intro v hv
      have hout := mapM_ok_get _ gs out h i hi hi'
      obtain ⟨_, sorted, _, hperm, _, hob⟩ :=
        outputRecord_spec (gs.get ⟨i, hi⟩).2 (out.get ⟨i, hi'⟩) hout
      rw [hob]
      rw [biomeMem_of_perm hperm]
      exact hbio v hv

/-- Witness for C4: the amended delivery theorem applied to the merge of a
single concrete record. -/
theorem claim_C4_witness :
    (∃ ks : List SpawnKey, inputKeys (fun _ => "tok") 0 [sampleRec 1 ["forest"]] = .ok ks ∧
      [sampleRec 1 ["forest"]].length = (firstDedup (ks.map normKey)).length) ∧
    ∀ j (hj : j < [sampleRec 1 ["forest"]].length),
      ∃ i, ∃ (hi : i < [sampleRec 1 ["forest"]].length),
      ∀ v ∈ recBiomeValues ([sampleRec 1 ["forest"]].get ⟨j, hj⟩),
        biomeMem v (outBiomes ([sampleRec 1 ["forest"]].get ⟨i, hi⟩)) = true :=
  claim_C4_amended_delivery (fun _ => "tok") [sampleRec 1 ["forest"]]
    [sampleRec 1 ["forest"]] (by decide)

theorem outputOneH_spec (h : Heap) (repAddr : Nat) (biomes : List JValue)
    (h' : Heap) (a : Nat) (hwf : Heap.WF h)
    (hrun : outputOneH h repAddr biomes = .ok (h', a)) :
    (∀ b, b < h.nextR → h'.recs b = h.recs b) ∧
    (∀ b, b < h.nextD → h'.dicts b = h.dicts b) ∧
    h'.nextR = h.nextR + 1 ∧ h'.nextD = h.nextD + 1 ∧ Heap.WF h' ∧ a = h.nextR ∧
    ∃ condRef payload, h.recs repAddr = some (condRef, payload) ∧
    ∃ d sorted,
      insertionSortE pyLt biomes = .ok sorted ∧
      h'.recs a = some (some (some h.nextD), payload) ∧
      h'.dicts h.nextD = some (setCondEntry d "biomes" (.listJ sorted)) ∧
      (condRef = none → d = []) ∧
      (∀ ca, condRef = some (some ca) → h.dicts ca = some d) := by
  unfold outputOneH at hrun
  cases hrc : h.recs repAddr with
  | none =>
    rw [hrc] at hrun
    simp [throw, throwThe, MonadExceptOf.throw] at hrun
  | some cp =>
    obtain ⟨condRef, payload⟩ := cp
    rw [hrc] at hrun
    have hthru : ∀ (d : List (String × JValue)),
        ((condRef = none → d = []) ∧
          (∀ ca, condRef = some (some ca) → h.dicts ca = some d)) →
        (insertionSortE pyLt biomes).bind (fun sorted =>
          Except.ok (setDictBiomes
            (setRecCond (allocDict (allocRec h condRef payload).1 d).1
              ((allocRec h condRef payload).2)
              (some (some ((allocDict (allocRec h condRef payload).1 d).2))))
            ((allocDict (allocRec h condRef payload).1 d).2) (.listJ sorted),
            (allocRec h condRef payload).2)) = .ok (h', a) →
        (∀ b, b < h.nextR → h'.recs b = h.recs b) ∧
        (∀ b, b < h.nextD → h'.dicts b = h.dicts b) ∧
        h'.nextR = h.nextR + 1 ∧ h'.nextD = h.nextD + 1 ∧ Heap.WF h' ∧ a = h.nextR ∧
        ∃ condRef2 payload2, some (condRef, payload) = some (condRef2, payload2) ∧
        ∃ d2 sorted,
          insertionSortE pyLt biomes = .ok sorted ∧
          h'.recs a = some (some (some h.nextD), payload2) ∧
          h'.dicts h.nextD = some (setCondEntry d2 "biomes" (.listJ sorted)) ∧
          (condRef2 = none → d2 = []) ∧
          (∀ ca, condRef2 = some (some ca) → h.dicts ca = some d2) := by
      intro d hdref h2
      cases hs : insertionSortE pyLt biomes with
      | error e => rw [hs] at h2; simp [Except.bind] at h2
      | ok sorted =>
        rw [hs] at h2
        simp only [Except.bind] at h2
        injection h2 with h2
        obtain ⟨hh, ha⟩ := Prod.mk.inj h2
        have ha2 : a = h.nextR := by rw [← ha]; rfl
        have hR : h'.nextR = h.nextR + 1 := by rw [← hh]; rfl
        have hD : h'.nextD = h.nextD + 1 := by rw [← hh]; rfl
        have hrecs : ∀ b, h'.recs b =
            if b = h.nextR then some (some (some h.nextD), payload)
            else h.recs b := by
          intro b
          rw [← hh]
          by_cases hb : b = h.nextR
          · subst hb
            simp [setDictBiomes, setRecCond, allocDict, allocRec]
          · simp [setDictBiomes, setRecCond, allocDict, allocRec, hb]
        have hdicts : ∀ b, h'.dicts b =
            if b = h.nextD then some (setCondEntry d "biomes" (.listJ sorted))
            else h.dicts b := by
          intro b
          rw [← hh]
          by_cases hb : b = h.nextD
          · subst hb
            simp [setDictBiomes, setRecCond, allocDict, allocRec]
          · simp [setDictBiomes, setRecCond, allocDict, allocRec, hb]
        obtain ⟨hwr, hwd, hwc⟩ := hwf
        refine ⟨?_, ?_, hR, hD, ⟨?_, ?_, ?_⟩, ha2, condRef, payload, rfl,
          d, sorted, rfl, ?_, ?_, hdref.1, hdref.2⟩
        · intro b hb
          rw [hrecs b, if_neg (by omega)]
        · intro b hb
          rw [hdicts b, if_neg (by omega)]
        · intro b hb
          rw [hR] at hb
          rw [hrecs b, if_neg (by omega)]
          exact hwr b (by omega)
        · intro b hb
          rw [hD] at hb
          rw [hdicts b, if_neg (by omega)]
          exact hwd b (by omega)
        · intro b c p hbc ca hca
          rw [hrecs b] at hbc
          rw [hD]
          by_cases hb : b = h.nextR
          · rw [if_pos hb] at hbc
            injection hbc with hbc
            obtain ⟨hc, hp⟩ := Prod.mk.inj hbc
            rw [← hc] at hca
            injection hca with hca
            injection hca with hca
            omega
          · rw [if_neg hb] at hbc
            exact Nat.lt_succ_of_lt (hwc b c p hbc ca hca)
        · rw [ha2, hrecs, if_pos rfl]
        · rw [hdicts, if_pos rfl]
    cases condRef with
    | none =>
      simp only [bind, Except.bind, pure, Except.pure] at hrun
      exact hthru [] ⟨fun _ => rfl, fun ca hca => by cases hca⟩ hrun
    | some oc =>
      cases oc with
      | none =>
        simp [bind, Except.bind, throw, throwThe, MonadExceptOf.throw] at hrun
      | some ca =>
        simp only [bind, Except.bind, pure, Except.pure] at hrun
        have hd1 : ((allocRec h (some (some ca)) payload).1).dicts = h.dicts := rfl
        rw [hd1] at hrun
        cases hdc : h.dicts ca with
        | none =>
          rw [hdc] at hrun
          simp [bind, Except.bind, throw, throwThe, MonadExceptOf.throw] at hrun
        | some d =>
          rw [hdc] at hrun
          simp only [bind, Except.bind, pure, Except.pure] at hrun
          refine hthru d ⟨(fun hno => by cases hno), ?_⟩ hrun
          intro ca2 hca2
          injection hca2 with hca2
          injection hca2 with hca2
          rw [← hca2]
          exact hdc

/-- C9: the output phase of lines 197-207 never mutates an input object.
On the heap model: every record and dict cell allocated before the call is
unchanged afterwards; every emitted record lives at a fresh address; and
each emitted record is a shallow copy of its group's representative — the
same payload — whose condition reference points at a freshly allocated
dict that is a copy of the representative's condition dict with only the
`biomes` entry replaced by the sorted merged set. -/
theorem claim_C9_no_input_mutation (work : List (Nat × List JValue)) :
    ∀ (h h' : Heap) (outs : List Nat),
      Heap.WF h → (∀ p ∈ work, p.1 < h.nextR) →
      outputPhaseH h work = .ok (h', outs) →
      (∀ a, a < h.nextR → h'.recs a = h.recs a) ∧
      (∀ a, a < h.nextD → h'.dicts a = h.dicts a) ∧
      h.nextR ≤ h'.nextR ∧ h.nextD ≤ h'.nextD ∧ Heap.WF h' ∧
      outs.length = work.length ∧
      (∀ i (hi : i < outs.length), h.nextR ≤ outs.get ⟨i, hi⟩) ∧
      (∀ i (hi : i < work.length) (hi2 : i < outs.length),
        ∃ condRef payload,
          h.recs (work.get ⟨i, hi⟩).1 = some (condRef, payload) ∧
        ∃ d sorted da,
          insertionSortE pyLt (work.get ⟨i, hi⟩).2 = .ok sorted ∧
          h'.recs (outs.get ⟨i, hi2⟩) = some (some (some da), payload) ∧
          h'.dicts da = some (setCondEntry d "biomes" (.listJ sorted)) ∧
          (condRef = none → d = []) ∧
          (∀ ca, condRef = some (some ca) → h.dicts ca = some d)) := by
  induction work with
  | nil =>
    intro h h' outs hwf _ hrun
    rw [outputPhaseH] at hrun
    injection hrun with hrun
    obtain ⟨hh, ho⟩ := Prod.mk.inj hrun
    subst hh
    subst ho
    refine ⟨fun a _ => rfl, fun a _ => rfl, Nat.le_refl _, Nat.le_refl _, hwf,
      rfl, ?_, ?_⟩
    · intro i hi
      simp at hi
    · intro i hi
      simp at hi
  | cons q rest ih =>
    intro h h' outs hwf haddr hrun
    obtain ⟨repAddr, biomes⟩ := q
    rw [outputPhaseH] at hrun
    cases h1run : outputOneH h repAddr biomes with
    | error e => rw [h1run] at hrun; simp [bind, Except.bind] at hrun
    | ok pa =>
      obtain ⟨h1, a1⟩ := pa
      rw [h1run] at hrun
      simp only [bind, Except.bind] at hrun
      cases h2run : outputPhaseH h1 rest with
      | error e => rw [h2run] at hrun; simp at hrun
      | ok pb =>
        obtain ⟨h2, as⟩ := pb
        rw [h2run] at hrun
        simp only [pure, Except.pure] at hrun
        injection hrun with hrun
        obtain ⟨hh, ho⟩ := Prod.mk.inj hrun
        subst hh
        subst ho
        obtain ⟨fr1, fd1, hr1, hd1, hwf1, ha1, condRef, payload, hrc, d, sorted,
          hs, hnew, hnewd, hdnone, hdsome⟩ := outputOneH_spec h repAddr biomes h1 a1 hwf h1run
        obtain ⟨fr2, fd2, hr2, hd2, hwf2, hlen2, hfresh2, hcopy2⟩ :=
          ih h1 h2 as hwf1 (by
            intro p hp
            have := haddr p (List.mem_cons_of_mem _ hp)
            omega) h2run
        have hwc := hwf.2.2
        refine ⟨?_, ?_, by omega, by omega, hwf2, by simpa using hlen2, ?_, ?_⟩
        · intro b hb
          rw [fr2 b (by omega)]
          exact fr1 b hb
        · intro b hb
          rw [fd2 b (by omega)]
          exact fd1 b hb
        · intro i hi
          cases i with
          | zero =>
            show h.nextR ≤ a1
            omega
          | succ i =>
            show h.nextR ≤ as.get ⟨i, _⟩
            have := hfresh2 i (by simpa using hi)
            omega
        · intro i hi hi2
          cases i with
          | zero =>
            refine ⟨condRef, payload, hrc, d, sorted, h.nextD, hs, ?_, ?_,
              hdnone, hdsome⟩
            · show h2.recs a1 = some (some (some h.nextD), payload)
              rw [fr2 a1 (by omega)]
              exact hnew
            · rw [fd2 h.nextD (by omega)]
              exact hnewd
          | succ i =>
            have hi' : i < rest.length := by simpa using hi
            have hi2' : i < as.length := by simpa using hi2
            obtain ⟨condRef2, payload2, hrc2, d2, sorted2, da2, hs2, hnew2,
              hnewd2, hdnone2, hdsome2⟩ := hcopy2 i hi' hi2'
            have hlow : (rest.get ⟨i, hi'⟩).1 < h.nextR :=
              haddr _ (List.mem_cons_of_mem _ (List.get_mem rest i hi'))
            rw [fr1 _ hlow] at hrc2
            refine ⟨condRef2, payload2, hrc2, d2, sorted2, da2, hs2, hnew2,
              hnewd2, hdnone2, ?_⟩
            intro ca hca
            have hcad : ca < h.nextD := hwc _ _ _ hrc2 ca hca
            have := hdsome2 ca hca
            rw [fd1 ca hcad] at this
            exact this

/-- Witness for C9: the output phase applied to the concrete heap `heap0`
and its single group. -/
theorem claim_C9_witness :
    (∀ a, a < heap0.nextR → heap1.recs a = heap0.recs a) ∧
    (∀ a, a < heap0.nextD → heap1.dicts a = heap0.dicts a) ∧
    heap0.nextR ≤ heap1.nextR ∧ heap0.nextD ≤ heap1.nextD ∧ Heap.WF heap1 ∧
    outs1.length = [((0 : Nat), [JValue.strJ "plains"])].length ∧
    (∀ i (hi : i < outs1.length), heap0.nextR ≤ outs1.get ⟨i, hi⟩) ∧
    (∀ i (hi : i < [((0 : Nat), [JValue.strJ "plains"])].length)
        (hi2 : i < outs1.length),
      ∃ condRef payload,
        heap0.recs ([((0 : Nat), [JValue.strJ "plains"])].get ⟨i, hi⟩).1
          = some (condRef, payload) ∧
      ∃ d sorted da,
        insertionSortE pyLt ([((0 : Nat), [JValue.strJ "plains"])].get ⟨i, hi⟩).2
          = .ok sorted ∧
        heap1.recs (outs1.get ⟨i, hi2⟩) = some (some (some da), payload) ∧
        heap1.dicts da = some (setCondEntry d "biomes" (.listJ sorted)) ∧
        (condRef = none → d = []) ∧
        (∀ ca, condRef = some (some ca) → heap0.dicts ca = some d)) :=
  claim_C9_no_input_mutation [((0 : Nat), [JValue.strJ "plains"])] heap0 heap1 outs1
    ⟨fun a ha => by
        show (if a = 0 then _ else none) = none
        rw [if_neg (by simp [heap0] at ha; omega)],
      fun a ha => by
        show (if a = 0 then _ else none) = none
        rw [if_neg (by simp [heap0] at ha; omega)],
      fun a c p hcp ca hca => by
        by_cases ha : a = 0
        · subst ha
          have hcp2 : some (some (some 0), sampleRec 1 ["forest"]) = some (c, p) := hcp
          injection hcp2 with hcp2
          obtain ⟨hc, _⟩ := Prod.mk.inj hcp2
          rw [← hc] at hca
          injection hca with hca
          injection hca with hca
          show ca < 1
          omega
        · have hcp2 : (none : Option (Option (Option Nat) × SpawnRecord)) = some (c, p) := by
            have hx : heap0.recs a =
                (if a = 0 then some (some (some 0), sampleRec 1 ["forest"]) else none) := rfl
            rw [hx, if_neg ha] at hcp
            exact hcp
          cases hcp2⟩
    (by
      intro p hp
      rcases List.mem_singleton.mp hp with rfl
      show (0 : Nat) < 1
      omega)
    rfl

theorem pyLt_strKey {p q : JValue × JValue} (hp : ∃ s, p.1 = JValue.strJ s)
    (hq : ∃ t, q.1 = JValue.strJ t) :
    pyLt p.1 q.1 = .ok (decide (strKeyOf p < strKeyOf q)) := by
  obtain ⟨s, hs⟩ := hp
  obtain ⟨t, ht⟩ := hq
  unfold strKeyOf
  rw [hs, ht]
  show Except.ok (decide (s.data < t.data)) = .ok (decide (s < t))
  exact congrArg Except.ok (decide_eq_decide.mpr (Iff.symm String.lt_iff_toList_lt))

theorem orderedInsertE_str :
    ∀ (l : List (JValue × JValue)) (a : JValue × JValue),
      (∃ s, a.1 = JValue.strJ s) → (∀ p ∈ l, ∃ s, p.1 = JValue.strJ s) →
      ∃ out, orderedInsertE (fun p q => pyLt p.1 q.1) a l = .ok out ∧
        (List.Chain' (fun p q => strKeyOf p ≤ strKeyOf q) l →
          List.Chain' (fun p q => strKeyOf p ≤ strKeyOf q) out ∧
          ∀ c, out.head? = some c → c = a ∨ l.head? = some c) := by
  intro l
  induction l with
  | nil =>
    intro a ha hl
    refine ⟨[a], by rw [orderedInsertE], ?_⟩
    intro _
    refine ⟨List.chain'_singleton a, ?_⟩
    intro c hc
    injection hc with hc
    exact Or.inl hc.symm
  | cons b t ih =>
    intro a ha hl
    have hb := hl b (List.mem_cons_self b t)
    have hcmp := pyLt_strKey hb ha
    by_cases hlt : strKeyOf b < strKeyOf a
    · obtain ⟨r, hr, hrs⟩ := ih a ha (fun p hp => hl p (List.mem_cons_of_mem b hp))
      refine ⟨b :: r, ?_, ?_⟩
      · rw [orderedInsertE, hcmp]
        simp only [bind, Except.bind]
        rw [if_pos (by simpa using hlt), hr]
        simp only [bind, Except.bind, pure, Except.pure]
      · intro hch
        obtain ⟨hrs1, hrhd⟩ := hrs hch.tail
        constructor
        · cases hr2 : r with
          | nil => exact List.chain'_singleton b
          | cons c r2 =>
            rw [List.chain'_cons]
            constructor
            · rcases hrhd c (by rw [hr2]; rfl) with rfl | hhd
              · exact le_of_lt hlt
              · cases t with
                | nil => cases hhd
                | cons d t2 =>
                  injection hhd with hhd
                  subst hhd
                  exact (List.chain'_cons.mp hch).1
            · rw [← hr2]
              exact hrs1
        · intro c hc
          injection hc with hc
          exact Or.inr (by rw [← hc]; rfl)
    · refine ⟨a :: b :: t, ?_, ?_⟩
      · rw [orderedInsertE, hcmp]
        simp only [bind, Except.bind]
        rw [if_neg (by simpa using hlt)]
        rfl
      · intro hch
        constructor
        · rw [List.chain'_cons]
          exact ⟨le_of_not_lt hlt, hch⟩
        · intro c hc
          injection hc with hc
          exact Or.inl hc.symm

theorem insertionSortE_str :
    ∀ (l : List (JValue × JValue)),
      (∀ p ∈ l, ∃ s, p.1 = JValue.strJ s) →
      ∃ out, insertionSortE (fun p q => pyLt p.1 q.1) l = .ok out ∧
        out.Perm l ∧ List.Chain' (fun p q => strKeyOf p ≤ strKeyOf q) out := by
  intro l
  induction l with
  | nil => exact fun _ => ⟨[], rfl, List.Perm.refl _, List.chain'_nil⟩
  | cons a t ih =>
    intro hl
    obtain ⟨s1, hs1, hp1, hc1⟩ := ih (fun p hp => hl p (List.mem_cons_of_mem a hp))
    have hl1 : ∀ p ∈ s1, ∃ s, p.1 = JValue.strJ s :=
      fun p hp => hl p (List.mem_cons_of_mem a (hp1.mem_iff.mp hp))
    obtain ⟨out, hout, hsp⟩ := orderedInsertE_str s1 a (hl a (List.mem_cons_self a t)) hl1
    refine ⟨out, ?_, ?_, (hsp hc1).1⟩
    · rw [insertionSortE, hs1]
      simp only [bind, Except.bind]
      exact hout
    · exact (orderedInsertE_perm _ a s1 out hout).trans (hp1.cons a)

theorem insertionSortE_sorted_fix :
    ∀ (l : List (JValue × JValue)),
      (∀ p ∈ l, ∃ s, p.1 = JValue.strJ s) →
      List.Chain' (fun p q => strKeyOf p ≤ strKeyOf q) l →
      insertionSortE (fun p q => pyLt p.1 q.1) l = .ok l := by
  intro l
  induction l with
  | nil => intro _ _; rfl
  | cons a t ih =>
    intro hl hch
    rw [insertionSortE, ih (fun p hp => hl p (List.mem_cons_of_mem a hp)) hch.tail]
    simp only [bind, Except.bind]
    cases t with
    | nil => rfl
    | cons b t2 =>
      have hcmp := pyLt_strKey (hl b (List.mem_cons_of_mem a (List.mem_cons_self b t2)))
        (hl a (List.mem_cons_self a (b :: t2)))
      rw [orderedInsertE, hcmp]
      simp only [bind, Except.bind]
      rw [if_neg (by
        simp only [decide_eq_true_eq]
        exact not_lt.mpr (List.chain'_cons.mp hch).1)]
      rfl

theorem eq_of_perm_pairwise_nodupKey :
    ∀ (l₁ l₂ : List (JValue × JValue)), l₁.Perm l₂ →
      l₁.Pairwise (fun p q => strKeyOf p ≤ strKeyOf q) →
      l₂.Pairwise (fun p q => strKeyOf p ≤ strKeyOf q) →
      (l₁.map strKeyOf).Nodup → l₁ = l₂ := by
  intro l₁
  induction l₁ with
  | nil =>
    intro l₂ hp _ _ _
    exact hp.nil_eq
  | cons p t₁ ih =>
    intro l₂ hp hs₁ hs₂ hn
    cases l₂ with
    | nil => exact absurd hp.symm (by simp)
    | cons q t₂ =>
      simp only [List.map_cons, List.nodup_cons] at hn
      have hpq : p = q := by
        have hqmem : q ∈ p :: t₁ := hp.mem_iff.mpr (List.mem_cons_self q t₂)
        have hpmem : p ∈ q :: t₂ := hp.mem_iff.mp (List.mem_cons_self p t₁)
        rcases List.mem_cons.mp hqmem with h | hq1
        · exact h.symm
        rcases List.mem_cons.mp hpmem with h | hp2
        · exact h
        · exfalso
          have h1 : strKeyOf p ≤ strKeyOf q := List.rel_of_pairwise_cons hs₁ hq1
          have h2 : strKeyOf q ≤ strKeyOf p := List.rel_of_pairwise_cons hs₂ hp2
          have heq : strKeyOf q = strKeyOf p := le_antisymm h2 h1
          have hmm : strKeyOf q ∈ t₁.map strKeyOf := List.mem_map_of_mem strKeyOf hq1
          rw [heq] at hmm
          exact hn.1 hmm
      subst hpq
      have ht : t₁.Perm t₂ := hp.cons_inv
      rw [ih t₂ ht hs₁.of_cons hs₂.of_cons hn.2]

theorem mapM_keyed (field : String) (κ : JValue → String) :
    ∀ (l : List JValue), (∀ x ∈ l, subKey field x = .ok (.strJ (κ x))) →
      l.mapM (fun x => do pure ((← subKey field x), x)) =
        .ok (l.map (fun x => (JValue.strJ (κ x), x))) := by
  intro l
  induction l with
  | nil => intro _; rfl
  | cons a t ih =>
    intro hl
    rw [List.mapM_cons, hl a (List.mem_cons_self a t),
      ih (fun x hx => hl x (List.mem_cons_of_mem a hx))]
    simp [bind, Except.bind, pure, Except.pure]

/-- C6 is wrong for lists whose sort keys repeat: two permutations of the
same party-requirement list with equal `species` keys pre-sort to
*different* lists (Python's sort is stable, so the original relative order
of equal-key sub-records survives) and then canonicalize to different
keys. -/
theorem claim_C6_counterexample :
    [JValue.objJ [("species", JValue.strJ "a"), ("level", JValue.numJ 1)],
     JValue.objJ [("species", JValue.strJ "a"), ("level", JValue.numJ 2)]].Perm
      [JValue.objJ [("species", JValue.strJ "a"), ("level", JValue.numJ 2)],
       JValue.objJ [("species", JValue.strJ "a"), ("level", JValue.numJ 1)]] ∧
    sortByField "species"
        [JValue.objJ [("species", JValue.strJ "a"), ("level", JValue.numJ 1)],
         JValue.objJ [("species", JValue.strJ "a"), ("level", JValue.numJ 2)]] =
      .ok [JValue.objJ [("species", JValue.strJ "a"), ("level", JValue.numJ 1)],
           JValue.objJ [("species", JValue.strJ "a"), ("level", JValue.numJ 2)]] ∧
    sortByField "species"
        [JValue.objJ [("species", JValue.strJ "a"), ("level", JValue.numJ 2)],
         JValue.objJ [("species", JValue.strJ "a"), ("level", JValue.numJ 1)]] =
      .ok [JValue.objJ [("species", JValue.strJ "a"), ("level", JValue.numJ 2)],
           JValue.objJ [("species", JValue.strJ "a"), ("level", JValue.numJ 1)]] ∧
    make_hashable (.listJ
        [JValue.objJ [("species", JValue.strJ "a"), ("level", JValue.numJ 1)],
         JValue.objJ [("species", JValue.strJ "a"), ("level", JValue.numJ 2)]]) ≠
      make_hashable (.listJ
        [JValue.objJ [("species", JValue.strJ "a"), ("level", JValue.numJ 2)],
         JValue.objJ [("species", JValue.strJ "a"), ("level", JValue.numJ 1)]]) :=
  ⟨List.Perm.swap _ _ [], by decide, by decide, by decide⟩

/-- C6 (amended): when every sub-record's sort-key field holds a string
(`κ` names those strings), pre-sorting is total and idempotent; if the
key strings are moreover pairwise distinct, every permutation of the list
pre-sorts to the *same* output (with repeated keys this fails, see
`claim_C6_counterexample`); a sub-record missing the sort-key field gets
the empty string, which is minimal for Python `<`, rather than raising. -/
theorem claim_C6_presort_keys (field : String) (κ : JValue → String)
    (l l2 out : List JValue)
    (hkeys : ∀ x ∈ l, subKey field x = .ok (.strJ (κ x)))
    (hrun : sortByField field l = .ok out) :
    sortByField field out = .ok out ∧
    (l.Perm l2 → (l.map κ).Nodup → sortByField field l2 = .ok out) ∧
    (∀ d, lookupJ d field = none → subKey field (.objJ d) = .ok (.strJ "")) ∧
    (∀ s, pyLt (.strJ s) (.strJ "") = .ok false) := by
  unfold sortByField at hrun
  rw [mapM_keyed field κ l hkeys] at hrun
  simp only [bind, Except.bind] at hrun
  have hstr1 : ∀ p ∈ l.map (fun x => (JValue.strJ (κ x), x)), ∃ s, p.1 = JValue.strJ s := by
    intro p hp
    obtain ⟨x, hx, rfl⟩ := List.mem_map.mp hp
    exact ⟨κ x, rfl⟩
  obtain ⟨sorted, hsorted, hsperm, hschain⟩ := insertionSortE_str _ hstr1
  rw [hsorted] at hrun
  simp only [pure, Except.pure] at hrun
  injection hrun with hrun
  have helem : ∀ p ∈ sorted, p = (JValue.strJ (κ p.2), p.2) := by
    intro p hp
    obtain ⟨x, hx, hpx⟩ := List.mem_map.mp (hsperm.mem_iff.mp hp)
    rw [← hpx]
  have hstr_sorted : ∀ p ∈ sorted, ∃ s, p.1 = JValue.strJ s :=
    fun p hp => hstr1 p (hsperm.mem_iff.mp hp)
  refine ⟨?_, ?_, ?_, ?_⟩
  · subst hrun
    have hkeys_out : ∀ x ∈ sorted.map (fun p => p.2),
        subKey field x = .ok (.strJ (κ x)) := by
      intro x hx
      obtain ⟨p, hp, rfl⟩ := List.mem_map.mp hx
      obtain ⟨z, hz, hpz⟩ := List.mem_map.mp (hsperm.mem_iff.mp hp)
      rw [← hpz]
      exact hkeys z hz
    unfold sortByField
    rw [mapM_keyed field κ _ hkeys_out]
    simp only [bind, Except.bind]
    have hkeyed2 : (sorted.map (fun p => p.2)).map (fun x => (JValue.strJ (κ x), x))
        = sorted := by
      rw [List.map_map]
      have h2 : sorted.map ((fun x => (JValue.strJ (κ x), x)) ∘ (fun p => p.2))
          = sorted.map id := List.map_congr_left (fun p hp => (helem p hp).symm)
      rw [h2, List.map_id]
    rw [hkeyed2, insertionSortE_sorted_fix sorted hstr_sorted hschain]
    rfl
  · intro hperm hnd
    have hkeys2 : ∀ x ∈ l2, subKey field x = .ok (.strJ (κ x)) :=
      fun x hx => hkeys x (hperm.mem_iff.mpr hx)
    unfold sortByField
    rw [mapM_keyed field κ l2 hkeys2]
    simp only [bind, Except.bind]
    have hstr2 : ∀ p ∈ l2.map (fun x => (JValue.strJ (κ x), x)),
        ∃ s, p.1 = JValue.strJ s := by
      intro p hp
      obtain ⟨x, hx, rfl⟩ := List.mem_map.mp hp
      exact ⟨κ x, rfl⟩
    obtain ⟨sorted2, hsorted2, hsperm2, hschain2⟩ := insertionSortE_str _ hstr2
    rw [hsorted2]
    simp only [pure, Except.pure]
    have hp21 : sorted2.Perm sorted :=
      hsperm2.trans ((hperm.map (fun x => (JValue.strJ (κ x), x))).symm.trans hsperm.symm)
    have hmapkey : (l2.map (fun x => (JValue.strJ (κ x), x))).map strKeyOf = l2.map κ := by
      rw [List.map_map]
      exact List.map_congr_left (fun x hx => rfl)
    have hnd2 : (sorted2.map strKeyOf).Nodup := by
      have e1 : (sorted2.map strKeyOf).Perm (l2.map κ) := by
        rw [← hmapkey]
        exact hsperm2.map strKeyOf
      exact e1.nodup_iff.mpr ((hperm.map κ).nodup_iff.mp hnd)
    have hsorteq : sorted2 = sorted :=
      eq_of_perm_pairwise_nodupKey sorted2 sorted hp21
        (List.chain'_iff_pairwise.mp hschain2)
        (List.chain'_iff_pairwise.mp hschain) hnd2
    rw [hsorteq, hrun]
  · intro d hd
    show Except.ok ((lookupJ d field).getD (JValue.strJ "")) = Except.ok (JValue.strJ "")
    rw [hd]
    rfl
  · intro s
    have hns : ¬ s.data < ("" : String).data :=
      fun hcon => List.Lex.not_nil_right _ _ hcon
    show Except.ok (decide (s.data < ("" : String).data)) = .ok false
    rw [decide_eq_false hns]

/-- Witness for C6: the amended pre-sort theorem applied to a concrete
two-record party list with distinct species keys. -/
theorem claim_C6_witness :
    sortByField "species" [JValue.objJ [("species", JValue.strJ "a")],
        JValue.objJ [("species", JValue.strJ "b")]] =
      .ok [JValue.objJ [("species", JValue.strJ "a")],
        JValue.objJ [("species", JValue.strJ "b")]] ∧
    ([JValue.objJ [("species", JValue.strJ "b")],
        JValue.objJ [("species", JValue.strJ "a")]].Perm
      [JValue.objJ [("species", JValue.strJ "a")],
        JValue.objJ [("species", JValue.strJ "b")]] →
      ([JValue.objJ [("species", JValue.strJ "b")],
        JValue.objJ [("species", JValue.strJ "a")]].map
          (fun x => match subKey "species" x with
            | .ok (.strJ s) => s
            | _ => "")).Nodup →
      sortByField "species" [JValue.objJ [("species", JValue.strJ "a")],
          JValue.objJ [("species", JValue.strJ "b")]] =
        .ok [JValue.objJ [("species", JValue.strJ "a")],
          JValue.objJ [("species", JValue.strJ "b")]]) ∧
    (∀ d, lookupJ d "species" = none → subKey "species" (.objJ d) = .ok (.strJ "")) ∧
    (∀ s, pyLt (.strJ s) (.strJ "") = .ok false) :=
  claim_C6_presort_keys "species"
    (fun x => match subKey "species" x with
      | .ok (.strJ s) => s
      | _ => "")
    [JValue.objJ [("species", JValue.strJ "b")],
      JValue.objJ [("species", JValue.strJ "a")]]
    [JValue.objJ [("species", JValue.strJ "a")],
      JValue.objJ [("species", JValue.strJ "b")]]
    [JValue.objJ [("species", JValue.strJ "a")],
      JValue.objJ [("species", JValue.strJ "b")]]
    (by decide) (by decide)

theorem pyLt_strv {v w : JValue} (hp : ∃ s, v = JValue.strJ s)
    (hq : ∃ t, w = JValue.strJ t) :
    pyLt v w = .ok (decide (strValOf v < strValOf w)) := by
  obtain ⟨s, hs⟩ := hp
  obtain ⟨t, ht⟩ := hq
  unfold strValOf
  rw [hs, ht]
  show Except.ok (decide (s.data < t.data)) = .ok (decide (s < t))
  exact congrArg Except.ok (decide_eq_decide.mpr (Iff.symm (String.lt_iff_toList_lt)))

theorem orderedInsertE_strv :
    ∀ (l : List JValue) (a : JValue),
      (∃ s, a = JValue.strJ s) → (∀ v ∈ l, ∃ s, v = JValue.strJ s) →
      ∃ out, orderedInsertE pyLt a l = .ok out ∧
        (List.Chain' (fun v w => strValOf v ≤ strValOf w) l →
          List.Chain' (fun v w => strValOf v ≤ strValOf w) out ∧
          ∀ c, out.head? = some c → c = a ∨ l.head? = some c) := by
  intro l
  induction l with
  | nil =>
    intro a ha hl
    refine ⟨[a], by rw [orderedInsertE], ?_⟩
    intro _
    refine ⟨List.chain'_singleton a, ?_⟩
    intro c hc
    injection hc with hc
    exact Or.inl hc.symm
  | cons b t ih =>
    intro a ha hl
    have hb := hl b (List.mem_cons_self b t)
    have hcmp := pyLt_strv hb ha
    by_cases hlt : strValOf b < strValOf a
    · obtain ⟨r, hr, hrs⟩ := ih a ha (fun v hv => hl v (List.mem_cons_of_mem b hv))
      refine ⟨b :: r, ?_, ?_⟩
      · rw [orderedInsertE, hcmp]
        simp only [bind, Except.bind]
        rw [if_pos (by simpa using hlt), hr]
        simp only [bind, Except.bind, pure, Except.pure]
      · intro hch
        obtain ⟨hrs1, hrhd⟩ := hrs hch.tail
        constructor
        · cases hr2 : r with
          | nil => exact List.chain'_singleton b
          | cons c r2 =>
            rw [List.chain'_cons]
            constructor
            · rcases hrhd c (by rw [hr2]; rfl) with rfl | hhd
              · exact le_of_lt hlt
              · cases t with
                | nil => cases hhd
                | cons d t2 =>
                  injection hhd with hhd
                  subst hhd
                  exact (List.chain'_cons.mp hch).1
            · rw [← hr2]
              exact hrs1
        · intro c hc
          injection hc with hc
          exact Or.inr (by rw [← hc]; rfl)
    · refine ⟨a :: b :: t, ?_, ?_⟩
      · rw [orderedInsertE, hcmp]
        simp only [bind, Except.bind]
        rw [if_neg (by simpa using hlt)]
        rfl
      · intro hch
        constructor
        · rw [List.chain'_cons]
          exact ⟨le_of_not_lt hlt, hch⟩
        · intro c hc
          injection hc with hc
          exact Or.inl hc.symm

theorem insertionSortE_strv :
    ∀ (l : List JValue),
      (∀ v ∈ l, ∃ s, v = JValue.strJ s) →
      ∃ out, insertionSortE pyLt l = .ok out ∧
        out.Perm l ∧ List.Chain' (fun v w => strValOf v ≤ strValOf w) out := by
  intro l
  induction l with
  | nil => exact fun _ => ⟨[], rfl, List.Perm.refl _, List.chain'_nil⟩
  | cons a t ih =>
    intro hl
    obtain ⟨s1, hs1, hp1, hc1⟩ := ih (fun v hv => hl v (List.mem_cons_of_mem a hv))
    have hl1 : ∀ v ∈ s1, ∃ s, v = JValue.strJ s :=
      fun v hv => hl v (List.mem_cons_of_mem a (hp1.mem_iff.mp hv))
    obtain ⟨out, hout, hsp⟩ := orderedInsertE_strv s1 a (hl a (List.mem_cons_self a t)) hl1
    refine ⟨out, ?_, ?_, (hsp hc1).1⟩
    · rw [insertionSortE, hs1]
      simp only [bind, Except.bind]
      exact hout
    · exact (orderedInsertE_perm _ a s1 out hout).trans (hp1.cons a)

theorem insertionSortE_strv_fix :
    ∀ (l : List JValue),
      (∀ v ∈ l, ∃ s, v = JValue.strJ s) →
      List.Chain' (fun v w => strValOf v ≤ strValOf w) l →
      insertionSortE pyLt l = .ok l := by
  intro l
  induction l with
  | nil => intro _ _; rfl
  | cons a t ih =>
    intro hl hch
    rw [insertionSortE, ih (fun v hv => hl v (List.mem_cons_of_mem a hv)) hch.tail]
    simp only [bind, Except.bind]
    cases t with
    | nil => rfl
    | cons b t2 =>
      have hcmp := pyLt_strv (hl b (List.mem_cons_of_mem a (List.mem_cons_self b t2)))
        (hl a (List.mem_cons_self a (b :: t2)))
      rw [orderedInsertE, hcmp]
      simp only [bind, Except.bind]
      rw [if_neg (by
        simp only [decide_eq_true_eq]
        exact not_lt.mpr (List.chain'_cons.mp hch).1)]
      rfl

theorem setCondEntry_idem (d : List (String × JValue)) (k : String) (v : JValue) :
    setCondEntry (setCondEntry d k v) k v = setCondEntry d k v := by
  unfold setCondEntry
  by_cases hd : d.any (fun p => p.1 = k) = true
  · rw [if_pos hd]
    obtain ⟨p, hp, hpk⟩ := List.any_eq_true.mp hd
    have hd2 : (d.map (fun p => if p.1 = k then (k, v) else p)).any
        (fun p => p.1 = k) = true := by
      refine List.any_eq_true.mpr ⟨(k, v), ?_, by simp⟩
      refine List.mem_map.mpr ⟨p, hp, ?_⟩
      rw [if_pos (by simpa using hpk)]
    rw [if_pos hd2, List.map_map]
    refine List.map_congr_left ?_
    intro q hq
    by_cases hqk : q.1 = k
    · simp [hqk]
    · simp [hqk]
  · rw [if_neg hd]
    have hall : ∀ p ∈ d, ¬ p.1 = k := by
      intro p hp hpk
      exact hd (List.any_eq_true.mpr ⟨p, hp, by simpa using hpk⟩)
    have hd2 : ((d ++ [(k, v)]).any (fun p => p.1 = k)) = true := by
      refine List.any_eq_true.mpr ⟨(k, v), List.mem_append.mpr (Or.inr ?_), by simp⟩
      exact List.mem_singleton.mpr rfl
    rw [if_pos hd2, List.map_append]
    have h1 : d.map (fun p => if p.1 = k then (k, v) else p) = d := by
      have h2 : d.map (fun p => if p.1 = k then (k, v) else p) = d.map id :=
        List.map_congr_left (fun p hp => by rw [if_neg (hall p hp)]; rfl)
      rw [h2, List.map_id]
    rw [h1]
    simp

theorem outputRecord_getCond (g : MergedGroup) (o : SpawnRecord)
    (h : outputRecord g = .ok o) :
    ∃ d0 sorted, insertionSortE pyLt g.biomes = .ok sorted ∧
      o.condition = some (some (setCondEntry d0 "biomes" (.listJ sorted))) := by
  unfold outputRecord at h
  cases hc : g.rep.condition with
  | none =>
    rw [hc] at h
    simp only [bind, Except.bind, pure, Except.pure] at h
    cases hs : insertionSortE pyLt g.biomes with
    | error e => rw [hs] at h; simp [Except.bind] at h
    | ok sorted =>
      rw [hs] at h
      simp only [Except.bind] at h
      injection h with h
      subst h
      exact ⟨[], sorted, rfl, rfl⟩
  | some oc =>
    cases oc with
    | none =>
      rw [hc] at h
      simp [bind, Except.bind, throw, throwThe, MonadExceptOf.throw] at h
    | some d =>
      rw [hc] at h
      simp only [bind, Except.bind, pure, Except.pure] at h
      cases hs : insertionSortE pyLt g.biomes with
      | error e => rw [hs] at h; simp [Except.bind] at h
      | ok sorted =>
        rw [hs] at h
        simp only [Except.bind] at h
        injection h with h
        subst h
        exact ⟨d, sorted, rfl, rfl⟩

theorem mapM_ok_intro {α β : Type} (f : α → Except PyErr β) :
    ∀ (l : List α) (out : List β), l.length = out.length →
      (∀ i (hi : i < l.length) (hi2 : i < out.length),
        f (l.get ⟨i, hi⟩) = .ok (out.get ⟨i, hi2⟩)) →
      l.mapM f = .ok out := by
  intro l
  induction l with
  | nil =>
    intro out hlen _
    cases out with
    | nil => rfl
    | cons b bs => simp at hlen
  | cons a t ih =>
    intro out hlen hget
    cases out with
    | nil => simp at hlen
    | cons b bs =>
      rw [List.mapM_cons]
      have h0 := hget 0 (by simp) (by simp)
      simp only [List.get] at h0
      rw [h0]
      rw [ih bs (by simpa using hlen) (fun i hi hi2 => by
        simpa using hget (i + 1) (by simpa using Nat.succ_lt_succ hi)
          (by simpa using Nat.succ_lt_succ hi2))]
      simp [bind, Except.bind, pure, Except.pure]

theorem insertRecord_notfound (k : SpawnKey) (conds : List (String × JValue))
    (r : SpawnRecord) (bs : List JValue) :
    ∀ (gs : List (SpawnKey × MergedGroup)),
      (∀ p ∈ gs, normKey p.1 ≠ normKey k) →
      addBiomes [] conds = .ok bs →
      insertRecord k conds r gs = .ok (gs ++ [(k, ⟨bs, r⟩)]) := by
  intro gs
  induction gs with
  | nil =>
    intro _ hab
    unfold insertRecord
    rw [hab]
    rfl
  | cons q rest ih =>
    intro hall hab
    obtain ⟨k0, g0⟩ := q
    unfold insertRecord
    rw [if_neg (hall (k0, g0) (List.mem_cons_self _ _))]
    rw [ih (fun p hp => hall p (List.mem_cons_of_mem _ hp)) hab]
    rfl

theorem foldlM_setAdd_id :
    ∀ (l s : List JValue), (∀ v ∈ l, pyTruthy v = true ∧ isHashableJ v = true) →
      (l.Pairwise (fun v w => jNorm v ≠ jNorm w)) →
      (∀ w ∈ s, ∀ v ∈ l, jNorm w ≠ jNorm v) →
      l.foldlM (fun acc b => if pyTruthy b then setAdd acc b else pure acc) s
        = .ok (s ++ l) := by
  intro l
  induction l with
  | nil =>
    intro s _ _ _
    simp only [List.foldlM_nil, List.append_nil]
    rfl
  | cons x t ih =>
    intro s hwf hpw hfree
    rw [List.foldlM_cons]
    rw [if_pos (hwf x (List.mem_cons_self x t)).1]
    have hnotin : s.any (fun w => jNorm w = jNorm x) = false := by
      rw [Bool.eq_false_iff]
      intro hc
      obtain ⟨w, hw, hwx⟩ := List.any_eq_true.mp hc
      exact hfree w hw x (List.mem_cons_self x t) (by simpa using hwx)
    have hset : setAdd s x = .ok (s ++ [x]) := by
      unfold setAdd
      rw [if_pos (hwf x (List.mem_cons_self x t)).2, hnotin]
      rfl
    rw [hset]
    simp only [bind, Except.bind]
    have hrec := ih (s ++ [x]) (fun v hv => hwf v (List.mem_cons_of_mem x hv))
      hpw.of_cons (by
        intro w hw v hv
        rcases List.mem_append.mp hw with hw | hw
        · exact hfree w hw v (List.mem_cons_of_mem x hv)
        · rw [List.mem_singleton.mp hw]
          exact List.rel_of_pairwise_cons hpw hv)
    rw [hrec]
    rw [List.append_assoc]
    rfl

theorem computeKey_congr (a b : SpawnRecord) (hsame : sameExceptBiomes a b)
    (hsafe : (∃ i, a.id = some i) ∨ ∃ ps, presetsKey a.presets = .ok ps)
    (urand1 urand2 : Nat → String) (idx1 idx2 : Nat) :
    computeKey urand2 idx2 a = computeKey urand1 idx1 b := by
  obtain ⟨hid, hctx, hlvl, hbkt, hwt, hwm, hpre, hanti, hof, hkc⟩ := hsame
  have hganti : getAnti a = getAnti b := by
    unfold getAnti
    rw [hanti]
  have htkt : ∀ hc ha, tryKeyTuple a hc ha = tryKeyTuple b hc ha := by
    intro hc ha
    unfold tryKeyTuple
    rw [hpre, hctx, hlvl, hbkt, hwt, hwm]
  have hfb : fallbackKey urand2 idx2 a = fallbackKey urand1 idx1 b ∨
      ∀ hc ha e, tryKeyTuple b hc ha ≠ .error e := by
    rcases hsafe with ⟨i, hi⟩ | ⟨ps, hps⟩
    · left
      unfold fallbackKey
      have hbi : b.id = some i := hid ▸ hi
      rw [hi, hbi]
    · right
      intro hc ha e hcon
      have hunf : tryKeyTuple b hc ha =
          (presetsKey b.presets).bind (fun ps2 => Except.ok
            { context := b.context.getD .nullJ, level := b.level.getD .nullJ,
              bucket := b.bucket.getD .nullJ, weight := b.weight.getD .nullJ,
              weightMultiplier := make_hashable (b.weightMultiplier.getD .nullJ),
              conditions := hc, anticonditions := ha, presets := ps2 }) := rfl
      rw [hunf, ← hpre, hps] at hcon
      simp [Except.bind] at hcon
  unfold computeKey
  rw [hkc, hganti]
  cases h1 : getListOrEmpty (keyConditions (getCond b)) "pokemon_in_party_requirement" with
  | error e => simp [bind, Except.bind]
  | ok party =>
    simp only [bind, Except.bind]
    cases h2 : sortByField "species" party with
    | error e => rfl
    | ok partySorted =>
      simp only [bind, Except.bind]
      cases h3 : getListOrEmpty (keyConditions (getCond b)) "item_requirement" with
      | error e => rfl
      | ok item =>
        simp only [bind, Except.bind]
        cases h4 : sortByField "id" item with
        | error e => rfl
        | ok itemSorted =>
          simp only [bind, Except.bind]
          rw [htkt]
          cases htk : tryKeyTuple b
              (hashConds (keyConditions (getCond b))
                (make_hashable (.listJ partySorted))
                (make_hashable (.listJ itemSorted)))
              (make_hashable (.objJ (getAnti b))) with
          | ok t => rfl
          | error e =>
            rcases hfb with hfb | hno
            · rw [hfb]
            · exact absurd htk (hno _ _ e)

theorem mergeGroupsAux_singletons (urand : Nat → String) :
    ∀ (rs : List SpawnRecord) (idx : Nat) (gs : List (SpawnKey × MergedGroup)),
      (∀ j (hj : j < rs.length), ∃ k bs,
        computeKey urand (idx + j) (rs.get ⟨j, hj⟩) = .ok k ∧
        keyHashable k = true ∧
        addBiomes [] (getCond (rs.get ⟨j, hj⟩)) = .ok bs ∧
        (∀ p ∈ gs, normKey p.1 ≠ normKey k) ∧
        (∀ j2 (hj2 : j2 < rs.length), j2 ≠ j → ∀ k2,
          computeKey urand (idx + j2) (rs.get ⟨j2, hj2⟩) = .ok k2 →
          normKey k2 ≠ normKey k)) →
      ∃ gs2, mergeGroupsAux urand idx gs rs = .ok (gs ++ gs2) ∧
        gs2.length = rs.length ∧
        (∀ j (hj : j < rs.length) (hj2 : j < gs2.length),
          ∃ k bs, computeKey urand (idx + j) (rs.get ⟨j, hj⟩) = .ok k ∧
            addBiomes [] (getCond (rs.get ⟨j, hj⟩)) = .ok bs ∧
            gs2.get ⟨j, hj2⟩ = (k, ⟨bs, rs.get ⟨j, hj⟩⟩)) := by
  intro rs
  induction rs with
  | nil =>
    intro idx gs _
    refine ⟨[], ?_, rfl, ?_⟩
    · rw [mergeGroupsAux, List.append_nil]
    · intro j hj
      simp at hj
  | cons r t ih =>
    intro idx gs hall
    obtain ⟨k0, bs0, hk0, hkh0, hab0, hnew0, hdist0⟩ := hall 0 (by simp)
    rw [Nat.add_zero] at hk0
    have hk0r : computeKey urand idx r = .ok k0 := hk0
    obtain ⟨gs2, hmerge, hlen, hget⟩ := ih (idx + 1) (gs ++ [(k0, ⟨bs0, r⟩)]) (by
      intro j hj
      obtain ⟨k, bs, hk, hkh, hab, hnew, hdist⟩ :=
        hall (j + 1) (by simpa using Nat.succ_lt_succ hj)
      have harith : idx + 1 + j = idx + (j + 1) := by omega
      refine ⟨k, bs, by rw [harith]; simpa using hk, hkh, by simpa using hab, ?_, ?_⟩
      · intro p hp
        rcases List.mem_append.mp hp with hp | hp
        · exact hnew p hp
        · rw [List.mem_singleton.mp hp]
          intro hc
          exact hdist0 (j + 1) (by simpa using Nat.succ_lt_succ hj) (by omega) k
            (by simpa using hk) hc.symm
      · intro j2 hj2 hne k2 hk2
        have harith2 : idx + 1 + j2 = idx + (j2 + 1) := by omega
        refine hdist (j2 + 1) (by simpa using Nat.succ_lt_succ hj2) (by omega) k2 ?_
        rw [harith2] at hk2
        simpa using hk2)
    refine ⟨(k0, ⟨bs0, r⟩) :: gs2, ?_, by simpa using hlen, ?_⟩
    · rw [mergeGroupsAux, hk0r]
      simp only [bind, Except.bind]
      rw [if_pos hkh0]
      rw [insertRecord_notfound k0 (getCond r) r bs0 gs hnew0 hab0]
      simp only [bind, Except.bind]
      rw [hmerge]
      rw [List.append_assoc]
      rfl
    · intro j hj hj2
      cases j with
      | zero =>
        refine ⟨k0, bs0, by simpa using hk0r, hab0, rfl⟩
      | succ j =>
        have hjt : j < t.length := by simpa using hj
        have hjg : j < gs2.length := by simpa using hj2
        obtain ⟨k, bs, hk, hab, hgg⟩ := hget j hjt hjg
        have harith : idx + 1 + j = idx + (j + 1) := by omega
        refine ⟨k, bs, ?_, by simpa using hab, by simpa using hgg⟩
        rw [← harith]
        simpa using hk

theorem nodup_get_ne {α : Type} :
    ∀ (l : List α), l.Nodup →
      ∀ i i2 (h1 : i < l.length) (h2 : i2 < l.length), i ≠ i2 →
        l.get ⟨i, h1⟩ ≠ l.get ⟨i2, h2⟩ := by
  intro l
  induction l with
  | nil =>
    intro _ i i2 h1 _ _
    simp at h1
  | cons a t ih =>
    intro hnd i i2 h1 h2 hne
    rw [List.nodup_cons] at hnd
    cases i with
    | zero =>
      cases i2 with
      | zero => exact absurd rfl hne
      | succ i2 =>
        simp only [List.get]
        intro hc
        refine hnd.1 ?_
        rw [hc]
        exact List.get_mem t i2 (by simpa using h2)
    | succ i =>
      cases i2 with
      | zero =>
        simp only [List.get]
        intro hc
        refine hnd.1 ?_
        rw [← hc]
        exact List.get_mem t i (by simpa using h1)
      | succ i2 =>
        simp only [List.get]
        exact ih hnd.2 i i2 (by simpa using h1) (by simpa using h2) (by omega)

theorem outputRecord_build (rep : SpawnRecord) (bs sorted : List JValue)
    (dd : List (String × JValue))
    (hcond : rep.condition = some (some dd))
    (hsort : insertionSortE pyLt bs = .ok sorted)
    (hidem : setCondEntry dd "biomes" (.listJ sorted) = dd) :
    outputRecord ⟨bs, rep⟩ = .ok rep := by
  unfold outputRecord
  rw [show (⟨bs, rep⟩ : MergedGroup).rep = rep from rfl]
  rw [show (⟨bs, rep⟩ : MergedGroup).biomes = bs from rfl]
  rw [hcond]
  simp only [bind, Except.bind, pure, Except.pure]
  rw [hsort]
  simp only [Except.bind]
  rw [hidem, ← hcond]

/-- C8 (amended): re-merging the output of `merge_similar_spawns` returns
that output unchanged — in particular the same canonical keys and the same
accumulated biome sets — under the two conditions that make the output's
keys reproducible: no record needed the random fallback token (each output
record has an `id` or sortable presets) and the biome values are strings
(as in the datapack).  Without the first condition idempotence fails, see
`claim_C8_counterexample`. -/
theorem claim_C8_idempotent (urand1 urand2 : Nat → String) (l out : List SpawnRecord)
    (hrun : merge_similar_spawns urand1 l = .ok out)
    (hsafe : ∀ o ∈ out, (∃ i, o.id = some i) ∨ ∃ ps, presetsKey o.presets = .ok ps)
    (hstrb : ∀ o ∈ out, ∀ v ∈ outBiomes o, ∃ s, v = JValue.strJ s) :
    merge_similar_spawns urand2 out = .ok out := by
  unfold merge_similar_spawns at hrun
  cases hmg : mergeGroups urand1 l with
  | error e => rw [hmg] at hrun; simp [bind, Except.bind] at hrun
  | ok gs =>
    rw [hmg] at hrun
    simp only [bind, Except.bind] at hrun
    have hinv : GroupsInv urand1 l gs := by
      have haux := mergeGroupsAux_inv urand1 l [] [] gs (groupsInv_nil urand1) hmg
      simpa using haux
    have hlen_out : out.length = gs.length := mapM_ok_length _ gs out hrun
    have hcov : ∀ j (hj : j < l.length),
        ∃ k, computeKey urand1 (0 + j) (l.get ⟨j, hj⟩) = .ok k := by
      intro j hj
      obtain ⟨k', hck, _⟩ := hinv.covers j hj
      exact ⟨k', by rw [Nat.zero_add]; exact hck⟩
    obtain ⟨ks, hks, hkslen, hksget⟩ := inputKeys_ok_of_covers urand1 l 0 hcov
    have hnd : (gs.map (fun p => normKey p.1)).Nodup := by
      rw [hinv.keys_eq ks hks]
      exact firstDedup_nodup _
    have hdistinct : ∀ i i2 (h1 : i < gs.length) (h2 : i2 < gs.length), i ≠ i2 →
        normKey (gs.get ⟨i, h1⟩).1 ≠ normKey (gs.get ⟨i2, h2⟩).1 := by
      intro i i2 h1 h2 hne
      have hm1 : i < (gs.map (fun p => normKey p.1)).length := by simpa using h1
      have hm2 : i2 < (gs.map (fun p => normKey p.1)).length := by simpa using h2
      have hg1 : (gs.map (fun p => normKey p.1)).get ⟨i, hm1⟩
          = normKey (gs.get ⟨i, h1⟩).1 := by simp
      have hg2 : (gs.map (fun p => normKey p.1)).get ⟨i2, hm2⟩
          = normKey (gs.get ⟨i2, h2⟩).1 := by simp
      have hne2 := nodup_get_ne _ hnd i i2 hm1 hm2 hne
      rw [hg1, hg2] at hne2
      exact hne2
    have hsymm : Symmetric (fun v w : JValue => jNorm v ≠ jNorm w) :=
      fun v w h hc => h hc.symm
    have hfact : ∀ i (hi : i < out.length) (higs : i < gs.length),
        computeKey urand2 i (out.get ⟨i, hi⟩) = .ok (gs.get ⟨i, higs⟩).1 ∧
        keyHashable (gs.get ⟨i, higs⟩).1 = true ∧
        ∃ sorted, insertionSortE pyLt (gs.get ⟨i, higs⟩).2.biomes = .ok sorted ∧
          addBiomes [] (getCond (out.get ⟨i, hi⟩)) = .ok sorted ∧
          (∀ v ∈ sorted, ∃ s, v = JValue.strJ s) ∧
          List.Chain' (fun v w => strValOf v ≤ strValOf w) sorted ∧
          ∃ d0, (out.get ⟨i, hi⟩).condition
            = some (some (setCondEntry d0 "biomes" (.listJ sorted))) := by
      intro i hi higs
      have hout_i := mapM_ok_get _ gs out hrun i higs hi
      obtain ⟨hsame_i, sorted_i, hs_i, hperm_i, hlook_i, hob_i⟩ :=
        outputRecord_spec (gs.get ⟨i, higs⟩).2 (out.get ⟨i, hi⟩) hout_i
      obtain ⟨d0, sorted', hs', hcond_i⟩ :=
        outputRecord_getCond (gs.get ⟨i, higs⟩).2 (out.get ⟨i, hi⟩) hout_i
      have hss : sorted' = sorted_i := by
        rw [hs_i] at hs'
        injection hs' with h
        exact h.symm
      rw [hss] at hcond_i
      have hmem_out : out.get ⟨i, hi⟩ ∈ out := List.get_mem out i hi
      have hstr_i : ∀ v ∈ sorted_i, ∃ s, v = JValue.strJ s := by
        intro v hv
        refine hstrb _ hmem_out v ?_
        rw [hob_i]
        exact hv
      have hstrg_i : ∀ v ∈ (gs.get ⟨i, higs⟩).2.biomes, ∃ s, v = JValue.strJ s :=
        fun v hv => hstr_i v (hperm_i.mem_iff.mpr hv)
      have hchain_i : List.Chain' (fun v w => strValOf v ≤ strValOf w) sorted_i := by
        obtain ⟨out0, hout0, _, hchain0⟩ :=
          insertionSortE_strv (gs.get ⟨i, higs⟩).2.biomes hstrg_i
        rw [hs_i] at hout0
        injection hout0 with h
        rw [← h] at hchain0
        exact hchain0
      have hwf_i := hinv.biomes_wf (gs.get ⟨i, higs⟩) (List.get_mem gs i higs)
      have hfold := foldlM_setAdd_id sorted_i []
        (fun v hv => hwf_i.1 v (hperm_i.mem_iff.mp hv))
        ((hperm_i.pairwise_iff (fun h hc => h hc.symm)).mpr hwf_i.2)
        (by intro w hw; simp at hw)
      have hab_i : addBiomes [] (getCond (out.get ⟨i, hi⟩)) = .ok sorted_i := by
        have hred : addBiomes [] (getCond (out.get ⟨i, hi⟩)) =
            sorted_i.foldlM (fun acc b => if pyTruthy b then setAdd acc b else pure acc)
              [] := by
          unfold addBiomes
          rw [hlook_i]
        rw [hred, hfold]
        rfl
      obtain ⟨j, hj, hkey_j, hrep_j, _⟩ := hinv.rep_first i higs
      have hck_i : computeKey urand2 i (out.get ⟨i, hi⟩) = .ok (gs.get ⟨i, higs⟩).1 := by
        have hsame2 : sameExceptBiomes (out.get ⟨i, hi⟩) (l.get ⟨j, hj⟩) := by
          rw [← hrep_j]
          exact hsame_i
        rw [computeKey_congr (out.get ⟨i, hi⟩) (l.get ⟨j, hj⟩) hsame2
          (hsafe _ hmem_out) urand1 urand2 j i]
        exact hkey_j
      exact ⟨hck_i, hinv.keys_hashable _ (List.get_mem gs i higs), sorted_i, hs_i,
        hab_i, hstr_i, hchain_i, d0, hcond_i⟩
    obtain ⟨gs2, hmg2, hlen2, hget2⟩ := mergeGroupsAux_singletons urand2 out 0 [] (by
      intro i hi
      have higs : i < gs.length := by rw [← hlen_out]; exact hi
      obtain ⟨hck, hkh, sorted, hs, hab, hstr, hchain, d0, hcond⟩ := hfact i hi higs
      refine ⟨(gs.get ⟨i, higs⟩).1, sorted, by rw [Nat.zero_add]; exact hck, hkh, hab,
        ?_, ?_⟩
      · intro p hp
        simp at hp
      · intro j2 hj2 hne k2 hk2
        have hj2g : j2 < gs.length := by rw [← hlen_out]; exact hj2
        obtain ⟨hck2, _, _⟩ := hfact j2 hj2 hj2g
        rw [Nat.zero_add] at hk2
        rw [hck2] at hk2
        injection hk2 with hk2
        rw [← hk2]
        exact hdistinct j2 i hj2g higs hne)
    have hmg2full : mergeGroups urand2 out = .ok gs2 := by
      unfold mergeGroups
      rw [hmg2]
      rfl
    unfold merge_similar_spawns
    rw [hmg2full]
    simp only [bind, Except.bind]
    refine mapM_ok_intro _ gs2 out (by rw [hlen2]) ?_
    intro i hi hi2
    have hig : i < out.length := by rw [← hlen2]; exact hi
    have higs : i < gs.length := by rw [← hlen_out]; exact hi2
    obtain ⟨k, bs, hk, hab, hgg⟩ := hget2 i hig hi
    obtain ⟨hck, hkh, sorted, hs, hab_i, hstr, hchain, d0, hcond⟩ := hfact i hi2 higs
    have hbs : bs = sorted := by
      have hab2 := hab
      rw [hab_i] at hab2
      injection hab2 with h
      exact h.symm
    rw [hbs] at hgg
    rw [hgg]
    show outputRecord (⟨sorted, out.get ⟨i, hig⟩⟩ : MergedGroup) = .ok (out.get ⟨i, hi2⟩)
    have hidem : setCondEntry (setCondEntry d0 "biomes" (.listJ sorted)) "biomes"
        (.listJ sorted) = setCondEntry d0 "biomes" (.listJ sorted) :=
      setCondEntry_idem d0 "biomes" (.listJ sorted)
    exact outputRecord_build (out.get ⟨i, hi2⟩) sorted sorted
      (setCondEntry d0 "biomes" (.listJ sorted)) hcond
      (insertionSortE_strv_fix sorted hstr hchain) hidem

/-- C8 fails on records that take the random fallback key: a record with
unsortable presets and no `id` is keyed `unique_<os.urandom token>`, so
re-running the merge on the output draws a fresh token and produces a
different canonical key set ({unique_A} versus {unique_B}). -/
theorem claim_C8_counterexample :
    merge_similar_spawns (fun _ => "A") [recBadPresetsNoId] =
      .ok [recBadPresetsNoIdOut] ∧
    inputKeys (fun _ => "A") 0 [recBadPresetsNoId] = .ok [.strK "unique_A"] ∧
    inputKeys (fun _ => "B") 0 [recBadPresetsNoIdOut] = .ok [.strK "unique_B"] ∧
    normKey (.strK "unique_A") ≠ normKey (.strK "unique_B") :=
  ⟨by decide, by decide, by decide, by decide⟩

/-- Witness for C8: re-merging the one-record merge output with a fresh
entropy source returns it unchanged (the record has sortable presets). -/
theorem claim_C8_witness :
    merge_similar_spawns (fun _ => "B") [sampleRec 1 ["forest"]] =
      .ok [sampleRec 1 ["forest"]] :=
  claim_C8_idempotent (fun _ => "A") (fun _ => "B") [sampleRec 1 ["forest"]]
    [sampleRec 1 ["forest"]] (by decide)
    (by
      intro o ho
      rcases List.mem_singleton.mp ho with rfl
      exact Or.inr ⟨[], rfl⟩)
    (by
      intro o ho v hv
      rcases List.mem_singleton.mp ho with rfl
      have hob : outBiomes (sampleRec 1 ["forest"]) = [JValue.strJ "forest"] := rfl
      rw [hob] at hv
      rcases List.mem_singleton.mp hv with rfl
      exact ⟨"forest", rfl⟩)

/-- Witness for C7: `"a \r\nb"` and `"a\nb  "` normalize identically. -/
theorem claim_C7_witness :
    normalize (joinBreaks (List.zipWith (· ++ ·) [['a'], ['b']] [[' '], []])
        (fun _ => true)) =
      normalize (joinBreaks (List.zipWith (· ++ ·) [['a'], ['b']] [[], [' ', ' ']])
        (fun _ => false)) :=
  claim_C7_normalize_idempotent_insensitive.2 [['a'], ['b']] [[' '], []] [[], [' ', ' ']]
    (fun _ => true) (fun _ => false) (by decide) (by decide) (by decide) (by decide)
    (by decide)

end Spawn